import Mathlib

/-!
# Tetris rules engine: a shallow embedding of `src/main.cpp`

The grid is `std::array<std::array<Cell, COLS>, ROWS>`; it is embedded as a list of rows,
each a list of cell ids, together with the well-formedness predicate `Grid.WF` (20 rows of
10 cells).  C++ `int` values are embedded as `Int`; where a property depends on the 32-bit
range, the range is a stated condition (`ReachableInt`).  C++ `float` values are embedded as
rationals, and every `float` operation rounds its exact result to the nearest binary32
value (`roundF32`).  Loops whose termination is not
structural (`clearLines`, the descent of `hardDrop`) take an explicit iteration budget and
return `none` when it is exhausted; the theorems show that a sufficient budget always
yields a result.
-/

namespace Tetris

/-! ## Constants and the grid (main.cpp 7-18) -/

def COLS : Nat := 10
def ROWS : Nat := 20

/-- One row of the grid: the `id` fields of `std::array<Cell, COLS>`. -/
abbrev Row := List Int

/-- The playfield: `std::array<std::array<Cell, COLS>, ROWS>`, row 0 on top. -/
abbrev Grid := List Row

/-- A grid has the shape of the C++ array type: `ROWS` rows of `COLS` cells. -/
def Grid.WF (g : Grid) : Prop := g.length = ROWS ∧ ∀ r ∈ g, r.length = COLS

instance (g : Grid) : Decidable (Grid.WF g) := by
  unfold Grid.WF; exact inferInstance

/-- Read of `g[y][x].id`. -/
def cellAt (g : Grid) (y x : Nat) : Int := (g.getD y []).getD x 0

/-- Write `g[y][x].id = v`. -/
def setCell (g : Grid) (y x : Nat) (v : Int) : Grid := g.set y ((g.getD y []).set x v)

/-- The all-empty row. -/
def emptyRow : Row := List.replicate COLS 0

/-- The grid after `for (auto& r : grid) for (auto& c : r) c.id = 0` (main.cpp 180, 200). -/
def emptyGrid : Grid := List.replicate ROWS emptyRow

/-! ## clearLines (main.cpp 103-115) -/

/-- Line 106-107: `full` after the scan of row `y` (the scan stops at the first empty cell). -/
def rowFull (g : Grid) (y : Nat) : Bool :=
  (List.range COLS).all fun x => cellAt g y x != 0

/-- Line 109: `for (int yy = y; yy > 0; --yy) g[yy] = g[yy - 1];` started at `yy`. -/
def shiftDown (g : Grid) : Nat → Grid
  | 0 => g
  | yy + 1 => shiftDown (g.set (yy + 1) (g.getD yy [])) yy

/-- Line 110: `for (int x = 0; x < COLS; ++x) g[0][x].id = 0;`. -/
def clearTop (g : Grid) : Grid :=
  (List.range COLS).foldl (fun acc x => setCell acc 0 x 0) g

/-- The outer loop of `clearLines` at loop variable `y` with `cleared` rows counted so far.
One unit of `fuel` is one evaluation of the loop condition `y >= 0`.  On a full row the
body ends with `y++` and the loop header then does `--y`, so the same index is examined
again. -/
def clearLinesLoop : Nat → Grid → Int → Int → Option (Grid × Int)
  | 0, _, _, _ => none
  | fuel + 1, g, y, cleared =>
    if y < 0 then some (g, cleared)
    else if rowFull g y.toNat then
      clearLinesLoop fuel (clearTop (shiftDown g y.toNat)) ((y + 1) - 1) (cleared + 1)
    else
      clearLinesLoop fuel g (y - 1) cleared

/-- The function `clearLines`: the resulting grid and the returned count. -/
def clearLines (fuel : Nat) (g : Grid) : Option (Grid × Int) :=
  clearLinesLoop fuel g ((ROWS : Int) - 1) 0

/-! ## Pieces and the shape catalogue (main.cpp 20-66) -/

/-- A piece: `type` is the kind (0..6 for I,J,L,O,S,T,Z), `r` the rotation index, `(x, y)` the
anchor.  The defaults are the member initialisers of the C++ struct. -/
structure Piece where
  type : Int := 0
  r : Int := 0
  x : Int := 3
  y : Int := -2
deriving DecidableEq, Repr

/-- One rotation state: the four cell offsets (the `Vector2` components are small integers,
cast back to `int` at every use). -/
abbrev Shape := List (Int × Int)

/-- The table `SHAPES`, kinds in the order I, J, L, O, S, T, Z. -/
def SHAPES : List (List Shape) :=
  [ -- I
    [ [(0,1), (1,1), (2,1), (3,1)],
      [(2,0), (2,1), (2,2), (2,3)] ],
    -- J
    [ [(0,0), (0,1), (1,1), (2,1)],
      [(1,0), (2,0), (1,1), (1,2)],
      [(0,1), (1,1), (2,1), (2,2)],
      [(1,0), (1,1), (1,2), (0,2)] ],
    -- L
    [ [(2,0), (0,1), (1,1), (2,1)],
      [(1,0), (1,1), (1,2), (2,2)],
      [(0,1), (1,1), (2,1), (0,2)],
      [(0,0), (1,0), (1,1), (1,2)] ],
    -- O
    [ [(1,0), (2,0), (1,1), (2,1)] ],
    -- S
    [ [(1,0), (2,0), (0,1), (1,1)],
      [(1,0), (1,1), (2,1), (2,2)] ],
    -- T
    [ [(1,0), (0,1), (1,1), (2,1)],
      [(1,0), (1,1), (2,1), (1,2)],
      [(0,1), (1,1), (2,1), (1,2)],
      [(1,0), (0,1), (1,1), (1,2)] ],
    -- Z
    [ [(0,0), (1,0), (1,1), (2,1)],
      [(2,0), (1,1), (2,1), (1,2)] ] ]

/-- The lookup `SHAPES[type]`.  An index outside 0..6 is undefined in C++; the embedding
yields the empty list there, and the theorems assume the kind in range. -/
def rotsOf (type : Int) : List Shape :=
  if 0 ≤ type then SHAPES.getD type.toNat [] else []

/-- The lookup `rots[p.r % rots.size()]`: `p.r` is converted to the unsigned `size_t`
(that is, reduced modulo `2^64`) before the remainder is taken. -/
def shapeOf (p : Piece) : Shape :=
  let rots := rotsOf p.type
  rots.getD ((p.r % 2 ^ 64).toNat % rots.length) []

/-! ## The seven-bag randomiser (main.cpp 70-79) -/

/-- The contents of the bag before `std::shuffle`. -/
def bagInit : List Int := [0, 1, 2, 3, 4, 5, 6]

/-- The possible outcomes of `std::shuffle` on the fresh bag: its permutations. -/
def IsShuffle (l : List Int) : Prop := l.Perm bagInit

instance (l : List Int) : Decidable (IsShuffle l) := by
  unfold IsShuffle; exact inferInstance

/-- The method `SevenBag::next`: the returned kind and the bag afterwards.  `shuffled` is the
outcome of the shuffle, used only when the bag is empty. -/
def SevenBag.next (shuffled : List Int) (bag : List Int) : Int × List Int :=
  let bag1 := if bag.isEmpty then shuffled else bag
  (bag1.getLastD 0, bag1.dropLast)

/-! ## valid, lockPiece, pieceAboveTop (main.cpp 81-101, 148-154) -/

/-- The function `valid`: every cell in the columns, above the floor, and on an empty cell
when it is inside the field. -/
def valid (g : Grid) (p : Piece) : Bool :=
  (shapeOf p).all fun c =>
    let x := p.x + c.1
    let y := p.y + c.2
    if x < 0 || x ≥ (COLS : Int) || y ≥ (ROWS : Int) then false
    else if y ≥ 0 && cellAt g y.toNat x.toNat != 0 then false
    else true

/-- The assignment `g[y][x].id = v` for `int` indices.  An index outside the array is
undefined in C++; the embedding writes nothing there, and the theorems assume the cell
within the array. -/
def writeCell (g : Grid) (y x : Int) (v : Int) : Grid :=
  if 0 ≤ y ∧ y < (ROWS : Int) ∧ 0 ≤ x ∧ x < (COLS : Int) then setCell g y.toNat x.toNat v else g

/-- The function `lockPiece`. -/
def lockPiece (g : Grid) (p : Piece) : Grid :=
  (shapeOf p).foldl
    (fun acc c =>
      let x := p.x + c.1
      let y := p.y + c.2
      if y ≥ 0 then writeCell acc y x (p.type + 1) else acc)
    g

/-- The function `pieceAboveTop`: some block of the piece is above the visible field. -/
def pieceAboveTop (p : Piece) : Bool :=
  (shapeOf p).any fun c => p.y + c.2 < 0

/-! ## Arithmetic of `float` (IEEE 754 binary32, round to nearest, ties to even) -/

/-- The integer nearest to `q`, the even one of the two when `q` lies halfway. -/
def roundEven (q : ℚ) : Int :=
  let f := ⌊q⌋
  let r := q - f
  if r < 1 / 2 then f
  else if 1 / 2 < r then f + 1
  else if f % 2 = 0 then f else f + 1

/-- Halving loop of `ilog2`. -/
def log2Loop : Nat → Nat → Nat
  | 0, _ => 0
  | fuel + 1, n => if 2 ≤ n then log2Loop fuel (n / 2) + 1 else 0

/-- The binary logarithm of a natural number, rounded down (0 at 0). -/
def ilog2 (n : Nat) : Nat := log2Loop n n

/-- The binary exponent `e` of a rational other than 0: `2 ^ e ≤ |q| < 2 ^ (e + 1)`. -/
def expOf (q : ℚ) : Int :=
  let e : Int := (ilog2 q.num.natAbs : Int) - (ilog2 q.den : Int)
  if (2 : ℚ) ^ e ≤ |q| then e else e - 1

/-- The exponent of the unit in the last place of a `float` of the magnitude of `q`: 24
significant bits, and `2 ^ (-149)` for the subnormal numbers. -/
def ulpExp (q : ℚ) : Int := max (expOf q - 23) (-149)

/-- The `float` nearest to `q`.  The overflow to infinity beyond `2 ^ 128` is not
represented: such a value is rounded as if the exponent range had no upper end. -/
def roundF32 (q : ℚ) : ℚ := (roundEven (q / 2 ^ ulpExp q) : ℚ) * 2 ^ ulpExp q

/-- The sum `a + b` of two `float`. -/
def fadd (a b : ℚ) : ℚ := roundF32 (a + b)

/-- The difference `a - b` of two `float`. -/
def fsub (a b : ℚ) : ℚ := roundF32 (a - b)

/-- The product `a * b` of two `float`. -/
def fmul (a b : ℚ) : ℚ := roundF32 (a * b)

/-! ## The session state (locals of `main`, main.cpp 180-197 and 289) -/

/-- The mutable locals of `main` that the rules use.  Times are in milliseconds; a `float`
is embedded as the rational it stands for, an `int` as an integer without bound. -/
structure State where
  grid : Grid
  bag : List Int
  cur : Piece
  nxt : Piece
  holdType : Int
  canHold : Bool
  score : Int
  lines : Int
  level : Int
  gravityMs : ℚ
  fallTimer : ℚ
  lockTimer : ℚ
  grounded : Bool
  paused : Bool
  gameOver : Bool
  holdL : ℚ
  holdR : ℚ
deriving DecidableEq

/-- The constant `lockDelayMs`. -/
def lockDelayMs : ℚ := 350

/-- The score table `table[5]` of the lock sequence. -/
def table : List Int := [0, 40, 100, 300, 1200]

/-- The lookup `table[c]` (an index outside 0..4 is undefined in C++; 0 here). -/
def tableAt (c : Int) : Int := if 0 ≤ c then table.getD c.toNat 0 else 0

/-- The lambda `softMove`: the returned flag and the state afterwards. -/
def softMove (dx dy : Int) (s : State) : Bool × State :=
  let t : Piece := { s.cur with x := s.cur.x + dx, y := s.cur.y + dy }
  if valid s.grid t then (true, { s with cur := t }) else (false, s)

/-- The kick offsets of `rotate`, in the order they are tried. -/
def kicks : List Int := [0, -1, 1, -2, 2]

/-- The lambda `rotate`.  The remainder is the truncating `%` of `int`. -/
def rotate (dir : Int) (s : State) : State :=
  let t := s.cur
  let n : Int := ((rotsOf t.type).length : Int)
  let t : Piece := { t with r := Int.tmod (t.r + (if dir > 0 then 1 else n - 1)) n }
  match (kicks.map fun k => ({ t with x := t.x + k } : Piece)).find? (valid s.grid) with
  | some w => { s with cur := w }
  | none => s

/-- Line 228: `while (softMove(0,1)) { dropped++; }`.  One unit of `fuel` is one call of
`softMove`. -/
def dropLoop : Nat → State → Int → Option (State × Int)
  | 0, _, _ => none
  | fuel + 1, s, dropped =>
    match softMove 0 1 s with
    | (true, s1) => dropLoop fuel s1 (dropped + 1)
    | (false, s1) => some (s1, dropped)

/-- Lines 245-246: the level and the gravity interval for a line total. -/
def levelOf (lines : Int) : Int := 1 + Int.tdiv lines 10

/-- Line 246: `std::max(120.f, 1000.f - 80.f*(level-1))`: the `int` value `level-1` is
converted to `float`, multiplied and subtracted in `float`. -/
def gravityOf (level : Int) : ℚ :=
  max 120 (fsub 1000 (fmul 80 (roundF32 (((level - 1 : Int)) : ℚ))))

/-- Lines 230-250 of `hardDrop`: everything after the descent loop, `dropped` being the
number of counted descents. -/
def hardDropLock (fuel : Nat) (shuffled : List Int) (dropped : Int) (s : State) :
    Option State :=
  let overflow := pieceAboveTop s.cur
  let s := { s with grid := lockPiece s.grid s.cur }
  if overflow then
    some { s with gameOver := true, paused := true }
  else
    let s := { s with score := s.score + dropped * 2 }
    match clearLines fuel s.grid with
    | none => none
    | some (g, c) =>
      let s := { s with grid := g }
      let s :=
        if c ≠ 0 then
          let score := s.score + tableAt c * s.level
          let lines := s.lines + c
          let level := levelOf lines
          { s with score := score, lines := lines, level := level, gravityMs := gravityOf level }
        else s
      let d := SevenBag.next shuffled s.bag
      let s := { s with cur := s.nxt, nxt := ({ type := d.1, r := 0, x := 3, y := -2 } : Piece),
                        bag := d.2, canHold := true }
      let s := if !valid s.grid s.cur then { s with gameOver := true, paused := true } else s
      some { s with grounded := false, lockTimer := 0 }

/-- The lambda `hardDrop`. -/
def hardDrop (fuel : Nat) (shuffled : List Int) (s : State) : Option State :=
  match dropLoop fuel s 0 with
  | none => none
  | some (s1, dropped) => hardDropLock fuel shuffled dropped s1

/-- The lambda `doHold`. -/
def doHold (shuffled : List Int) (s : State) : State :=
  if !s.canHold then s
  else
    let s :=
      if s.holdType = -1 then
        let d := SevenBag.next shuffled s.bag
        { s with holdType := s.cur.type, cur := s.nxt,
                 nxt := ({ type := d.1, r := 0, x := 3, y := -2 } : Piece), bag := d.2 }
      else
        { s with holdType := s.cur.type,
                 cur := ({ type := s.holdType, r := 0, x := 3, y := -2 } : Piece) }
    let s := { s with canHold := false }
    if !valid s.grid s.cur then { s with gameOver := true, paused := true } else s

/-- Lines 315-332: the lock performed by the frame loop when the lock delay has expired. -/
def tickLock (fuel : Nat) (shuffled : List Int) (s : State) : Option State :=
  let overflow := pieceAboveTop s.cur
  let s := { s with grid := lockPiece s.grid s.cur }
  let r : Option State :=
    if overflow then
      some { s with gameOver := true, paused := true }
    else
      match clearLines fuel s.grid with
      | none => none
      | some (g, c) =>
        let s := { s with grid := g }
        let s :=
          if c ≠ 0 then
            let score := s.score + tableAt c * s.level
            let lines := s.lines + c
            let level := levelOf lines
            { s with score := score, lines := lines, level := level,
                     gravityMs := gravityOf level }
          else s
        let d := SevenBag.next shuffled s.bag
        let s := { s with cur := s.nxt,
                          nxt := ({ type := d.1, r := 0, x := 3, y := -2 } : Piece),
                          bag := d.2, canHold := true }
        some (if !valid s.grid s.cur then { s with gameOver := true, paused := true } else s)
  r.map fun s => { s with grounded := false, lockTimer := 0 }

/-- Lines 301-336: gravity and lock delay of one frame with elapsed time `dt`. -/
def tick (fuel : Nat) (shuffled : List Int) (dt : ℚ) (s : State) : Option State :=
  let s := { s with fallTimer := fadd s.fallTimer dt }
  let m : Bool × State :=
    if s.fallTimer ≥ s.gravityMs then softMove 0 1 { s with fallTimer := 0 } else (false, s)
  let couldFall := m.1
  let s := m.2
  let t : Piece := { s.cur with y := s.cur.y + 1 }
  let onFloor := !valid s.grid t
  if onFloor then
    let s :=
      if !s.grounded then { s with grounded := true, lockTimer := 0 }
      else { s with lockTimer := fadd s.lockTimer dt }
    if !couldFall ∧ s.lockTimer ≥ lockDelayMs then tickLock fuel shuffled s
    else some s
  else
    some { s with grounded := false, lockTimer := 0 }

/-! ## The frame loop (main.cpp 180-209, 266-337) -/

/-- The inputs of one pass of the frame loop: the elapsed time `GetFrameTime() * 1000`, the
keys tested with `IsKeyPressed` (`key...`) and `IsKeyDown` (`down...`), and the outcome of the
shuffle for each call site of `bag.next()` (consulted only if that call finds the bag
empty). -/
structure Input where
  dt : ℚ
  keyP : Bool
  keyR : Bool
  keyLeft : Bool
  keyRight : Bool
  downLeft : Bool
  downRight : Bool
  keyUp : Bool
  keyZ : Bool
  keySpace : Bool
  downDown : Bool
  keyShift : Bool
  shReset : List Int
  shDrop : List Int
  shHold : List Int
  shTick : List Int
deriving DecidableEq

/-- The state set up by lines 180-197 of `main`, `sh` being the outcome of the first shuffle
(the second call of `bag.next()` then finds six kinds in the bag). -/
def initState (sh : List Int) : State :=
  let d1 := SevenBag.next sh []
  let d2 := SevenBag.next sh d1.2
  { grid := emptyGrid, bag := d2.2,
    cur := { type := d1.1, r := 0, x := 3, y := -2 },
    nxt := { type := d2.1, r := 0, x := 3, y := -2 },
    holdType := -1, canHold := true, score := 0, lines := 0, level := 1,
    gravityMs := 1000, fallTimer := 0, lockTimer := 0, grounded := false,
    paused := false, gameOver := false, holdL := 0, holdR := 0 }

/-- The lambda `reset` (lines 199-209); the function-local statics `holdL`, `holdR` are not
touched. -/
def reset (sh : List Int) (s : State) : State :=
  let d1 := SevenBag.next sh []
  let d2 := SevenBag.next sh d1.2
  { s with grid := emptyGrid, bag := d2.2,
           cur := { type := d1.1, r := 0, x := 3, y := -2 },
           nxt := { type := d2.1, r := 0, x := 3, y := -2 },
           holdType := -1, canHold := true, score := 0, lines := 0, level := 1,
           gravityMs := 1000, fallTimer := 0, lockTimer := 0, grounded := false,
           paused := false, gameOver := false }

/-- Line 290: the repeat of the left move while the key is held. -/
def dasLeft (down : Bool) (dt : ℚ) (s : State) : State :=
  if down then
    let s := { s with holdL := fadd s.holdL dt }
    if s.holdL > 170 then
      let m := softMove (-1) 0 s
      if m.1 then { m.2 with holdL := fsub m.2.holdL 40 } else m.2
    else s
  else { s with holdL := 0 }

/-- Line 292: the repeat of the right move while the key is held. -/
def dasRight (down : Bool) (dt : ℚ) (s : State) : State :=
  if down then
    let s := { s with holdR := fadd s.holdR dt }
    if s.holdR > 170 then
      let m := softMove 1 0 s
      if m.1 then { m.2 with holdR := fsub m.2.holdR 40 } else m.2
    else s
  else { s with holdR := 0 }

/-- Lines 286-296: the moves and rotations of one frame. -/
def moveInput (inp : Input) (s : State) : State :=
  let s := if inp.keyLeft then (softMove (-1) 0 s).2 else s
  let s := if inp.keyRight then (softMove 1 0 s).2 else s
  let s := dasLeft inp.downLeft inp.dt s
  let s := dasRight inp.downRight inp.dt s
  let s := if inp.keyUp then rotate 1 s else s
  if inp.keyZ then rotate (-1) s else s

/-- Line 298: `if (softMove(0,1)) score += 1;`. -/
def softDrop (s : State) : State :=
  let m := softMove 0 1 s
  if m.1 then { m.2 with score := m.2.score + 1 } else m.2

/-- Lines 286-299: everything a running frame does before gravity and lock delay. -/
def preTick (fuel : Nat) (inp : Input) (s : State) : Option State :=
  let s := moveInput inp s
  match (if inp.keySpace then hardDrop fuel inp.shDrop s else some s) with
  | none => none
  | some s =>
    let s := if inp.downDown then softDrop s else s
    some (if inp.keyShift then doHold inp.shHold s else s)

/-- One pass of the frame loop (lines 266-337), rendering and audio left out. -/
def frame (fuel : Nat) (inp : Input) (s : State) : Option State :=
  let s := if inp.keyP then { s with paused := !s.paused } else s
  let s := if inp.keyR then reset inp.shReset s else s
  if !s.paused && !s.gameOver then
    match preTick fuel inp s with
    | none => none
    | some s => tick fuel inp.shTick inp.dt s
  else some s

/-- Successive frames, one per listed input. -/
def run (fuel : Nat) : List Input → State → Option State
  | [], s => some s
  | inp :: rest, s =>
    match frame fuel inp s with
    | none => none
    | some s1 => run fuel rest s1

/-! ## Notions used to state the properties -/

/-- A row is full when every cell id is nonzero. -/
def Row.isFull (r : Row) : Bool := r.all fun c => c != 0

/-- The number of full rows of a grid. -/
def fullCount (g : Grid) : Nat := g.countP Row.isFull

/-- The absolute cells `(x, y) = anchor + offset` of a piece. -/
def cells (p : Piece) : List (Int × Int) :=
  (shapeOf p).map fun c => (p.x + c.1, p.y + c.2)

/-- The kind is one of the seven catalogue entries. -/
def KindOK (type : Int) : Prop := 0 ≤ type ∧ type < 7

instance (t : Int) : Decidable (KindOK t) := by unfold KindOK; exact inferInstance

/-- The rotation index is within the rotation states of the kind. -/
def RotOK (p : Piece) : Prop := 0 ≤ p.r ∧ p.r < ((rotsOf p.type).length : Int)

instance (p : Piece) : Decidable (RotOK p) := by unfold RotOK; exact inferInstance

/-- The catalogue entry `SHAPES[type][r]`, indexed directly. -/
def catalogShape (type r : Int) : Shape := (SHAPES.getD type.toNat []).getD r.toNat []

/-- Successive calls of `SevenBag::next`, one per listed shuffle outcome (each outcome is
consulted only if its call finds the bag empty): the kinds returned and the final bag. -/
def draws : List (List Int) → List Int → List Int × List Int
  | [], bag => ([], bag)
  | sh :: rest, bag =>
    let d := SevenBag.next sh bag
    let r := draws rest d.2
    (d.1 :: r.1, r.2)

/-- The piece spawned from a drawn kind: rotation 0 at the anchor `(3, -2)`. -/
def spawnOf (type : Int) : Piece := { type := type, r := 0, x := 3, y := -2 }

/-- The piece of a state moved straight down by `n` rows. -/
def sunk (s : State) (n : Int) : State := { s with cur := { s.cur with y := s.cur.y + n } }

/-- The score table of the specification, for 0..4 cleared rows. -/
def scoreTable : Nat → Int
  | 0 => 0
  | 1 => 40
  | 2 => 100
  | 3 => 300
  | 4 => 1200
  | _ => 0

/-- The state in which the frame loop reaches its lock: the fall timer advanced (and reset
when a gravity step was due) and the lock timer advanced by the elapsed time. -/
def atExpiry (dt : ℚ) (s : State) : State :=
  { s with fallTimer := if fadd s.fallTimer dt ≥ s.gravityMs then 0 else fadd s.fallTimer dt,
           lockTimer := fadd s.lockTimer dt }

/-- Every shuffle outcome offered to a frame is a permutation of the seven kinds. -/
def Input.OK (inp : Input) : Prop :=
  IsShuffle inp.shReset ∧ IsShuffle inp.shDrop ∧ IsShuffle inp.shHold ∧ IsShuffle inp.shTick

instance (inp : Input) : Decidable inp.OK := by unfold Input.OK; exact inferInstance

/-- The states the program can be in at the top of the frame loop: the initial state for
some shuffle, and every state a frame produces from such a state. -/
inductive Reachable : State → Prop
  | init (sh : List Int) : IsShuffle sh → Reachable (initState sh)
  | step (fuel : Nat) (inp : Input) (s s1 : State) :
      Reachable s → inp.OK → frame fuel inp s = some s1 → Reachable s1

/-- The largest value of the 32-bit `int` of `score`, `lines` and `level`. -/
def INT_MAX : Int := 2147483647

/-- The score and the line count are at most `INT_MAX`. -/
def InIntRange (s : State) : Prop := s.score ≤ INT_MAX ∧ s.lines ≤ INT_MAX

instance (s : State) : Decidable (InIntRange s) := by unfold InIntRange; exact inferInstance

/-- The states reached from the start of a session by frames without overflow of an `int`:
the score and the line count at the end of every frame are at most `INT_MAX`.  A frame adds
to them only (or sets them to 0 in a restart), each addend being a product of factors that
are not negative (`frame_adds_only`), so every sum and product it forms on the way is at
most the value at its end, and the 32-bit arithmetic of the program yields the values of
the embedding. -/
inductive ReachableInt : State → Prop
  | init (sh : List Int) : IsShuffle sh → ReachableInt (initState sh)
  | step (fuel : Nat) (inp : Input) (s s1 : State) :
      ReachableInt s → inp.OK → frame fuel inp s = some s1 → InIntRange s1 → ReachableInt s1

/-! ## Concrete data for the instances -/

/-- A grid whose bottom row is full and whose row above holds a distinct pattern. -/
def demoGrid : Grid :=
  List.replicate 18 emptyRow ++ [[1, 0, 2, 0, 3, 0, 4, 0, 5, 0], [1, 1, 1, 1, 1, 1, 1, 1, 1, 1]]

/-- A T piece resting on the floor of the field. -/
def demoPiece : Piece := { type := 5, r := 0, x := 3, y := 18 }

/-- A running session on an empty board, an I piece spawned and an O piece next. -/
def baseState : State :=
  { grid := emptyGrid, bag := [2, 5, 1], cur := spawnOf 0, nxt := spawnOf 3,
    holdType := -1, canHold := true, score := 0, lines := 0, level := 1,
    gravityMs := 1000, fallTimer := 0, lockTimer := 0, grounded := false,
    paused := false, gameOver := false, holdL := 0, holdR := 0 }

/-- A board whose bottom row lacks exactly the four cells of a flat I piece. -/
def lineGrid : Grid := List.replicate 19 emptyRow ++ [[2, 2, 2, 0, 0, 0, 0, 2, 2, 2]]

/-- A session at level 3 whose I piece rests in the gap of the bottom row, grounded for 340 ms. -/
def lineState : State :=
  { baseState with grid := lineGrid, cur := { type := 0, r := 0, x := 3, y := 18 },
                   score := 100, lines := 25, level := 3, gravityMs := 840,
                   grounded := true, lockTimer := 340 }

/-- A board with a tower of O pieces in columns 4 and 5 capped by a flat I piece in row 1. -/
def towerGrid : Grid :=
  [emptyRow, [0, 0, 0, 1, 1, 1, 1, 0, 0, 0]] ++ List.replicate 18 [0, 0, 0, 0, 4, 4, 0, 0, 0, 0]

/-- A running session with an O piece spawned above the tower. -/
def towerState : State := { baseState with grid := towerGrid, cur := spawnOf 3 }

/-- A board filled to the brim: row 0 lacks only column 5. -/
def brimGrid : Grid :=
  [[1, 1, 1, 1, 1, 0, 1, 1, 1, 1]] ++ List.replicate 19 [1, 1, 1, 1, 1, 1, 1, 1, 1, 0]

/-- A session whose upright I piece rests with one cell in row 0 and three above the field. -/
def brimState : State :=
  { baseState with grid := brimGrid, cur := { type := 0, r := 1, x := 3, y := -3 },
                   grounded := true, lockTimer := 340 }

/-- A frame in which no key is down and no time passes. -/
def idle : Input :=
  { dt := 0, keyP := false, keyR := false, keyLeft := false, keyRight := false,
    downLeft := false, downRight := false, keyUp := false, keyZ := false,
    keySpace := false, downDown := false, keyShift := false,
    shReset := bagInit, shDrop := bagInit, shHold := bagInit, shTick := bagInit }

/-- A frame in which only the hard-drop key is pressed. -/
def space : Input := { idle with keySpace := true }

/-- A frame in which only the pause key is pressed. -/
def pauseKey : Input := { idle with keyP := true }

/-- A session after a game over: the board filled to the brim, every key about to be hit. -/
def overState : State :=
  { brimState with grid := lockPiece brimState.grid brimState.cur, gameOver := true,
                   paused := true }

/-- A frame in which every key but restart is pressed and 400 ms pass. -/
def mash : Input :=
  { dt := 400, keyP := true, keyR := false, keyLeft := true, keyRight := true,
    downLeft := true, downRight := true, keyUp := true, keyZ := true,
    keySpace := true, downDown := true, keyShift := true,
    shReset := bagInit, shDrop := bagInit, shHold := bagInit, shTick := bagInit }

/-- The candidate rotation index of `rotate` for a rotation index in range, written with the
mathematical remainder. -/
def candidateRot (dir : Int) (p : Piece) : Int :=
  if dir > 0 then (p.r + 1) % ((rotsOf p.type).length : Int)
  else (p.r + ((rotsOf p.type).length : Int) - 1) % ((rotsOf p.type).length : Int)

/-- The placement `rotate` tests for kick offset `k`. -/
def kicked (dir : Int) (p : Piece) (k : Int) : Piece :=
  { p with r := candidateRot dir p, x := p.x + k }

/-- A session whose upright I piece stands against the left wall. -/
def wallState : State := { baseState with cur := { type := 0, r := 1, x := -2, y := 5 } }

/-- Lines 302-307: the gravity step of a frame, with the flag `couldFall`. -/
def gravityStep (dt : ℚ) (s : State) : Bool × State :=
  let s := { s with fallTimer := fadd s.fallTimer dt }
  if s.fallTimer ≥ s.gravityMs then softMove 0 1 { s with fallTimer := 0 } else (false, s)

/-- Lines 309-313: the update of the grounded flag and the lock timer after the gravity
step. -/
def groundStep (dt : ℚ) (s : State) : State :=
  if !valid s.grid { s.cur with y := s.cur.y + 1 } then
    if !s.grounded then { s with grounded := true, lockTimer := 0 }
    else { s with lockTimer := fadd s.lockTimer dt }
  else { s with grounded := false, lockTimer := 0 }

/-- Lines 302-314: the state in which a frame enters its lock block, if it does. -/
def tickSite (dt : ℚ) (s : State) : Option State :=
  let m := gravityStep dt s
  let t := groundStep dt m.2
  if valid m.2.grid { m.2.cur with y := m.2.cur.y + 1 } = false ∧ m.1 = false ∧
      t.lockTimer ≥ lockDelayMs then some t
  else none

/-- A frame in which no key is down and a second passes. -/
def fall : Input := { idle with dt := 1000 }

/-- A frame in which no key is down and 100 ms pass. -/
def wait100 : Input := { idle with dt := 100 }

/-- Eleven hard drops from the start of a session, then the pause key. -/
def stackAndPause : List Input := List.replicate 11 space ++ [pauseKey]

/-- Ten hard drops from the start of a session, a gravity step, and 100 ms of rest. -/
def stackAndRest : List Input := List.replicate 10 space ++ [fall, wait100]

/-- A board whose columns 4 and 5 are filled up to the top row. -/
def cappedGrid : Grid := List.replicate 20 [0, 0, 0, 0, 4, 4, 0, 0, 0, 0]

/-- A running session with an O piece spawned above the filled columns. -/
def cappedState : State := { baseState with grid := cappedGrid, cur := spawnOf 3 }

/-- The relations between score, line count, level and gravity interval. -/
def ScoreInv (s : State) : Prop :=
  0 ≤ s.score ∧ 0 ≤ s.lines ∧ s.level = levelOf s.lines ∧ s.gravityMs = gravityOf s.level

/-- The fields `ScoreInv` speaks about. -/
def scoreFields (s : State) : Int × Int × Int × ℚ := (s.score, s.lines, s.level, s.gravityMs)

/-- Every cell of the piece is within the columns and above the floor. -/
def InBounds (p : Piece) : Prop :=
  ∀ c ∈ cells p, 0 ≤ c.1 ∧ c.1 < (COLS : Int) ∧ c.2 < (ROWS : Int)

/-- Every kind waiting in the bag is one of the seven. -/
def BagOK (bag : List Int) : Prop := ∀ k ∈ bag, KindOK k

/-- The held kind is the sentinel -1 or one of the seven kinds. -/
def HoldOK (h : Int) : Prop := h = -1 ∨ KindOK h

/-- Shape of the data of a session: a 20x10 grid, a current piece of a catalogued kind with
its rotation index in range and its cells within columns and floor, a next piece in its spawn
placement, and kinds in range in hold and bag. -/
def Base (s : State) : Prop :=
  s.grid.WF ∧ KindOK s.cur.type ∧ RotOK s.cur ∧ InBounds s.cur ∧
  (∃ kn, KindOK kn ∧ s.nxt = spawnOf kn) ∧ HoldOK s.holdType ∧ BagOK s.bag

/-- The current piece is valid against the board and the board has no full row. -/
def Running (s : State) : Prop := valid s.grid s.cur = true ∧ fullCount s.grid = 0

/-- The invariant of the frame loop. -/
def Safe (s : State) : Prop := Base s ∧ (s.gameOver = false → Running s)

/-- The invariant inside a frame before gravity: after a game over in this frame the piece
has a cell above the field. -/
def SafeMid (s : State) : Prop := Safe s ∧ (s.gameOver = true → pieceAboveTop s.cur = true)

/-- The invariant inside a frame right after `hardDrop`: after a game over the piece also
cannot descend. -/
def SafeDrop (s : State) : Prop :=
  Safe s ∧ (s.gameOver = true →
    pieceAboveTop s.cur = true ∧ valid s.grid (sunk s 1).cur = false)

/-- What holds in a state in which a lock is performed. -/
def SiteOK (t : State) : Prop := Base t ∧ (pieceAboveTop t.cur = false → Running t)

/-- Lines 270-271: the state after the pause and restart keys. -/
def keysDone (inp : Input) (s : State) : State :=
  let s := if inp.keyP then { s with paused := !s.paused } else s
  if inp.keyR then reset inp.shReset s else s

/-- The states in which a frame performs a lock (calls `lockPiece`): the state after the
descent loop of `hardDrop` (line 228, the lock follows at 229-250; `hardDrop` is that loop
followed by `hardDropLock`), and the state in which the lock-delay block is entered
(line 314, the lock follows at 315-333; `tick_eq` shows `tick` locks exactly there). -/
def frameSites (fuel : Nat) (inp : Input) (s : State) : List State :=
  let s := keysDone inp s
  if !s.paused && !s.gameOver then
    (if inp.keySpace then ((dropLoop fuel (moveInput inp s) 0).map Prod.fst).toList else []) ++
      ((preTick fuel inp s).bind (tickSite inp.dt)).toList
  else []

/-- The session of `lineState` with a lock timer of 334.48187255859375 ms, a `float`. -/
def restState : State := { lineState with lockTimer := 5480151 / 16384 }

/-- An elapsed time of 15.51811504364013671875 ms, a `float`. -/
def restDt : ℚ := 16271923 / 1048576

/-- The session after a hard drop in its first frame. -/
def afterDrop : State := (frame 41 space (initState bagInit)).getD (initState bagInit)

/-! ## Properties of clearLines -/

theorem shiftDown_length (g : Grid) (y : Nat) : (shiftDown g y).length = g.length := by
  induction y generalizing g with
  | zero => rfl
  | succ n ih => simp [shiftDown, ih]

theorem shiftDown_eq (g : Grid) (y : Nat) (hy : y < g.length) :
    shiftDown g y = g.getD 0 [] :: (g.take y ++ g.drop (y + 1)) := by
  induction y generalizing g with
  | zero =>
    cases g with
    | nil => simp at hy
    | cons a t => simp [shiftDown]
  | succ n ih =>
    have hlen : n < (g.set (n + 1) (g.getD n [])).length := by simp; omega
    rw [shiftDown, ih _ hlen]
    have h0 : (g.set (n + 1) (g.getD n [])).getD 0 [] = g.getD 0 [] := by
      cases g with
      | nil => simp at hy
      | cons a t => simp
    have h1 : (g.set (n + 1) (g.getD n [])).take n = g.take n := by
      rw [List.take_set_of_lt] ; omega
    have h2 : (g.set (n + 1) (g.getD n [])).drop (n + 1) = g.getD n [] :: g.drop (n + 2) := by
      have hd : g.drop (n + 1) = g[n + 1] :: g.drop (n + 2) := List.drop_eq_getElem_cons hy
      rw [List.drop_set]
      simp only [Nat.lt_irrefl, if_false, Nat.sub_self]
      rw [hd]
      rfl
    rw [h0, h1, h2]
    have h3 : g.take (n + 1) = g.take n ++ [g.getD n []] := by
      rw [List.take_succ]
      have : n < g.length := by omega
      simp [List.getD_eq_getElem?_getD, List.getElem?_eq_getElem this]
    rw [h3]
    simp

/-- A list of length `COLS`, spelled out. -/
theorem row_cases (r : Row) (h : r.length = COLS) :
    ∃ a0 a1 a2 a3 a4 a5 a6 a7 a8 a9 : Int, r = [a0, a1, a2, a3, a4, a5, a6, a7, a8, a9] := by
  match r, h with
  | [a0, a1, a2, a3, a4, a5, a6, a7, a8, a9], _ => exact ⟨a0, a1, a2, a3, a4, a5, a6, a7, a8, a9, rfl⟩

theorem clearTop_cons (r : Row) (rest : Grid) (h : r.length = COLS) :
    clearTop (r :: rest) = emptyRow :: rest := by
  obtain ⟨a0, a1, a2, a3, a4, a5, a6, a7, a8, a9, rfl⟩ := row_cases r h
  rfl

theorem rowFull_eq (g : Grid) (y : Nat) (h : (g.getD y []).length = COLS) :
    rowFull g y = Row.isFull (g.getD y []) := by
  obtain ⟨a0, a1, a2, a3, a4, a5, a6, a7, a8, a9, hr⟩ := row_cases _ h
  unfold rowFull cellAt
  rw [hr]
  rfl

theorem emptyRow_not_full : Row.isFull emptyRow = false := by decide

theorem WF_getD_length (g : Grid) (hwf : g.WF) (y : Nat) (hy : y < ROWS) :
    (g.getD y []).length = COLS := by
  have hlt : y < g.length := by rw [hwf.1]; exact hy
  rw [List.getD_eq_getElem?_getD, List.getElem?_eq_getElem hlt]
  exact hwf.2 _ (List.getElem_mem hlt)

theorem collapse_eq (g : Grid) (hwf : g.WF) (y : Nat) (hy : y < ROWS) :
    clearTop (shiftDown g y) = emptyRow :: (g.take y ++ g.drop (y + 1)) := by
  have hlt : y < g.length := by rw [hwf.1]; exact hy
  rw [shiftDown_eq g y hlt]
  exact clearTop_cons _ _ (WF_getD_length g hwf 0 (by unfold ROWS; omega))

theorem collapse_WF (g : Grid) (hwf : g.WF) (y : Nat) (hy : y < ROWS) :
    Grid.WF (emptyRow :: (g.take y ++ g.drop (y + 1))) := by
  have hlt : y < g.length := by rw [hwf.1]; exact hy
  constructor
  · simp only [List.length_cons, List.length_append, List.length_take, List.length_drop]
    rw [← hwf.1]; omega
  · intro r hr
    simp only [List.mem_cons, List.mem_append] at hr
    rcases hr with rfl | hr | hr
    · rfl
    · exact hwf.2 r (List.mem_of_mem_take hr)
    · exact hwf.2 r (List.mem_of_mem_drop hr)

theorem take_succ_getD (g : Grid) (n : Nat) (h : n < g.length) :
    g.take (n + 1) = g.take n ++ [g.getD n []] := by
  rw [List.take_succ]
  simp [List.getD_eq_getElem?_getD, List.getElem?_eq_getElem h]

theorem drop_getD_cons (g : Grid) (n : Nat) (h : n < g.length) :
    g.drop n = g.getD n [] :: g.drop (n + 1) := by
  rw [List.drop_eq_getElem_cons h]
  simp [List.getD_eq_getElem?_getD, List.getElem?_eq_getElem h]

/-- The loop invariant of `clearLines`: started at `y = m - 1`, the loop compacts the first `m`
rows and leaves the rows below untouched. -/
theorem clearLinesLoop_spec (fuel : Nat) : ∀ (g : Grid) (m : Nat) (c : Int), g.WF → m ≤ ROWS →
    m + fullCount (g.take m) + 1 ≤ fuel →
    clearLinesLoop fuel g ((m : Int) - 1) c =
      some (List.replicate (fullCount (g.take m)) emptyRow ++
              (g.take m).filter (fun r => !Row.isFull r) ++ g.drop m,
            c + (fullCount (g.take m) : Nat)) := by
  induction fuel with
  | zero => intro g m c _ _ h; omega
  | succ fuel ih =>
    intro g m c hwf hm hfuel
    cases m with
    | zero => simp [clearLinesLoop, fullCount]
    | succ n =>
      have hn : n < ROWS := by omega
      have hlt : n < g.length := by rw [hwf.1]; exact hn
      have hy : ((n + 1 : Nat) : Int) - 1 = (n : Int) := by push_cast; ring
      rw [hy, clearLinesLoop]
      have hneg : ¬ ((n : Int) < 0) := by omega
      rw [if_neg hneg, Int.toNat_ofNat, rowFull_eq g n (WF_getD_length g hwf n hn)]
      have htake := take_succ_getD g n hlt
      have hdrop := drop_getD_cons g n hlt
      generalize g.getD n [] = row at htake hdrop ⊢
      by_cases hfull : Row.isFull row = true
      · rw [if_pos hfull, collapse_eq g hwf n hn]
        have hcnt : fullCount (g.take (n + 1)) = fullCount (g.take n) + 1 := by
          rw [htake]; simp [fullCount, List.countP_append, hfull]
        have htk : (emptyRow :: (g.take n ++ g.drop (n + 1))).take (n + 1)
            = emptyRow :: g.take n := by
          rw [List.take_succ_cons, List.take_append_of_le_length (by simp; omega)]
          rw [List.take_take]; simp
        have hdr : (emptyRow :: (g.take n ++ g.drop (n + 1))).drop (n + 1) = g.drop (n + 1) := by
          rw [List.drop_succ_cons]
          have : (g.take n).length = n := by simp; omega
          rw [List.drop_append_of_le_length (by omega), List.drop_of_length_le (by omega)]
          simp
        have hcnt2 : fullCount (emptyRow :: g.take n) = fullCount (g.take n) := by
          simp [fullCount, List.countP_cons, emptyRow_not_full]
        have hy2 : (n : Int) + 1 - 1 = ((n + 1 : Nat) : Int) - 1 := by push_cast; ring
        rw [hy2, ih _ (n + 1) (c + 1) (collapse_WF g hwf n hn) hm (by rw [htk, hcnt2]; omega)]
        rw [htk, hdr, hcnt2, hcnt, htake]
        simp [List.filter_append, hfull, emptyRow_not_full, List.replicate_succ', List.filter_cons]
        omega
      · rw [if_neg hfull]
        have hfull' : Row.isFull row = false := by simpa using hfull
        have hcnt : fullCount (g.take (n + 1)) = fullCount (g.take n) := by
          rw [htake]; simp [fullCount, List.countP_append, hfull']
        rw [ih g n c hwf (by omega) (by omega), hcnt, htake, hdrop]
        simp [List.filter_append, hfull']

/-- When exactly the element at index `i` satisfies `p`, filtering out the `p`-elements erases
index `i`, and `p` is counted once. -/
theorem filter_unique (p : Row → Bool) : ∀ (l : List Row) (i : Nat), i < l.length →
    (∀ j, j < l.length → (p (l.getD j []) = true ↔ j = i)) →
    l.filter (fun r => !p r) = l.eraseIdx i ∧ l.countP p = 1 := by
  intro l
  induction l with
  | nil => intro i hi; simp at hi
  | cons a t ih =>
    intro i hi h
    cases i with
    | zero =>
      have ha : p a = true := (h 0 (by simp)).2 rfl
      have ht : ∀ r ∈ t, p r = false := by
        intro r hr
        obtain ⟨j, hj, rfl⟩ := List.getElem_of_mem hr
        have := h (j + 1) (by simpa using hj)
        simp only [List.getD_cons_succ] at this
        rw [List.getD_eq_getElem?_getD, List.getElem?_eq_getElem hj] at this
        simp only [Option.getD_some] at this
        cases hp : p t[j] with
        | false => rfl
        | true => exact absurd (this.1 hp) (by omega)
      constructor
      · rw [List.filter_cons, ha]
        simp only [Bool.not_true, List.eraseIdx_cons_zero, Bool.false_eq_true, if_false]
        rw [List.filter_eq_self]
        intro r hr; simp [ht r hr]
      · rw [List.countP_cons, ha]
        simp only [if_true]
        have : List.countP p t = 0 := by
          rw [List.countP_eq_zero]; intro r hr; simp [ht r hr]
        omega
    | succ i =>
      have ha : p a = false := by
        cases hp : p a with
        | false => rfl
        | true =>
          have := (h 0 (by simp)).1 (by simpa using hp)
          omega
      have hi' : i < t.length := by simpa using hi
      have h' : ∀ j, j < t.length → (p (t.getD j []) = true ↔ j = i) := by
        intro j hj
        have := h (j + 1) (by simpa using hj)
        simp only [List.getD_cons_succ] at this
        rw [this]; omega
      obtain ⟨h1, h2⟩ := ih i hi' h'
      constructor
      · rw [List.filter_cons, ha]
        simp only [Bool.not_false, if_true, List.eraseIdx_cons_succ]
        rw [h1]
      · rw [List.countP_cons, ha, h2]; simp

theorem getD_eraseIdx_lt (l : List Row) (i j : Nat) (h : j < i) :
    (l.eraseIdx i).getD j [] = l.getD j [] := by
  simp [List.getD_eq_getElem?_getD, List.getElem?_eraseIdx, h]

theorem getD_eraseIdx_ge (l : List Row) (i j : Nat) (h : i ≤ j) :
    (l.eraseIdx i).getD j [] = l.getD (j + 1) [] := by
  have : ¬ j < i := by omega
  simp [List.getD_eq_getElem?_getD, List.getElem?_eraseIdx, this]

/-- With a budget of `2*ROWS+1` loop tests `clearLines` returns, on every 20x10 grid, the
compacted grid and the number of full rows. -/
theorem clearLines_eq (g : Grid) (hwf : g.WF) (fuel : Nat) (hfuel : 2 * ROWS + 1 ≤ fuel) :
    clearLines fuel g =
      some (List.replicate (fullCount g) emptyRow ++ g.filter (fun r => !Row.isFull r),
            (fullCount g : Int)) := by
  have hlen := hwf.1
  have hcl : fullCount g ≤ ROWS := by
    rw [← hlen]; exact List.countP_le_length _
  have h := clearLinesLoop_spec fuel g ROWS 0 hwf (le_refl _)
    (by rw [← hlen, List.take_length]; omega)
  rw [← hlen, List.take_length, List.drop_length] at h
  unfold clearLines
  rw [← hlen, h]
  simp

/-- C1: on every 20x10 grid `clearLines` terminates (any budget of at least `2*ROWS+1` loop
tests suffices), returns the number of full rows, and leaves that many empty rows on top
followed by the non-full rows in their original order.  When exactly one row `i` is full, the
result is an empty row 0, the rows above `i` one lower, and the rows below `i` in place. -/
theorem clearLines_correct (g : Grid) (hwf : g.WF) (fuel : Nat) (hfuel : 2 * ROWS + 1 ≤ fuel) :
    clearLines fuel g =
        some (List.replicate (fullCount g) emptyRow ++ g.filter (fun r => !Row.isFull r),
              (fullCount g : Int))
    ∧ (∀ i, i < ROWS → (∀ j, j < ROWS → (Row.isFull (g.getD j []) = true ↔ j = i)) →
        ∃ g', clearLines fuel g = some (g', 1) ∧ g' = emptyRow :: g.eraseIdx i ∧
          g'.getD 0 [] = emptyRow ∧
          (∀ j, j < i → g'.getD (j + 1) [] = g.getD j []) ∧
          (∀ j, i < j → j < ROWS → g'.getD j [] = g.getD j [])) := by
  have hlen := hwf.1
  have hmain := clearLines_eq g hwf fuel hfuel
  refine ⟨hmain, ?_⟩
  intro i hi huniq
  obtain ⟨h1, h2⟩ := filter_unique Row.isFull g i (by rw [hlen]; exact hi)
    (by rw [hlen]; exact huniq)
  refine ⟨emptyRow :: g.eraseIdx i, ?_, rfl, rfl, ?_, ?_⟩
  · rw [hmain]
    unfold fullCount
    rw [h1, h2]; rfl
  · intro j hj
    rw [List.getD_cons_succ]
    exact getD_eraseIdx_lt g i j hj
  · intro j hij hj
    obtain ⟨k, rfl⟩ : ∃ k, j = k + 1 := ⟨j - 1, by omega⟩
    rw [List.getD_cons_succ]
    exact getD_eraseIdx_ge g i k (by omega)

theorem clearLines_correct_witness :
    demoGrid.WF ∧ 2 * ROWS + 1 ≤ 41 ∧
    clearLines 41 demoGrid =
      some (List.replicate (fullCount demoGrid) emptyRow ++
              demoGrid.filter (fun r => !Row.isFull r), (fullCount demoGrid : Int)) ∧
    (∃ g', clearLines 41 demoGrid = some (g', 1) ∧ g' = emptyRow :: demoGrid.eraseIdx 19 ∧
      g'.getD 0 [] = emptyRow ∧
      (∀ j, j < 19 → g'.getD (j + 1) [] = demoGrid.getD j []) ∧
      (∀ j, 19 < j → j < ROWS → g'.getD j [] = demoGrid.getD j [])) :=
  ⟨by decide, by decide,
   (clearLines_correct demoGrid (by decide) 41 (by decide)).1,
   (clearLines_correct demoGrid (by decide) 41 (by decide)).2 19 (by decide) (by decide)⟩

/-! ## Properties of valid -/

theorem valid_iff_shape (g : Grid) (p : Piece) :
    valid g p = true ↔ ∀ c ∈ shapeOf p,
      0 ≤ p.x + c.1 ∧ p.x + c.1 < (COLS : Int) ∧ p.y + c.2 < (ROWS : Int) ∧
      (0 ≤ p.y + c.2 → cellAt g (p.y + c.2).toNat (p.x + c.1).toNat = 0) := by
  unfold valid
  rw [List.all_eq_true]
  constructor
  · intro h c hc
    have := h c hc
    simp only [Bool.or_eq_true, decide_eq_true_eq, Bool.and_eq_true, bne_iff_ne, ne_eq] at this
    split_ifs at this with h1 h2
    refine ⟨by omega, by omega, by omega, ?_⟩
    intro hy
    by_contra hne
    exact h2 ⟨by omega, hne⟩
  · intro h c hc
    obtain ⟨h1, h2, h3, h4⟩ := h c hc
    simp only [Bool.or_eq_true, decide_eq_true_eq, Bool.and_eq_true, bne_iff_ne, ne_eq]
    split_ifs with h5 h6
    · omega
    · exact absurd (h4 (by omega)) h6.2
    · rfl

theorem valid_iff_cells (g : Grid) (p : Piece) :
    valid g p = true ↔ ∀ c ∈ cells p,
      0 ≤ c.1 ∧ c.1 < (COLS : Int) ∧ c.2 < (ROWS : Int) ∧
      (0 ≤ c.2 → cellAt g c.2.toNat c.1.toNat = 0) := by
  rw [valid_iff_shape]
  unfold cells
  constructor
  · intro h c hc
    obtain ⟨o, ho, rfl⟩ := List.mem_map.1 hc
    exact h o ho
  · intro h o ho
    exact h (p.x + o.1, p.y + o.2) (List.mem_map.2 ⟨o, ho, rfl⟩)

theorem shapeOf_catalog (p : Piece) (hk : KindOK p.type) (hr : RotOK p) :
    shapeOf p = catalogShape p.type p.r ∧ (shapeOf p).length = 4 := by
  obtain ⟨t, r, x, y⟩ := p
  obtain ⟨h1, h2⟩ := hk
  simp only at h1 h2
  unfold RotOK at hr
  simp only at hr
  interval_cases t <;> simp [rotsOf, SHAPES] at hr <;> obtain ⟨h3, h4⟩ := hr <;>
    interval_cases r <;> exact ⟨rfl, rfl⟩

/-- C2: for a piece of a catalogued kind with its rotation index in range, the cells tested
by `valid` are the four catalogue offsets moved to the anchor, and `valid` holds exactly when
every cell is within the columns, above the floor and, if inside the field, on an empty grid
cell.  Hence a cell left of, right of or below the field rejects the placement, and a
placement wholly above the field and within the columns is accepted on any grid. -/
theorem valid_spec (g : Grid) (p : Piece) (hk : KindOK p.type) (hr : RotOK p) :
    cells p = (catalogShape p.type p.r).map (fun c => (p.x + c.1, p.y + c.2)) ∧
    (cells p).length = 4 ∧
    (valid g p = true ↔ ∀ c ∈ cells p,
      0 ≤ c.1 ∧ c.1 < (COLS : Int) ∧ c.2 < (ROWS : Int) ∧
      (0 ≤ c.2 → cellAt g c.2.toNat c.1.toNat = 0)) ∧
    ((∃ c ∈ cells p, c.1 < 0 ∨ (COLS : Int) ≤ c.1 ∨ (ROWS : Int) ≤ c.2) → valid g p = false) ∧
    ((∀ c ∈ cells p, c.2 < 0 ∧ 0 ≤ c.1 ∧ c.1 < (COLS : Int)) → valid g p = true) := by
  obtain ⟨hs, hl⟩ := shapeOf_catalog p hk hr
  refine ⟨?_, ?_, valid_iff_cells g p, ?_, ?_⟩
  · unfold cells; rw [hs]
  · unfold cells; rw [List.length_map, hl]
  · rintro ⟨c, hc, hbad⟩
    cases hv : valid g p with
    | false => rfl
    | true =>
      obtain ⟨h1, h2, h3, _⟩ := (valid_iff_cells g p).1 hv c hc
      omega
  · intro h
    rw [valid_iff_cells]
    intro c hc
    obtain ⟨h1, h2, h3⟩ := h c hc
    exact ⟨h2, h3, by omega, fun h0 => absurd h0 (by omega)⟩

theorem valid_spec_witness :
    KindOK demoPiece.type ∧ RotOK demoPiece ∧ (cells demoPiece).length = 4 ∧
    (valid demoGrid demoPiece = true ↔ ∀ c ∈ cells demoPiece,
      0 ≤ c.1 ∧ c.1 < (COLS : Int) ∧ c.2 < (ROWS : Int) ∧
      (0 ≤ c.2 → cellAt demoGrid c.2.toNat c.1.toNat = 0)) :=
  ⟨by decide, by decide,
   (valid_spec demoGrid demoPiece (by decide) (by decide)).2.1,
   (valid_spec demoGrid demoPiece (by decide) (by decide)).2.2.1⟩

/-- The cells of a valid placement lie within the columns and above the floor. -/
theorem valid_bounds (g : Grid) (p : Piece) (hv : valid g p = true) :
    ∀ c ∈ shapeOf p, 0 ≤ p.x + c.1 ∧ p.x + c.1 < (COLS : Int) ∧ p.y + c.2 < (ROWS : Int) := by
  intro c hc
  obtain ⟨h1, h2, h3, _⟩ := (valid_iff_shape g p).1 hv c hc
  exact ⟨h1, h2, h3⟩

theorem getD_mod_mem (rots : List Shape) (h : rots ≠ []) (m : Nat) :
    rots.getD (m % rots.length) [] ∈ rots := by
  have hlt : m % rots.length < rots.length :=
    Nat.mod_lt _ (List.length_pos.2 h)
  rw [List.getD_eq_getElem?_getD, List.getElem?_eq_getElem hlt]
  exact List.getElem_mem hlt

theorem rotsOf_bounds (t : Int) (hk : KindOK t) :
    rotsOf t ≠ [] ∧ ∀ sh ∈ rotsOf t, sh.length = 4 ∧
      ∀ c ∈ sh, 0 ≤ c.1 ∧ c.1 ≤ 3 ∧ 0 ≤ c.2 ∧ c.2 ≤ 3 := by
  obtain ⟨h1, h2⟩ := hk
  interval_cases t <;> decide

/-- Every catalogue shape of a valid kind has four cells with offsets in 0..3, whatever the
rotation index. -/
theorem shapeOf_bounds (p : Piece) (hk : KindOK p.type) :
    (shapeOf p).length = 4 ∧ ∀ c ∈ shapeOf p, 0 ≤ c.1 ∧ c.1 ≤ 3 ∧ 0 ≤ c.2 ∧ c.2 ≤ 3 := by
  obtain ⟨hne, hall⟩ := rotsOf_bounds p.type hk
  exact hall _ (getD_mod_mem _ hne _)

/-- A valid placement of a catalogued kind has its anchor above the floor. -/
theorem valid_y_lt (g : Grid) (p : Piece) (hk : KindOK p.type) (hv : valid g p = true) :
    p.y < (ROWS : Int) := by
  obtain ⟨hlen, hb⟩ := shapeOf_bounds p hk
  obtain ⟨c, hc⟩ : ∃ c, c ∈ shapeOf p := by
    cases hs : shapeOf p with
    | nil => rw [hs] at hlen; simp at hlen
    | cons a t => exact ⟨a, List.mem_cons_self _ _⟩
  have h1 := (valid_iff_shape g p).1 hv c hc
  have h2 := hb c hc
  omega

theorem cellAt_emptyGrid (y x : Nat) : cellAt emptyGrid y x = 0 := by
  unfold cellAt emptyGrid emptyRow
  simp only [List.getD_eq_getElem?_getD, List.getElem?_replicate]
  split_ifs
  · simp only [Option.getD_some, List.getElem?_replicate]
    split_ifs <;> rfl
  · simp

/-- On the empty board a piece in its spawn column and rotation is valid exactly down to
anchor row 18. -/
theorem valid_empty_spawn (k : Int) (hk : KindOK k) (y : Int) :
    valid emptyGrid { type := k, r := 0, x := 3, y := y } = true ↔ y ≤ 18 := by
  rw [valid_iff_shape]
  simp only [cellAt_emptyGrid, implies_true, and_true]
  obtain ⟨h1, h2⟩ := hk
  interval_cases k <;>
    simp [shapeOf, rotsOf, SHAPES, COLS, ROWS] <;> omega

/-- A freshly spawned piece of a catalogued kind is valid on every grid on which it lies
wholly above the field. -/
theorem spawn_valid (g : Grid) (k : Int) (hk : KindOK k) : valid g (spawnOf k) = true := by
  rw [valid_iff_shape]
  obtain ⟨h1, h2⟩ := hk
  interval_cases k <;>
    simp [spawnOf, shapeOf, rotsOf, SHAPES, COLS, ROWS]

theorem pieceAboveTop_iff (p : Piece) :
    pieceAboveTop p = true ↔ ∃ c ∈ cells p, c.2 < 0 := by
  unfold pieceAboveTop cells
  rw [List.any_eq_true]
  constructor
  · rintro ⟨o, ho, h⟩
    exact ⟨(p.x + o.1, p.y + o.2), List.mem_map.2 ⟨o, ho, rfl⟩, by simpa using h⟩
  · rintro ⟨c, hc, h⟩
    obtain ⟨o, ho, rfl⟩ := List.mem_map.1 hc
    exact ⟨o, ho, by simpa using h⟩

/-! ## Properties of lockPiece -/

theorem setCell_WF (g : Grid) (hwf : g.WF) (y x : Nat) (v : Int) : (setCell g y x v).WF := by
  unfold setCell
  constructor
  · rw [List.length_set]; exact hwf.1
  · intro r hr
    rcases List.mem_or_eq_of_mem_set hr with h | h
    · exact hwf.2 r h
    · by_cases hy : y < g.length
      · rw [h, List.length_set, List.getD_eq_getElem?_getD, List.getElem?_eq_getElem hy]
        exact hwf.2 _ (List.getElem_mem hy)
      · rw [List.set_eq_of_length_le (by omega)] at hr
        exact hwf.2 r hr

theorem cellAt_setCell (g : Grid) (hwf : g.WF) (y x : Nat) (v : Int) (hy : y < ROWS)
    (hx : x < COLS) (y' x' : Nat) :
    cellAt (setCell g y x v) y' x' = if y' = y ∧ x' = x then v else cellAt g y' x' := by
  have hlt : y < g.length := by rw [hwf.1]; exact hy
  have hrow := WF_getD_length g hwf y hy
  unfold cellAt setCell
  by_cases h1 : y' = y
  · subst h1
    have e1 : (g.set y' ((g.getD y' []).set x v)).getD y' [] = (g.getD y' []).set x v := by
      simp [List.getD_eq_getElem?_getD, List.getElem?_set, hlt]
    rw [e1]
    generalize g.getD y' [] = row at hrow ⊢
    by_cases h2 : x' = x
    · subst h2
      have hx' : x' < row.length := by rw [hrow]; exact hx
      simp [List.getD_eq_getElem?_getD, List.getElem?_set, hx']
    · have h2' : ¬ x = x' := fun h => h2 h.symm
      simp [List.getD_eq_getElem?_getD, List.getElem?_set, h2, h2']
  · have h1' : ¬ y = y' := fun h => h1 h.symm
    simp [List.getD_eq_getElem?_getD, List.getElem?_set, h1, h1']

theorem writeCell_WF (g : Grid) (hwf : g.WF) (y x v : Int) : (writeCell g y x v).WF := by
  unfold writeCell
  split_ifs
  · exact setCell_WF g hwf _ _ _
  · exact hwf

theorem cellAt_writeCell (g : Grid) (hwf : g.WF) (y x v : Int) (hy0 : 0 ≤ y)
    (hy : y < (ROWS : Int)) (hx0 : 0 ≤ x) (hx : x < (COLS : Int)) (y' x' : Nat) :
    cellAt (writeCell g y x v) y' x' =
      if ((x' : Int), (y' : Int)) = (x, y) then v else cellAt g y' x' := by
  unfold writeCell
  rw [if_pos ⟨hy0, hy, hx0, hx⟩, cellAt_setCell g hwf _ _ _ (by omega) (by omega)]
  have : (y' = y.toNat ∧ x' = x.toNat) ↔ ((x' : Int), (y' : Int)) = (x, y) := by
    rw [Prod.mk.injEq]; omega
  simp only [this]

/-- The loop of `lockPiece` over a list of offsets. -/
theorem lockFold_spec (p : Piece) (v : Int) : ∀ (L : List (Int × Int)) (g : Grid), g.WF →
    (∀ c ∈ L, 0 ≤ p.x + c.1 ∧ p.x + c.1 < (COLS : Int) ∧ p.y + c.2 < (ROWS : Int)) →
    (L.foldl (fun acc c => if p.y + c.2 ≥ 0 then writeCell acc (p.y + c.2) (p.x + c.1) v else acc)
        g).WF ∧
    ∀ y x : Nat,
      cellAt (L.foldl
          (fun acc c => if p.y + c.2 ≥ 0 then writeCell acc (p.y + c.2) (p.x + c.1) v else acc) g)
          y x =
        if ((x : Int), (y : Int)) ∈ L.map (fun c => (p.x + c.1, p.y + c.2)) then v
        else cellAt g y x := by
  intro L
  induction L with
  | nil => intro g hwf _; exact ⟨hwf, fun y x => by simp⟩
  | cons c L ih =>
    intro g hwf hb
    obtain ⟨hc1, hc2, hc3⟩ := hb c (List.mem_cons_self _ _)
    have hb' : ∀ c ∈ L, 0 ≤ p.x + c.1 ∧ p.x + c.1 < (COLS : Int) ∧ p.y + c.2 < (ROWS : Int) :=
      fun d hd => hb d (List.mem_cons_of_mem _ hd)
    rw [List.foldl_cons]
    by_cases hy : p.y + c.2 ≥ 0
    · rw [if_pos hy]
      obtain ⟨w, hcell⟩ := ih _ (writeCell_WF g hwf _ _ v) hb'
      refine ⟨w, fun y x => ?_⟩
      rw [hcell y x, cellAt_writeCell g hwf _ _ v hy hc3 hc1 hc2]
      by_cases hm : ((x : Int), (y : Int)) ∈ L.map (fun c => (p.x + c.1, p.y + c.2))
      · simp only [List.map_cons, List.mem_cons, hm, if_true, or_true]
      · simp only [List.map_cons, List.mem_cons, hm, if_false, or_false]
    · rw [if_neg hy]
      obtain ⟨w, hcell⟩ := ih g hwf hb'
      refine ⟨w, fun y x => ?_⟩
      rw [hcell y x]
      have hne : ¬ ((x : Int), (y : Int)) = (p.x + c.1, p.y + c.2) := by
        rw [Prod.mk.injEq]; omega
      simp only [List.map_cons, List.mem_cons, hne, false_or]

theorem lockFold_above (p : Piece) (v : Int) : ∀ (L : List (Int × Int)) (g : Grid),
    (∀ c ∈ L, p.y + c.2 < 0) →
    L.foldl (fun acc c => if p.y + c.2 ≥ 0 then writeCell acc (p.y + c.2) (p.x + c.1) v else acc)
        g = g := by
  intro L
  induction L with
  | nil => intro g _; rfl
  | cons c L ih =>
    intro g h
    have hc := h c (List.mem_cons_self _ _)
    rw [List.foldl_cons, if_neg (by omega)]
    exact ih g (fun d hd => h d (List.mem_cons_of_mem _ hd))

theorem lockPiece_WF (g : Grid) (p : Piece) (hwf : g.WF) (hv : valid g p = true) :
    (lockPiece g p).WF :=
  (lockFold_spec p (p.type + 1) (shapeOf p) g hwf (valid_bounds g p hv)).1

/-- C3: on a 20x10 grid, for a piece whose cells are all within the columns and above the
floor, `lockPiece` keeps the grid shape, sets exactly the grid cells covered by the piece to
kind+1 and leaves every other cell as it was; a piece wholly above the field writes nothing;
and cell ids within 0..7 stay within 0..7 when the kind is one of 0..6. -/
theorem lockPiece_spec (g : Grid) (p : Piece) (hwf : g.WF)
    (hb : ∀ c ∈ cells p, 0 ≤ c.1 ∧ c.1 < (COLS : Int) ∧ c.2 < (ROWS : Int)) :
    (lockPiece g p).WF ∧
    (∀ y x : Nat, cellAt (lockPiece g p) y x =
      if ((x : Int), (y : Int)) ∈ cells p then p.type + 1 else cellAt g y x) ∧
    ((∀ c ∈ cells p, c.2 < 0) → lockPiece g p = g) ∧
    (KindOK p.type → (∀ y x : Nat, 0 ≤ cellAt g y x ∧ cellAt g y x ≤ 7) →
      ∀ y x : Nat, 0 ≤ cellAt (lockPiece g p) y x ∧ cellAt (lockPiece g p) y x ≤ 7) := by
  have hb' : ∀ c ∈ shapeOf p,
      0 ≤ p.x + c.1 ∧ p.x + c.1 < (COLS : Int) ∧ p.y + c.2 < (ROWS : Int) :=
    fun c hc => hb (p.x + c.1, p.y + c.2) (List.mem_map.2 ⟨c, hc, rfl⟩)
  obtain ⟨h1, h2⟩ := lockFold_spec p (p.type + 1) (shapeOf p) g hwf hb'
  have hcell : ∀ y x : Nat, cellAt (lockPiece g p) y x =
      if ((x : Int), (y : Int)) ∈ cells p then p.type + 1 else cellAt g y x := h2
  refine ⟨h1, hcell, ?_, ?_⟩
  · intro habove
    exact lockFold_above p (p.type + 1) (shapeOf p) g
      (fun c hc => habove (p.x + c.1, p.y + c.2) (List.mem_map.2 ⟨c, hc, rfl⟩))
  · intro hk hrange y x
    rw [hcell y x]
    obtain ⟨k1, k2⟩ := hk
    split_ifs
    · constructor <;> omega
    · exact hrange y x

theorem lockPiece_spec_witness :
    demoGrid.WF ∧
    (∀ c ∈ cells demoPiece, 0 ≤ c.1 ∧ c.1 < (COLS : Int) ∧ c.2 < (ROWS : Int)) ∧
    (lockPiece demoGrid demoPiece).WF ∧
    (∀ y x : Nat, cellAt (lockPiece demoGrid demoPiece) y x =
      if ((x : Int), (y : Int)) ∈ cells demoPiece then demoPiece.type + 1
      else cellAt demoGrid y x) :=
  ⟨by decide, by decide,
   (lockPiece_spec demoGrid demoPiece (by decide) (by decide)).1,
   (lockPiece_spec demoGrid demoPiece (by decide) (by decide)).2.1⟩

/-! ## The seven-bag -/

theorem shuffle_cases (sh : List Int) (h : IsShuffle sh) :
    ∃ a b c d e f g : Int, sh = [a, b, c, d, e, f, g] := by
  have hl : sh.length = 7 := by
    have := List.Perm.length_eq h
    simpa [bagInit] using this
  match sh, hl with
  | [a, b, c, d, e, f, g], _ => exact ⟨a, b, c, d, e, f, g, rfl⟩

theorem six_cases (l : List (List Int)) (h : l.length = 6) :
    ∃ a b c d e f : List Int, l = [a, b, c, d, e, f] := by
  match l, h with
  | [a, b, c, d, e, f], _ => exact ⟨a, b, c, d, e, f, rfl⟩

/-- C4: starting from an empty bag, whatever permutation the shuffle produces, the next seven
calls of `SevenBag::next` return the shuffled bag back to front (so each kind 0..6 exactly
once) and leave the bag empty, so that the eighth call refills from its own shuffle. -/
theorem sevenBag_cycle (sh : List Int) (hsh : IsShuffle sh) (later : List (List Int))
    (hlen : later.length = 6) :
    (draws (sh :: later) []).1 = sh.reverse ∧
    (draws (sh :: later) []).1.Perm [0, 1, 2, 3, 4, 5, 6] ∧
    (∀ k : Int, 0 ≤ k → k < 7 → (draws (sh :: later) []).1.count k = 1) ∧
    (draws (sh :: later) []).2 = [] ∧
    (∀ sh', SevenBag.next sh' (draws (sh :: later) []).2 = (sh'.getLastD 0, sh'.dropLast)) := by
  obtain ⟨a, b, c, d, e, f, g, rfl⟩ := shuffle_cases sh hsh
  obtain ⟨l1, l2, l3, l4, l5, l6, rfl⟩ := six_cases later hlen
  have h1 : (draws ([a, b, c, d, e, f, g] :: [l1, l2, l3, l4, l5, l6]) []).1
      = [a, b, c, d, e, f, g].reverse := rfl
  have h2 : (draws ([a, b, c, d, e, f, g] :: [l1, l2, l3, l4, l5, l6]) []).2 = [] := rfl
  have hp : ([a, b, c, d, e, f, g] : List Int).reverse.Perm [0, 1, 2, 3, 4, 5, 6] :=
    (List.reverse_perm _).trans hsh
  refine ⟨h1, ?_, ?_, h2, ?_⟩
  · rw [h1]; exact hp
  · intro k hk0 hk7
    rw [h1, hp.count_eq k]
    interval_cases k <;> decide
  · intro sh'; rw [h2]; rfl

theorem sevenBag_cycle_witness :
    IsShuffle [3, 0, 6, 1, 5, 2, 4] ∧
    (draws ([3, 0, 6, 1, 5, 2, 4] :: List.replicate 6 []) []).1 = [4, 2, 5, 1, 6, 0, 3] ∧
    (draws ([3, 0, 6, 1, 5, 2, 4] :: List.replicate 6 []) []).2 = [] :=
  ⟨by decide,
   (sevenBag_cycle [3, 0, 6, 1, 5, 2, 4] (by decide) (List.replicate 6 []) (by decide)).1,
   (sevenBag_cycle [3, 0, 6, 1, 5, 2, 4] (by decide) (List.replicate 6 []) (by decide)).2.2.2.1⟩

/-! ## The descent loop of hardDrop -/

theorem softMove_down (s : State) :
    softMove 0 1 s = if valid s.grid (sunk s 1).cur = true then (true, sunk s 1) else (false, s) := by
  unfold softMove sunk
  simp

theorem sunk_sunk (s : State) (a b : Int) : sunk (sunk s a) b = sunk s (a + b) := by
  unfold sunk
  simp [add_assoc]

theorem sunk_zero (s : State) : sunk s 0 = s := by
  unfold sunk
  simp

/-- Partial correctness of the descent loop: a result is the piece moved straight down by the
counted number of rows, through valid placements only, onto a placement with an invalid
placement below. -/
theorem dropLoop_some (fuel : Nat) : ∀ (s : State) (d0 : Int) (r : State × Int),
    dropLoop fuel s d0 = some r →
    ∃ n : Nat, r = (sunk s n, d0 + n) ∧
      (∀ j : Nat, 1 ≤ j → j ≤ n → valid s.grid (sunk s j).cur = true) ∧
      valid s.grid (sunk s (n + 1)).cur = false := by
  induction fuel with
  | zero => intro s d0 r h; simp [dropLoop] at h
  | succ fuel ih =>
    intro s d0 r h
    rw [dropLoop, softMove_down] at h
    by_cases hv : valid s.grid (sunk s 1).cur = true
    · rw [if_pos hv] at h
      simp only at h
      obtain ⟨n, hr, hall, hlast⟩ := ih _ _ _ h
      refine ⟨n + 1, ?_, ?_, ?_⟩
      · rw [hr, sunk_sunk]; push_cast
        rw [add_comm (1 : Int) n, add_assoc, add_comm (1 : Int) n]
      · intro j hj1 hjn
        by_cases hj : j = 1
        · subst hj; exact hv
        · obtain ⟨i, rfl⟩ : ∃ i, j = i + 1 := ⟨j - 1, by omega⟩
          have := hall i (by omega) (by omega)
          rw [sunk_sunk] at this
          have hgrid : (sunk s 1).grid = s.grid := rfl
          rw [hgrid] at this
          push_cast
          rw [add_comm (i : Int) 1]; exact this
      · rw [sunk_sunk] at hlast
        have hgrid : (sunk s 1).grid = s.grid := rfl
        rw [hgrid] at hlast
        push_cast
        rw [add_comm (n : Int) 1, add_assoc]; exact hlast
    · rw [if_neg hv] at h
      simp only [Option.some.injEq] at h
      refine ⟨0, ?_, ?_, ?_⟩
      · rw [← h]; simp [sunk_zero]
      · intro j h1 h2; omega
      · simpa using hv

/-- Termination of the descent loop: from a valid placement of a catalogued kind at anchor
row `y`, `ROWS - y + 1` calls of `softMove` suffice. -/
theorem dropLoop_terminates (fuel : Nat) : ∀ (s : State) (d0 : Int), KindOK s.cur.type →
    valid s.grid s.cur = true → ((ROWS : Int) - s.cur.y).toNat + 1 ≤ fuel →
    ∃ r, dropLoop fuel s d0 = some r := by
  induction fuel with
  | zero => intro s d0 _ _ h; omega
  | succ fuel ih =>
    intro s d0 hk hv hfuel
    have hy := valid_y_lt s.grid s.cur hk hv
    rw [dropLoop, softMove_down]
    by_cases hv1 : valid s.grid (sunk s 1).cur = true
    · rw [if_pos hv1]
      simp only
      have hy1 : (sunk s 1).cur.y = s.cur.y + 1 := rfl
      exact ih (sunk s 1) (d0 + 1) hk hv1 (by rw [hy1]; omega)
    · rw [if_neg hv1]
      exact ⟨_, rfl⟩

/-- The descent loop of `hardDrop` from a valid placement: it returns, and the result is the
piece moved straight down through valid placements onto a placement with an invalid one
below. -/
theorem dropLoop_valid (fuel : Nat) (s : State) (hk : KindOK s.cur.type)
    (hv : valid s.grid s.cur = true) (hfuel : ((ROWS : Int) - s.cur.y).toNat + 1 ≤ fuel) :
    ∃ n : Nat, dropLoop fuel s 0 = some (sunk s n, (n : Int)) ∧
      (∀ j : Nat, j ≤ n → valid s.grid (sunk s j).cur = true) ∧
      valid s.grid (sunk s (n + 1)).cur = false := by
  obtain ⟨r, hr⟩ := dropLoop_terminates fuel s 0 hk hv hfuel
  obtain ⟨n, hn, hall, hlast⟩ := dropLoop_some fuel s 0 r hr
  refine ⟨n, ?_, ?_, hlast⟩
  · rw [hr, hn]; simp
  · intro j hj
    by_cases h0 : j = 0
    · subst h0
      have : sunk s ((0 : Nat) : Int) = s := by simpa using sunk_zero s
      rw [this]; exact hv
    · exact hall j (by omega) hj

/-! ## Rounding to `float` -/

theorem log2Loop_spec : ∀ (fuel n : Nat), 1 ≤ n → n ≤ fuel →
    2 ^ log2Loop fuel n ≤ n ∧ n < 2 ^ (log2Loop fuel n + 1) := by
  intro fuel
  induction fuel with
  | zero => intro n h1 h2; omega
  | succ fuel ih =>
    intro n h1 h2
    rw [log2Loop]
    split_ifs with h
    · obtain ⟨a, b⟩ := ih (n / 2) (by omega) (by omega)
      constructor
      · rw [pow_succ]; omega
      · rw [pow_succ]; omega
    · simp; omega

theorem ilog2_spec (n : Nat) (h : 1 ≤ n) : 2 ^ ilog2 n ≤ n ∧ n < 2 ^ (ilog2 n + 1) :=
  log2Loop_spec n n h (le_refl n)

theorem expOf_le (q : ℚ) (hq : q ≠ 0) : (2 : ℚ) ^ expOf q ≤ |q| := by
  unfold expOf
  simp only
  split_ifs with h
  · exact h
  · have hn : 1 ≤ q.num.natAbs := by
      have := Rat.num_ne_zero.2 hq
      omega
    have hd : 1 ≤ q.den := q.den_pos
    obtain ⟨a1, _⟩ := ilog2_spec _ hn
    obtain ⟨_, b2⟩ := ilog2_spec _ hd
    have habs : |q| = (q.num.natAbs : ℚ) / (q.den : ℚ) := by
      rw [Rat.abs_def, Rat.divInt_eq_div]
      push_cast
      rw [Nat.cast_natAbs]
      push_cast
      rfl
    rw [habs]
    have a1' : (2 : ℚ) ^ (ilog2 q.num.natAbs) ≤ (q.num.natAbs : ℚ) := by exact_mod_cast a1
    have b2' : (q.den : ℚ) < (2 : ℚ) ^ (ilog2 q.den + 1) := by exact_mod_cast b2
    have hdpos : (0 : ℚ) < q.den := by exact_mod_cast hd
    rw [le_div_iff₀ hdpos]
    have e1 : (2 : ℚ) ^ ((ilog2 q.num.natAbs : Int) - (ilog2 q.den : Int) - 1) =
        (2 : ℚ) ^ (ilog2 q.num.natAbs) / (2 : ℚ) ^ (ilog2 q.den + 1) := by
      rw [show ((ilog2 q.num.natAbs : Int) - (ilog2 q.den : Int) - 1) =
        (ilog2 q.num.natAbs : Int) - ((ilog2 q.den + 1 : Nat) : Int) by push_cast; ring]
      rw [zpow_sub₀ (by norm_num), zpow_natCast, zpow_natCast]
    rw [e1, div_mul_eq_mul_div, div_le_iff₀ (by positivity)]
    have h2pos : (0 : ℚ) < (2 : ℚ) ^ (ilog2 q.num.natAbs) := by positivity
    nlinarith

theorem roundEven_ge (q : ℚ) (m : Int) (h : (m : ℚ) ≤ q) : m ≤ roundEven q := by
  have hf : m ≤ ⌊q⌋ := Int.le_floor.2 h
  unfold roundEven
  simp only
  split_ifs <;> omega

theorem roundEven_le (q : ℚ) (m : Int) (h : q ≤ (m : ℚ)) : roundEven q ≤ m := by
  unfold roundEven
  simp only
  rcases eq_or_lt_of_le h with h | h
  · have hf : ⌊q⌋ = m := by rw [h]; exact Int.floor_intCast m
    have hr : q - (⌊q⌋ : ℚ) < 1 / 2 := by rw [hf, h]; norm_num
    rw [if_pos hr, hf]
  · have hf : ⌊q⌋ < m := Int.floor_lt.2 h
    split_ifs <;> omega

theorem ulp_pos (x : ℚ) : (0 : ℚ) < 2 ^ ulpExp x := by positivity

/-- A multiple of the unit in the last place at `x` that is at most `x` is at most the
rounded `x`. -/
theorem roundF32_ge_mul (x : ℚ) (m : Int) (h : (m : ℚ) * 2 ^ ulpExp x ≤ x) :
    (m : ℚ) * 2 ^ ulpExp x ≤ roundF32 x := by
  unfold roundF32
  have hu := ulp_pos x
  have h1 : (m : ℚ) ≤ x / 2 ^ ulpExp x := (le_div_iff₀ hu).2 h
  have h2 := roundEven_ge _ m h1
  have h3 : (m : ℚ) ≤ (roundEven (x / 2 ^ ulpExp x) : ℚ) := by exact_mod_cast h2
  exact mul_le_mul_of_nonneg_right h3 hu.le

theorem roundF32_le_mul (x : ℚ) (m : Int) (h : x ≤ (m : ℚ) * 2 ^ ulpExp x) :
    roundF32 x ≤ (m : ℚ) * 2 ^ ulpExp x := by
  unfold roundF32
  have hu := ulp_pos x
  have h1 : x / 2 ^ ulpExp x ≤ (m : ℚ) := (div_le_iff₀ hu).2 h
  have h2 := roundEven_le _ m h1
  have h3 : (roundEven (x / 2 ^ ulpExp x) : ℚ) ≤ (m : ℚ) := by exact_mod_cast h2
  exact mul_le_mul_of_nonneg_right h3 hu.le

/-- A number `m * 2 ^ j` with `j` at or above the exponent of the unit at `x` is a multiple
of that unit. -/
theorem multiple_of_ulp (x : ℚ) (m j : Int) (h : ulpExp x ≤ j) :
    ∃ n : Int, (m : ℚ) * 2 ^ j = (n : ℚ) * 2 ^ ulpExp x := by
  refine ⟨m * 2 ^ (j - ulpExp x).toNat, ?_⟩
  push_cast
  rw [mul_assoc, ← zpow_natCast, ← zpow_add₀ (by norm_num)]
  congr 2
  rw [Int.toNat_of_nonneg (by omega)]
  ring

/-- Rounding is monotone against a positive float below: `a = m * 2 ^ j` with
`a < 2 ^ (j + 24)` and `-149 ≤ j`. -/
theorem roundF32_ge (a x : ℚ) (m j : Int) (ha : a = (m : ℚ) * 2 ^ j) (hj : -149 ≤ j)
    (hlt : a < 2 ^ (j + 24)) (hax : a ≤ x) (hpos : 0 < a) : a ≤ roundF32 x := by
  have hx : x ≠ 0 := by intro h; rw [h] at hax; linarith
  by_cases hk : ulpExp x ≤ j
  · obtain ⟨n, hn⟩ := multiple_of_ulp x m j hk
    rw [ha, hn]
    apply roundF32_ge_mul
    rw [← hn, ← ha]; exact hax
  · have hk' : ulpExp x = expOf x - 23 := by
      unfold ulpExp at hk ⊢
      rw [max_eq_left]
      by_contra hc
      rw [max_eq_right (by omega)] at hk
      omega
    have he := expOf_le x hx
    rw [abs_of_pos (by linarith)] at he
    have h2 : (2 : ℚ) ^ expOf x = ((2 ^ 23 : Int) : ℚ) * 2 ^ ulpExp x := by
      rw [hk', show (((2 ^ 23 : Int)) : ℚ) = (2 : ℚ) ^ (23 : Int) by norm_num,
        ← zpow_add₀ (by norm_num)]
      congr 1
      ring
    have h3 := roundF32_ge_mul x (2 ^ 23) (by rw [← h2]; exact he)
    rw [← h2] at h3
    have h4 : (2 : ℚ) ^ (j + 24) ≤ 2 ^ expOf x :=
      zpow_le_zpow_right₀ (by norm_num) (by omega)
    linarith

theorem roundF32_le (b x : ℚ) (m j : Int) (hb : b = (m : ℚ) * 2 ^ j) (hj : -149 ≤ j)
    (hlt : b < 2 ^ (j + 24)) (hxb : x ≤ b) (hpos : 0 ≤ b) : roundF32 x ≤ b := by
  by_cases hx : x ≤ 0
  · have h := roundF32_le_mul x 0 (by simpa using hx)
    simp only [Int.cast_zero, zero_mul] at h
    linarith
  · have hx0 : x ≠ 0 := by intro h; rw [h] at hx; exact hx (le_refl _)
    have hxpos : 0 < x := lt_of_not_le hx
    have he := expOf_le x hx0
    rw [abs_of_pos hxpos] at he
    have hlt2 : (2 : ℚ) ^ expOf x < 2 ^ (j + 24) := by linarith
    have he2 : expOf x < j + 24 := (zpow_lt_zpow_iff_right₀ (by norm_num)).1 hlt2
    have hk : ulpExp x ≤ j := by
      unfold ulpExp
      exact max_le (by omega) hj
    obtain ⟨n, hn⟩ := multiple_of_ulp x m j hk
    rw [hb, hn]
    apply roundF32_le_mul
    rw [← hn, ← hb]; exact hxb

/-- A sum that has reached 350 has reached it after rounding. -/
theorem fadd_ge_350 (a b : ℚ) (h : 350 ≤ a + b) : 350 ≤ fadd a b :=
  roundF32_ge 350 (a + b) 175 1 (by norm_num) (by norm_num) (by norm_num) h (by norm_num)

/-- For a level from 1 on, the float expression of the gravity interval has the value of
the exact one. -/
theorem gravityOf_eq (level : Int) (h : 1 ≤ level) :
    gravityOf level = max 120 (1000 - 80 * ((level : ℚ) - 1)) := by
  by_cases h12 : level < 12
  · interval_cases level <;> decide!
  · have hl : (11 : ℚ) ≤ ((level - 1 : Int) : ℚ) := by
      have : (11 : Int) ≤ level - 1 := by omega
      exact_mod_cast this
    have h1 : (11 : ℚ) ≤ roundF32 ((level - 1 : Int) : ℚ) :=
      roundF32_ge 11 _ 11 0 (by norm_num) (by norm_num) (by norm_num) hl (by norm_num)
    have h2 : (880 : ℚ) ≤ fmul 80 (roundF32 ((level - 1 : Int) : ℚ)) :=
      roundF32_ge 880 _ 55 4 (by norm_num) (by norm_num) (by norm_num) (by linarith)
        (by norm_num)
    have h3 : fsub 1000 (fmul 80 (roundF32 ((level - 1 : Int) : ℚ))) ≤ 120 :=
      roundF32_le 120 _ 15 3 (by norm_num) (by norm_num) (by norm_num) (by linarith)
        (by norm_num)
    unfold gravityOf
    rw [max_eq_left h3, max_eq_left]
    push_cast at hl
    linarith

/-! ## The lock sequence -/

theorem tableAt_zero : tableAt 0 = 0 := rfl

theorem tableAt_eq (k : Nat) (hk : k ≤ 4) : tableAt (k : Int) = scoreTable k := by
  interval_cases k <;> rfl

/-- The fields of the state after the lock of `hardDrop` when the piece does not overflow
and `clearLines` returns the grid `g1` and the count `c`. -/
theorem hardDropLock_noOverflow (fuel : Nat) (sh : List Int) (dropped : Int) (s : State)
    (g1 : Grid) (c : Int) (hno : pieceAboveTop s.cur = false)
    (hcl : clearLines fuel (lockPiece s.grid s.cur) = some (g1, c)) :
    ∃ s1, hardDropLock fuel sh dropped s = some s1 ∧
      s1.grid = g1 ∧
      s1.score = s.score + dropped * 2 + (if c ≠ 0 then tableAt c * s.level else 0) ∧
      s1.lines = (if c ≠ 0 then s.lines + c else s.lines) ∧
      s1.level = (if c ≠ 0 then levelOf (s.lines + c) else s.level) ∧
      s1.gravityMs = (if c ≠ 0 then gravityOf (levelOf (s.lines + c)) else s.gravityMs) ∧
      s1.cur = s.nxt ∧ s1.nxt = spawnOf (SevenBag.next sh s.bag).1 ∧
      s1.bag = (SevenBag.next sh s.bag).2 ∧ s1.canHold = true ∧
      s1.gameOver = (s.gameOver || !valid g1 s.nxt) ∧
      s1.paused = (s.paused || !valid g1 s.nxt) ∧
      s1.grounded = false ∧ s1.lockTimer = 0 ∧ s1.holdType = s.holdType ∧
      s1.fallTimer = s.fallTimer ∧ s1.holdL = s.holdL ∧ s1.holdR = s.holdR := by
  unfold hardDropLock
  simp only [hno, hcl, Bool.false_eq_true, if_false]
  by_cases hc : c = 0
  · subst hc
    by_cases hv : valid g1 s.nxt = true
    · exact ⟨_, rfl, by simp [hv, spawnOf]⟩
    · simp only [Bool.not_eq_true] at hv
      exact ⟨_, rfl, by simp [hv, spawnOf]⟩
  · by_cases hv : valid g1 s.nxt = true
    · exact ⟨_, rfl, by simp [hv, hc, spawnOf]⟩
    · simp only [Bool.not_eq_true] at hv
      exact ⟨_, rfl, by simp [hv, hc, spawnOf]⟩

/-- The fields of the state after the lock at lock-delay expiry when the piece does not
overflow and `clearLines` returns the grid `g1` and the count `c`. -/
theorem tickLock_noOverflow (fuel : Nat) (sh : List Int) (s : State)
    (g1 : Grid) (c : Int) (hno : pieceAboveTop s.cur = false)
    (hcl : clearLines fuel (lockPiece s.grid s.cur) = some (g1, c)) :
    ∃ s1, tickLock fuel sh s = some s1 ∧
      s1.grid = g1 ∧
      s1.score = s.score + (if c ≠ 0 then tableAt c * s.level else 0) ∧
      s1.lines = (if c ≠ 0 then s.lines + c else s.lines) ∧
      s1.level = (if c ≠ 0 then levelOf (s.lines + c) else s.level) ∧
      s1.gravityMs = (if c ≠ 0 then gravityOf (levelOf (s.lines + c)) else s.gravityMs) ∧
      s1.cur = s.nxt ∧ s1.nxt = spawnOf (SevenBag.next sh s.bag).1 ∧
      s1.bag = (SevenBag.next sh s.bag).2 ∧ s1.canHold = true ∧
      s1.gameOver = (s.gameOver || !valid g1 s.nxt) ∧
      s1.paused = (s.paused || !valid g1 s.nxt) ∧
      s1.grounded = false ∧ s1.lockTimer = 0 ∧ s1.holdType = s.holdType ∧
      s1.fallTimer = s.fallTimer ∧ s1.holdL = s.holdL ∧ s1.holdR = s.holdR := by
  unfold tickLock
  simp only [hno, hcl, Bool.false_eq_true, if_false]
  by_cases hc : c = 0
  · subst hc
    by_cases hv : valid g1 s.nxt = true
    · exact ⟨_, rfl, by simp [hv, spawnOf]⟩
    · simp only [Bool.not_eq_true] at hv
      exact ⟨_, rfl, by simp [hv, spawnOf]⟩
  · by_cases hv : valid g1 s.nxt = true
    · exact ⟨_, rfl, by simp [hv, hc, spawnOf]⟩
    · simp only [Bool.not_eq_true] at hv
      exact ⟨_, rfl, by simp [hv, hc, spawnOf]⟩

/-- The state after either lock when the piece overflows. -/
theorem lock_of_overflow (fuel : Nat) (sh : List Int) (dropped : Int) (s : State)
    (hov : pieceAboveTop s.cur = true) :
    hardDropLock fuel sh dropped s =
      some { s with grid := lockPiece s.grid s.cur, gameOver := true, paused := true } ∧
    tickLock fuel sh s =
      some { s with grid := lockPiece s.grid s.cur, gameOver := true, paused := true,
                    grounded := false, lockTimer := 0 } := by
  unfold hardDropLock tickLock
  simp [hov]

/-- A frame on a piece that rests (the placement below is invalid), was already grounded and
whose lock timer reaches the lock delay performs the lock. -/
theorem tick_expiry (fuel : Nat) (sh : List Int) (dt : ℚ) (s : State)
    (hrest : valid s.grid (sunk s 1).cur = false) (hgr : s.grounded = true)
    (hexp : lockDelayMs ≤ s.lockTimer + dt) :
    tick fuel sh dt s = tickLock fuel sh (atExpiry dt s) := by
  have hrest' : valid s.grid { s.cur with y := s.cur.y + 1 } = false := hrest
  have hexp' : lockDelayMs ≤ fadd s.lockTimer dt := fadd_ge_350 _ _ hexp
  unfold tick atExpiry
  by_cases hdue : fadd s.fallTimer dt ≥ s.gravityMs
  · simp only [hdue, if_true]
    have hsm : softMove 0 1 { s with fallTimer := 0 } = (false, { s with fallTimer := 0 }) := by
      unfold softMove
      simp only [add_zero]
      rw [if_neg]
      · simp only [Bool.not_eq_true]
        show valid s.grid { s.cur with x := s.cur.x, y := s.cur.y + 1 } = false
        exact hrest'
    simp only [hsm]
    simp only [hrest', hgr, Bool.not_false, Bool.not_true, Bool.false_eq_true, if_true,
      if_false, ge_iff_le, hexp', and_self, true_and]
  · simp only [hdue, if_false, hrest', hgr, Bool.not_false, Bool.not_true, Bool.false_eq_true,
      if_true, ge_iff_le, hexp', and_self, true_and]

/-! ## Scoring of a lock -/

theorem landed_empty (k : Int) (hk : KindOK k) :
    pieceAboveTop { type := k, r := 0, x := 3, y := 18 } = false ∧
    fullCount (lockPiece emptyGrid { type := k, r := 0, x := 3, y := 18 }) = 0 ∧
    (lockPiece emptyGrid { type := k, r := 0, x := 3, y := 18 }).filter
        (fun r => !Row.isFull r) = lockPiece emptyGrid { type := k, r := 0, x := 3, y := 18 } := by
  obtain ⟨h1, h2⟩ := hk
  interval_cases k <;> decide

/-- A call of `rotate` keeps the kind; on the O kind it leaves the rotation index at 0. -/
theorem rotate_O (dir : Int) (t : State) (ht : t.cur.type = 3) (hr : t.cur.r = 0) :
    (rotate dir t).cur.type = 3 ∧ (rotate dir t).cur.r = 0 := by
  unfold rotate
  simp only
  split
  · rename_i w hw
    have hmem := List.mem_of_find?_eq_some hw
    obtain ⟨k, _, rfl⟩ := List.mem_map.1 hmem
    refine ⟨ht, ?_⟩
    show Int.tmod (t.cur.r + (if dir > 0 then 1 else ((rotsOf t.cur.type).length : Int) - 1))
      ((rotsOf t.cur.type).length : Int) = 0
    rw [ht]
    have : ((rotsOf 3).length : Int) = 1 := by decide
    rw [this, Int.tmod_one]
  · exact ⟨ht, hr⟩

theorem rotate_O_iterate (t : State) (ht : t.cur.type = 3) (hr : t.cur.r = 0) (n : Nat) :
    (Nat.iterate (rotate 1) n t).cur.type = 3 ∧ (Nat.iterate (rotate 1) n t).cur.r = 0 := by
  induction n generalizing t with
  | zero => exact ⟨ht, hr⟩
  | succ n ih =>
    rw [Function.iterate_succ_apply]
    obtain ⟨h1, h2⟩ := rotate_O 1 t ht hr
    exact ih (rotate 1 t) h1 h2

/-- One call of `rotate(+1)` on the empty board for a piece in the spawn column and row whose
rotated placement is valid without a kick. -/
theorem rotate_step (s : State) (hg : s.grid = emptyGrid) (k r r1 : Int)
    (hr : Int.tmod (r + 1) ((rotsOf k).length : Int) = r1)
    (hv : valid emptyGrid { type := k, r := r1, x := 3, y := -2 } = true) :
    rotate 1 { s with cur := { type := k, r := r, x := 3, y := -2 } } =
      { s with cur := { type := k, r := r1, x := 3, y := -2 } } := by
  unfold rotate
  simp only [kicks, List.map_cons, List.find?_cons, hg, gt_iff_lt, zero_lt_one, if_true, hr,
    add_zero, hv]

/-- On the empty board a spawned piece of any kind is back in its spawn placement after four
calls of `rotate(+1)`, and a spawned O piece is unchanged by a single call. -/
theorem rotate_spawn_empty (s : State) (hg : s.grid = emptyGrid) (hk : KindOK s.cur.type)
    (hc : s.cur = spawnOf s.cur.type) :
    rotate 1 (rotate 1 (rotate 1 (rotate 1 s))) = s ∧ (s.cur.type = 3 → rotate 1 s = s) := by
  have hs : s = { s with cur := { type := s.cur.type, r := 0, x := 3, y := -2 } } := by
    conv_lhs => rw [show s = { s with cur := s.cur } from rfl, hc]
    rfl
  obtain ⟨h1, h2⟩ := hk
  generalize s.cur.type = k at hs h1 h2
  interval_cases k
  · refine ⟨?_, fun h => absurd h (by decide)⟩
    rw [hs, rotate_step s hg 0 0 1 (by decide) (by decide),
      rotate_step s hg 0 1 0 (by decide) (by decide),
      rotate_step s hg 0 0 1 (by decide) (by decide),
      rotate_step s hg 0 1 0 (by decide) (by decide)]
  · refine ⟨?_, fun h => absurd h (by decide)⟩
    rw [hs, rotate_step s hg 1 0 1 (by decide) (by decide),
      rotate_step s hg 1 1 2 (by decide) (by decide),
      rotate_step s hg 1 2 3 (by decide) (by decide),
      rotate_step s hg 1 3 0 (by decide) (by decide)]
  · refine ⟨?_, fun h => absurd h (by decide)⟩
    rw [hs, rotate_step s hg 2 0 1 (by decide) (by decide),
      rotate_step s hg 2 1 2 (by decide) (by decide),
      rotate_step s hg 2 2 3 (by decide) (by decide),
      rotate_step s hg 2 3 0 (by decide) (by decide)]
  · have h1 := rotate_step s hg 3 0 0 (by decide) (by decide)
    refine ⟨?_, fun _ => ?_⟩
    · rw [hs, h1, h1, h1, h1]
    · rw [hs, h1]
  · refine ⟨?_, fun h => absurd h (by decide)⟩
    rw [hs, rotate_step s hg 4 0 1 (by decide) (by decide),
      rotate_step s hg 4 1 0 (by decide) (by decide),
      rotate_step s hg 4 0 1 (by decide) (by decide),
      rotate_step s hg 4 1 0 (by decide) (by decide)]
  · refine ⟨?_, fun h => absurd h (by decide)⟩
    rw [hs, rotate_step s hg 5 0 1 (by decide) (by decide),
      rotate_step s hg 5 1 2 (by decide) (by decide),
      rotate_step s hg 5 2 3 (by decide) (by decide),
      rotate_step s hg 5 3 0 (by decide) (by decide)]
  · refine ⟨?_, fun h => absurd h (by decide)⟩
    rw [hs, rotate_step s hg 6 0 1 (by decide) (by decide),
      rotate_step s hg 6 1 0 (by decide) (by decide),
      rotate_step s hg 6 0 1 (by decide) (by decide),
      rotate_step s hg 6 1 0 (by decide) (by decide)]

/-- C8: on the empty board, from the spawn placement of any kind, four calls of `rotate(+1)`
restore the rotation index 0 and the anchor (the whole state); for the O kind any number of
calls leaves the state as it is, and on any board the rotation index of an O piece stays 0. -/
theorem rotate_closure (s : State) (hg : s.grid = emptyGrid) (hk : KindOK s.cur.type)
    (hc : s.cur = spawnOf s.cur.type) :
    rotate 1 (rotate 1 (rotate 1 (rotate 1 s))) = s ∧
    (rotate 1 (rotate 1 (rotate 1 (rotate 1 s)))).cur.r = 0 ∧
    (rotate 1 (rotate 1 (rotate 1 (rotate 1 s)))).cur.x = 3 ∧
    (rotate 1 (rotate 1 (rotate 1 (rotate 1 s)))).cur.y = -2 ∧
    (s.cur.type = 3 → ∀ n : Nat, Nat.iterate (rotate 1) n s = s) ∧
    (∀ t : State, t.cur.type = 3 → t.cur.r = 0 → ∀ n : Nat,
      (Nat.iterate (rotate 1) n t).cur.r = 0) := by
  obtain ⟨h4, hO⟩ := rotate_spawn_empty s hg hk hc
  have hr : s.cur.r = 0 := by rw [hc]; rfl
  have hx : s.cur.x = 3 := by rw [hc]; rfl
  have hy : s.cur.y = -2 := by rw [hc]; rfl
  refine ⟨h4, by rw [h4]; exact hr, by rw [h4]; exact hx, by rw [h4]; exact hy, ?_, ?_⟩
  · intro h3 n
    induction n with
    | zero => rfl
    | succ n ih => rw [Function.iterate_succ_apply, hO h3, ih]
  · intro t ht hr n
    exact (rotate_O_iterate t ht hr n).2

theorem rotate_closure_witness :
    baseState.grid = emptyGrid ∧ KindOK baseState.cur.type ∧
    rotate 1 (rotate 1 (rotate 1 (rotate 1 baseState))) = baseState ∧
    (rotate 1 baseState).cur.r = 1 ∧
    (rotate 1 (rotate 1 (rotate 1 (rotate 1 baseState)))).cur.r = 0 :=
  ⟨by decide, by decide,
   (rotate_closure baseState (by decide) (by decide) (by decide)).1,
   by decide,
   (rotate_closure baseState (by decide) (by decide) (by decide)).2.1⟩

/-! ## Hold -/

/-- After `doHold`, hold is disallowed. -/
theorem doHold_canHold (sh : List Int) (s : State) : (doHold sh s).canHold = false := by
  unfold doHold
  by_cases hc : s.canHold = true
  · simp only [hc, Bool.not_true, Bool.false_eq_true, if_false]
    split_ifs <;> rfl
  · simp only [Bool.not_eq_true] at hc
    simp [hc]

/-- C9: a second `doHold` directly after a first one changes nothing: the state after the
second call is the state after the first, whatever the shuffles. -/
theorem doHold_twice (sh1 sh2 : List Int) (s : State) :
    doHold sh2 (doHold sh1 s) = doHold sh1 s := by
  have h := doHold_canHold sh1 s
  generalize doHold sh1 s = t at h
  unfold doHold
  simp [h]

/-! ## Overflow -/

/-- C10: when the piece has a cell above the field, either lock (that of `hardDrop`, that at
lock-delay expiry) merges the piece into the grid, sets `gameOver` and `paused`, and changes
nothing else of grid, score, lines, level, gravity, pieces, bag and hold: no row is cleared
and no piece is spawned (the lock at lock-delay expiry also resets the grounded flag and the
lock timer).  The merge writes the cells of the piece inside the field. -/
theorem lock_overflow (fuel : Nat) (sh : List Int) (dropped : Int) (s : State)
    (hov : ∃ c ∈ cells s.cur, c.2 < 0) :
    hardDropLock fuel sh dropped s =
      some { s with grid := lockPiece s.grid s.cur, gameOver := true, paused := true } ∧
    tickLock fuel sh s =
      some { s with grid := lockPiece s.grid s.cur, gameOver := true, paused := true,
                    grounded := false, lockTimer := 0 } ∧
    (∀ s0, dropLoop fuel s0 0 = some (s, dropped) →
      hardDrop fuel sh s0 =
        some { s with grid := lockPiece s.grid s.cur, gameOver := true, paused := true }) ∧
    (∀ dt : ℚ, valid s.grid (sunk s 1).cur = false → s.grounded = true →
      lockDelayMs ≤ s.lockTimer + dt →
      tick fuel sh dt s =
        some { atExpiry dt s with grid := lockPiece s.grid s.cur, gameOver := true,
                                  paused := true, grounded := false, lockTimer := 0 }) ∧
    (s.grid.WF → (∀ c ∈ cells s.cur, 0 ≤ c.1 ∧ c.1 < (COLS : Int) ∧ c.2 < (ROWS : Int)) →
      ∀ y x : Nat, cellAt (lockPiece s.grid s.cur) y x =
        if ((x : Int), (y : Int)) ∈ cells s.cur then s.cur.type + 1 else cellAt s.grid y x) := by
  have hp := (pieceAboveTop_iff s.cur).2 hov
  obtain ⟨h1, h2⟩ := lock_of_overflow fuel sh dropped s hp
  refine ⟨h1, h2, ?_, ?_, ?_⟩
  · intro s0 hd
    unfold hardDrop; rw [hd]; exact h1
  · intro dt hrest hgr hexp
    rw [tick_expiry fuel sh dt s hrest hgr hexp]
    exact (lock_of_overflow fuel sh dropped (atExpiry dt s) hp).2
  · intro hwf hb
    exact (lockFold_spec s.cur (s.cur.type + 1) (shapeOf s.cur) s.grid hwf
      (fun c hc => hb (s.cur.x + c.1, s.cur.y + c.2) (List.mem_map.2 ⟨c, hc, rfl⟩))).2

theorem lock_overflow_witness :
    (∃ c ∈ cells brimState.cur, c.2 < 0) ∧
    rowFull (lockPiece brimState.grid brimState.cur) 0 = true ∧
    hardDropLock 41 bagInit 0 brimState =
      some { brimState with grid := lockPiece brimState.grid brimState.cur,
                            gameOver := true, paused := true } ∧
    tickLock 41 bagInit brimState =
      some { brimState with grid := lockPiece brimState.grid brimState.cur,
                            gameOver := true, paused := true,
                            grounded := false, lockTimer := 0 } ∧
    tick 41 bagInit 16 brimState =
      some { atExpiry 16 brimState with grid := lockPiece brimState.grid brimState.cur,
                                        gameOver := true, paused := true,
                                        grounded := false, lockTimer := 0 } :=
  ⟨by decide, by decide,
   (lock_overflow 41 bagInit 0 brimState (by decide)).1,
   (lock_overflow 41 bagInit 0 brimState (by decide)).2.1,
   (lock_overflow 41 bagInit 0 brimState (by decide)).2.2.2.1 16 (by decide) (by decide)
     (by norm_num [lockDelayMs, brimState])⟩

/-! ## Game over and pause -/

/-- C11: a frame that starts with `gameOver` set and without the restart key leaves
`gameOver` set and changes nothing but, on the pause key, the `paused` flag: board, pieces,
hold, bag, score, lines, level, gravity interval and timers are as before. -/
theorem gameOver_terminal (fuel : Nat) (inp : Input) (s : State) (hgo : s.gameOver = true)
    (hr : inp.keyR = false) :
    frame fuel inp s = some { s with paused := if inp.keyP then !s.paused else s.paused } ∧
    ∀ s1, frame fuel inp s = some s1 →
      s1.gameOver = true ∧ s1.grid = s.grid ∧ s1.cur = s.cur ∧ s1.nxt = s.nxt ∧
      s1.holdType = s.holdType ∧ s1.canHold = s.canHold ∧ s1.bag = s.bag ∧
      s1.score = s.score ∧ s1.lines = s.lines ∧ s1.level = s.level ∧
      s1.gravityMs = s.gravityMs ∧ s1.fallTimer = s.fallTimer ∧
      s1.lockTimer = s.lockTimer ∧ s1.grounded = s.grounded ∧
      s1.holdL = s.holdL ∧ s1.holdR = s.holdR := by
  have h : frame fuel inp s =
      some { s with paused := if inp.keyP then !s.paused else s.paused } := by
    have hcond : ∀ b : Bool, (!b && !s.gameOver) = false := by
      intro b; rw [hgo]; simp
    unfold frame
    cases hp : inp.keyP
    · simp only [hr, Bool.false_eq_true, if_false, hcond]
    · simp only [hr, Bool.false_eq_true, if_false, if_true, hcond]
  refine ⟨h, ?_⟩
  intro s1 h1
  rw [h] at h1
  injection h1 with h1
  subst h1
  exact ⟨hgo, rfl, rfl, rfl, rfl, rfl, rfl, rfl, rfl, rfl, rfl, rfl, rfl, rfl, rfl, rfl⟩

theorem gameOver_terminal_witness :
    overState.gameOver = true ∧ mash.keyR = false ∧
    frame 41 mash overState = some { overState with paused := false } :=
  ⟨by decide, by decide, (gameOver_terminal 41 mash overState (by decide) (by decide)).1⟩

/-! ## Hold, in full -/

/-- C14: when hold is allowed, `doHold` with no kind held stores the current kind, makes the
previous next piece current and draws a new next piece from the bag; with a kind `h` held it
stores the current kind and makes a piece of kind `h` current, at rotation 0 and the spawn
anchor, leaving next piece and bag alone.  Either way hold is then disallowed and board,
score, lines and level are unchanged. -/
theorem doHold_spec (sh : List Int) (s : State) (hc : s.canHold = true) :
    (s.holdType = -1 →
      (doHold sh s).holdType = s.cur.type ∧ (doHold sh s).cur = s.nxt ∧
      (doHold sh s).nxt = spawnOf (SevenBag.next sh s.bag).1 ∧
      (doHold sh s).bag = (SevenBag.next sh s.bag).2) ∧
    (s.holdType ≠ -1 →
      (doHold sh s).holdType = s.cur.type ∧
      (doHold sh s).cur = { type := s.holdType, r := 0, x := 3, y := -2 } ∧
      (doHold sh s).nxt = s.nxt ∧ (doHold sh s).bag = s.bag) ∧
    (doHold sh s).canHold = false ∧ (doHold sh s).grid = s.grid ∧
    (doHold sh s).score = s.score ∧ (doHold sh s).lines = s.lines ∧
    (doHold sh s).level = s.level := by
  unfold doHold
  simp only [hc, Bool.not_true, Bool.false_eq_true, if_false]
  by_cases hh : s.holdType = -1
  · simp only [hh, if_true]
    split_ifs <;> simp [spawnOf]
  · simp only [hh, if_false]
    split_ifs <;> simp

theorem doHold_spec_witness :
    baseState.canHold = true ∧
    (doHold bagInit baseState).holdType = 0 ∧ (doHold bagInit baseState).cur = spawnOf 3 ∧
    (doHold bagInit baseState).nxt = spawnOf 1 ∧ (doHold bagInit baseState).bag = [2, 5] ∧
    (doHold bagInit baseState).canHold = false :=
  ⟨by decide,
   ((doHold_spec bagInit baseState (by decide)).1 (by decide)).1,
   ((doHold_spec bagInit baseState (by decide)).1 (by decide)).2.1,
   ((doHold_spec bagInit baseState (by decide)).1 (by decide)).2.2.1,
   ((doHold_spec bagInit baseState (by decide)).1 (by decide)).2.2.2,
   (doHold_spec bagInit baseState (by decide)).2.2.1⟩

/-! ## Rotation with wall kicks -/

theorem rotsOf_length_pos (t : Int) (hk : KindOK t) : 0 < ((rotsOf t).length : Int) := by
  obtain ⟨h1, h2⟩ := hk
  interval_cases t <;> decide

/-- For a rotation index in range the truncating remainder of `rotate` is the mathematical
one. -/
theorem rotate_candidate (dir : Int) (p : Piece) (hk : KindOK p.type) (hr : RotOK p) :
    Int.tmod (p.r + (if dir > 0 then 1 else ((rotsOf p.type).length : Int) - 1))
      ((rotsOf p.type).length : Int) = candidateRot dir p := by
  have hn := rotsOf_length_pos p.type hk
  obtain ⟨h0, h1⟩ := hr
  unfold candidateRot
  by_cases hd : dir > 0
  · simp only [hd, if_true]
    exact Int.tmod_eq_emod (by omega) (by omega)
  · simp only [hd, if_false]
    rw [Int.tmod_eq_emod (by omega) (by omega)]
    congr 1
    ring

theorem rotate_eq (dir : Int) (s : State) (hk : KindOK s.cur.type) (hr : RotOK s.cur) :
    rotate dir s =
      match (kicks.map (kicked dir s.cur)).find? (valid s.grid) with
      | some w => { s with cur := w }
      | none => s := by
  unfold rotate
  simp only [rotate_candidate dir s.cur hk hr]
  rfl

/-- C15: for a piece of a catalogued kind with its rotation index `r` in range, `rotate(dir)`
takes the candidate index `(r+1) mod n` for `dir > 0` and `(r+n-1) mod n` otherwise, and
commits the first of the placements shifted by 0, -1, +1, -2, +2 columns that is valid; if
none is valid the state is unchanged.  The board, the row and the kind of the piece never
change. -/
theorem rotate_spec (dir : Int) (s : State) (hk : KindOK s.cur.type) (hr : RotOK s.cur) :
    kicks = [0, -1, 1, -2, 2] ∧
    (∀ i, i < kicks.length → valid s.grid (kicked dir s.cur (kicks.getD i 0)) = true →
      (∀ j, j < i → valid s.grid (kicked dir s.cur (kicks.getD j 0)) = false) →
      rotate dir s = { s with cur := kicked dir s.cur (kicks.getD i 0) }) ∧
    ((∀ k ∈ kicks, valid s.grid (kicked dir s.cur k) = false) → rotate dir s = s) ∧
    (rotate dir s).grid = s.grid ∧ (rotate dir s).cur.y = s.cur.y ∧
    (rotate dir s).cur.type = s.cur.type ∧
    0 ≤ candidateRot dir s.cur ∧ candidateRot dir s.cur < ((rotsOf s.cur.type).length : Int) := by
  have hn := rotsOf_length_pos s.cur.type hk
  have he := rotate_eq dir s hk hr
  simp only [kicks, List.map_cons, List.map_nil, List.find?_cons, List.find?_nil] at he
  refine ⟨rfl, ?_, ?_, ?_, ?_, ?_, ?_, ?_⟩
  · intro i hi hv hprev
    simp only [kicks, List.length_cons, List.length_nil] at hi
    rw [he]
    interval_cases i
    · have h0 : valid s.grid (kicked dir s.cur 0) = true := hv
      simp only [h0]
      rfl
    · have h0 : valid s.grid (kicked dir s.cur 0) = false := hprev 0 (by omega)
      have h1 : valid s.grid (kicked dir s.cur (-1)) = true := hv
      simp only [h0, h1]
      rfl
    · have h0 : valid s.grid (kicked dir s.cur 0) = false := hprev 0 (by omega)
      have h1 : valid s.grid (kicked dir s.cur (-1)) = false := hprev 1 (by omega)
      have h2 : valid s.grid (kicked dir s.cur 1) = true := hv
      simp only [h0, h1, h2]
      rfl
    · have h0 : valid s.grid (kicked dir s.cur 0) = false := hprev 0 (by omega)
      have h1 : valid s.grid (kicked dir s.cur (-1)) = false := hprev 1 (by omega)
      have h2 : valid s.grid (kicked dir s.cur 1) = false := hprev 2 (by omega)
      have h3 : valid s.grid (kicked dir s.cur (-2)) = true := hv
      simp only [h0, h1, h2, h3]
      rfl
    · have h0 : valid s.grid (kicked dir s.cur 0) = false := hprev 0 (by omega)
      have h1 : valid s.grid (kicked dir s.cur (-1)) = false := hprev 1 (by omega)
      have h2 : valid s.grid (kicked dir s.cur 1) = false := hprev 2 (by omega)
      have h3 : valid s.grid (kicked dir s.cur (-2)) = false := hprev 3 (by omega)
      have h4 : valid s.grid (kicked dir s.cur 2) = true := hv
      simp only [h0, h1, h2, h3, h4]
      rfl
  · intro hnone
    rw [he]
    have h0 := hnone 0 (by decide)
    have h1 := hnone (-1) (by decide)
    have h2 := hnone 1 (by decide)
    have h3 := hnone (-2) (by decide)
    have h4 := hnone 2 (by decide)
    simp only [h0, h1, h2, h3, h4]
  · rw [he]; split <;> rfl
  · rw [rotate_eq dir s hk hr]
    split
    · rename_i w hw
      obtain ⟨k, _, rfl⟩ := List.mem_map.1 (List.mem_of_find?_eq_some hw)
      rfl
    · rfl
  · rw [rotate_eq dir s hk hr]
    split
    · rename_i w hw
      obtain ⟨k, _, rfl⟩ := List.mem_map.1 (List.mem_of_find?_eq_some hw)
      rfl
    · rfl
  · unfold candidateRot; split_ifs <;> exact Int.emod_nonneg _ (by omega)
  · unfold candidateRot; split_ifs <;> exact Int.emod_lt_of_pos _ hn

theorem rotate_spec_witness :
    KindOK wallState.cur.type ∧ RotOK wallState.cur ∧
    rotate 1 wallState = { wallState with cur := { type := 0, r := 0, x := 0, y := 5 } } ∧
    candidateRot 1 wallState.cur = 0 :=
  ⟨by decide, by decide,
   (rotate_spec 1 wallState (by decide) (by decide)).2.1 4 (by decide) (by decide) (by decide),
   by decide⟩

/-! ## Gravity and lock delay -/

theorem tick_eq (fuel : Nat) (sh : List Int) (dt : ℚ) (s : State) :
    tick fuel sh dt s =
      match tickSite dt s with
      | some t => tickLock fuel sh t
      | none => some (groundStep dt (gravityStep dt s).2) := by
  unfold tick tickSite groundStep
  generalize hm : gravityStep dt s = m
  unfold gravityStep at hm
  simp only at hm
  simp only [hm]
  cases hv : valid m.2.grid { m.2.cur with y := m.2.cur.y + 1 }
  · simp only [Bool.not_false, if_true, true_and]
    cases hc : m.1
    · simp only [Bool.not_false, true_and]
      split_ifs <;> simp_all
    · simp
  · simp

/-- The gravity step changes only the fall timer and, by one row, the anchor of the piece. -/
theorem gravityStep_fields (dt : ℚ) (s : State) :
    (gravityStep dt s).2.grid = s.grid ∧ (gravityStep dt s).2.bag = s.bag ∧
    (gravityStep dt s).2.nxt = s.nxt ∧ (gravityStep dt s).2.holdType = s.holdType ∧
    (gravityStep dt s).2.canHold = s.canHold ∧ (gravityStep dt s).2.score = s.score ∧
    (gravityStep dt s).2.lines = s.lines ∧ (gravityStep dt s).2.level = s.level ∧
    (gravityStep dt s).2.gravityMs = s.gravityMs ∧
    (gravityStep dt s).2.lockTimer = s.lockTimer ∧
    (gravityStep dt s).2.grounded = s.grounded ∧ (gravityStep dt s).2.paused = s.paused ∧
    (gravityStep dt s).2.gameOver = s.gameOver ∧ (gravityStep dt s).2.holdL = s.holdL ∧
    (gravityStep dt s).2.holdR = s.holdR ∧
    ((gravityStep dt s).1 = false → (gravityStep dt s).2.cur = s.cur) ∧
    ((gravityStep dt s).1 = true → (gravityStep dt s).2.cur = (sunk s 1).cur ∧
      valid s.grid (sunk s 1).cur = true) := by
  unfold gravityStep softMove sunk
  simp only [add_zero]
  split_ifs <;> simp_all

/-- The update of grounded flag and lock timer touches nothing else. -/
theorem groundStep_fields (dt : ℚ) (u : State) :
    (groundStep dt u).grid = u.grid ∧ (groundStep dt u).cur = u.cur ∧
    (groundStep dt u).nxt = u.nxt ∧ (groundStep dt u).bag = u.bag ∧
    (groundStep dt u).holdType = u.holdType ∧ (groundStep dt u).canHold = u.canHold ∧
    (groundStep dt u).score = u.score ∧ (groundStep dt u).lines = u.lines ∧
    (groundStep dt u).level = u.level ∧ (groundStep dt u).gravityMs = u.gravityMs ∧
    (groundStep dt u).paused = u.paused ∧ (groundStep dt u).gameOver = u.gameOver ∧
    (groundStep dt u).fallTimer = u.fallTimer ∧ (groundStep dt u).holdL = u.holdL ∧
    (groundStep dt u).holdR = u.holdR := by
  unfold groundStep
  split_ifs <;> exact ⟨rfl, rfl, rfl, rfl, rfl, rfl, rfl, rfl, rfl, rfl, rfl, rfl, rfl, rfl, rfl⟩

/-- C16: a frame enters its lock block exactly when, after its gravity step, the placement
one row below the piece is invalid, the gravity step of this frame did not move the piece,
the grounded flag was set before the frame, and the lock timer with the elapsed time added
(the `float` sum of line 313, the exact sum rounded to the nearest `float`) has reached the
lock delay of 350 ms, which it has whenever the exact sum has.  Then the frame is the lock
at that state; otherwise it only updates the grounded flag and the timers.  A piece is not
locked in the frame that first finds it resting, nor while the placement below it is
valid. -/
theorem tick_lock_iff (fuel : Nat) (sh : List Int) (dt : ℚ) (s : State) :
    ((tickSite dt s).isSome = true ↔
      (valid (gravityStep dt s).2.grid (sunk (gravityStep dt s).2 1).cur = false ∧
       (gravityStep dt s).1 = false ∧ s.grounded = true ∧ lockDelayMs ≤ fadd s.lockTimer dt)) ∧
    (∀ t, tickSite dt s = some t →
      tick fuel sh dt s = tickLock fuel sh t ∧
      t = { (gravityStep dt s).2 with lockTimer := fadd s.lockTimer dt }) ∧
    (tickSite dt s = none →
      ∃ s1, tick fuel sh dt s = some s1 ∧ s1.grid = s.grid ∧ s1.cur = (gravityStep dt s).2.cur ∧
        s1.nxt = s.nxt ∧ s1.bag = s.bag ∧ s1.holdType = s.holdType ∧
        s1.canHold = s.canHold ∧ s1.score = s.score ∧ s1.lines = s.lines ∧
        s1.level = s.level ∧ s1.gravityMs = s.gravityMs ∧ s1.paused = s.paused ∧
        s1.gameOver = s.gameOver) ∧
    (s.grounded = false → tickSite dt s = none) ∧
    (valid (gravityStep dt s).2.grid (sunk (gravityStep dt s).2 1).cur = true →
      tickSite dt s = none) ∧
    (lockDelayMs ≤ s.lockTimer + dt → lockDelayMs ≤ fadd s.lockTimer dt) := by
  obtain ⟨hg, hb, hn, hh, hc, hsc, hli, hle, hgr, hlt, hgd, hp, hgo, hl, hr, hcur0, hcur1⟩ :=
    gravityStep_fields dt s
  have hsite := tick_eq fuel sh dt s
  have hbelow : ∀ u : State, (sunk u 1).cur = { u.cur with y := u.cur.y + 1 } := fun _ => rfl
  generalize hm : gravityStep dt s = m at *
  have key : tickSite dt s =
      if valid m.2.grid (sunk m.2 1).cur = false ∧ m.1 = false ∧ s.grounded = true ∧
          lockDelayMs ≤ fadd s.lockTimer dt
      then some { m.2 with lockTimer := fadd s.lockTimer dt } else none := by
    unfold tickSite groundStep
    simp only [hm, hbelow]
    cases hv : valid m.2.grid { m.2.cur with y := m.2.cur.y + 1 }
    · cases hc1 : m.1
      · cases hgd1 : s.grounded
        · have : ¬ (lockDelayMs ≤ (0 : ℚ)) := by unfold lockDelayMs; norm_num
          simp [hgd, hgd1, this]
        · by_cases hx : lockDelayMs ≤ fadd s.lockTimer dt
          · simp [hgd, hgd1, hlt, hx]
          · simp [hgd, hgd1, hlt, hx]
      · simp
    · simp
  refine ⟨?_, ?_, ?_, ?_, ?_, fadd_ge_350 _ _⟩
  · rw [key]
    split_ifs with h
    · simp [h]
    · simp only [Option.isSome_none, Bool.false_eq_true, false_iff]; exact h
  · intro t ht
    rw [ht] at hsite
    refine ⟨hsite, ?_⟩
    rw [key] at ht
    split_ifs at ht
    injection ht with ht
    exact ht.symm
  · intro hnone
    rw [hnone] at hsite
    obtain ⟨g1, g2, g3, g4, g5, g6, g7, g8, g9, g10, g11, g12, _, _, _⟩ :=
      groundStep_fields dt m.2
    exact ⟨_, hsite, by rw [g1, hg], g2, by rw [g3, hn], by rw [g4, hb], by rw [g5, hh],
      by rw [g6, hc], by rw [g7, hsc], by rw [g8, hli], by rw [g9, hle], by rw [g10, hgr],
      by rw [g11, hp], by rw [g12, hgo]⟩
  · intro hgf
    rw [key]
    simp [hgf]
  · intro hv
    rw [key]
    simp [hv]

/-- The threshold is met by the rounded sum: a resting, grounded piece whose lock timer and
elapsed time add up to less than 350 ms, the `float` sum being 350, is locked. -/
theorem tick_locks_on_rounded_sum :
    roundF32 restState.lockTimer = restState.lockTimer ∧ roundF32 restDt = restDt ∧
    restState.lockTimer + restDt < lockDelayMs ∧
    fadd restState.lockTimer restDt = lockDelayMs ∧
    (tickSite restDt restState).isSome = true ∧
    tick 41 bagInit restDt restState = tickLock 41 bagInit (atExpiry restDt restState) := by
  decide!

/-! ## Reachable states -/

theorem reachable_run (fuel : Nat) : ∀ (inps : List Input) (s s1 : State), Reachable s →
    (∀ inp ∈ inps, inp.OK) → run fuel inps s = some s1 → Reachable s1 := by
  intro inps
  induction inps with
  | nil =>
    intro s s1 hs _ h
    simp only [run, Option.some.injEq] at h
    rw [← h]; exact hs
  | cons inp rest ih =>
    intro s s1 hs hok h
    rw [run] at h
    cases hf : frame fuel inp s with
    | none => rw [hf] at h; simp at h
    | some s2 =>
      rw [hf] at h
      exact ih s2 s1 (Reachable.step fuel inp s s2 hs (hok inp (List.mem_cons_self _ _)) hf)
        (fun i hi => hok i (List.mem_cons_of_mem _ hi)) h

theorem stackAndPause_run :
    Option.map (fun s : State => (s.gameOver, s.paused))
      (run 41 stackAndPause (initState bagInit)) = some (true, false) := by decide!

/-- C12 fails on the code: after eleven hard drops from the start the game is over, and the
pause key in the next frame clears `paused` while `gameOver` stays set. -/
theorem gameOver_unpaused : ∃ s, Reachable s ∧ s.gameOver = true ∧ s.paused = false := by
  have h := stackAndPause_run
  cases hr : run 41 stackAndPause (initState bagInit) with
  | none => rw [hr] at h; simp at h
  | some s =>
    rw [hr] at h
    simp only [Option.map_some', Option.some.injEq, Prod.mk.injEq] at h
    exact ⟨s, reachable_run 41 stackAndPause _ s (Reachable.init bagInit (by decide))
      (by decide) hr, h.1, h.2⟩

/-! ## The two lock paths -/

theorem stackAndRest_run :
    Option.map (fun s : State => (s.gameOver, s.grounded))
      (run 41 stackAndRest (initState bagInit)) = some (false, true) := by decide!

theorem stackAndRest_hardDrop :
    Option.map (fun t : State => (t.gameOver, t.grounded, t.lockTimer))
      ((run 41 stackAndRest (initState bagInit)).bind (hardDrop 41 bagInit))
    = some (true, true, (100 : ℚ)) := by decide!

theorem stackAndRest_tickLock :
    Option.map (fun t : State => (t.gameOver, t.grounded, t.lockTimer))
      ((run 41 stackAndRest (initState bagInit)).bind (tickLock 41 bagInit))
    = some (true, false, (0 : ℚ)) := by decide!

/-- C18 fails on the code: in a reachable running state whose piece rests with cells above
the field, the lock of `hardDrop` leaves the grounded flag set and the lock timer at 100 ms,
while the lock at lock-delay expiry clears both. -/
theorem lock_paths_differ :
    ∃ s t1 t2, Reachable s ∧ s.gameOver = false ∧
      hardDrop 41 bagInit s = some t1 ∧ tickLock 41 bagInit s = some t2 ∧
      t1.gameOver = true ∧ t2.gameOver = true ∧
      t1.grounded = true ∧ t2.grounded = false ∧ t1.lockTimer = 100 ∧ t2.lockTimer = 0 ∧
      t1 ≠ t2 := by
  have h := stackAndRest_run
  have h4 := stackAndRest_hardDrop
  have h5 := stackAndRest_tickLock
  cases hr : run 41 stackAndRest (initState bagInit) with
  | none => rw [hr] at h; simp at h
  | some s =>
    rw [hr] at h h4 h5
    simp only [Option.map_some', Option.some.injEq, Prod.mk.injEq, Option.some_bind] at h h4 h5
    cases hd : hardDrop 41 bagInit s with
    | none => rw [hd] at h4; simp at h4
    | some t1 =>
      cases ht : tickLock 41 bagInit s with
      | none => rw [ht] at h5; simp at h5
      | some t2 =>
        rw [hd] at h4; rw [ht] at h5
        simp only [Option.map_some', Option.some.injEq, Prod.mk.injEq] at h4 h5
        refine ⟨s, t1, t2, reachable_run 41 stackAndRest _ s
          (Reachable.init bagInit (by decide)) (by decide) hr, h.1, hd, ht,
          h4.1, h5.1, h4.2.1, h5.2.1, h4.2.2, h5.2.2, ?_⟩
        intro he
        rw [he, h5.2.1] at h4
        exact absurd h4.2.1 (by decide)

/-- Without overflow the two copies of the lock sequence agree (the descent bonus of
`hardDrop` set aside); with overflow they agree up to the grounded flag and the lock timer,
which only the lock at lock-delay expiry resets. -/
theorem lock_paths_agree (fuel : Nat) (sh : List Int) (s : State) :
    (pieceAboveTop s.cur = false → hardDropLock fuel sh 0 s = tickLock fuel sh s) ∧
    (pieceAboveTop s.cur = true →
      tickLock fuel sh s =
        (hardDropLock fuel sh 0 s).map fun t => { t with grounded := false, lockTimer := 0 }) := by
  constructor
  · intro hno
    cases hcl : clearLines fuel (lockPiece s.grid s.cur) with
    | none =>
      unfold hardDropLock tickLock
      simp [hno, hcl]
    | some r =>
      obtain ⟨g1, c⟩ := r
      unfold hardDropLock tickLock
      simp only [hno, hcl, Bool.false_eq_true, if_false, zero_mul, add_zero, Option.map_some']
  · intro hov
    obtain ⟨h1, h2⟩ := lock_of_overflow fuel sh 0 s hov
    rw [h1, h2]
    rfl

/-! ## Spawning -/

/-- A freshly spawned piece of a catalogued kind lies above the field, within the columns. -/
theorem spawn_cells (k : Int) (hk : KindOK k) :
    ∀ c ∈ cells (spawnOf k), c.2 < 0 ∧ 0 ≤ c.1 ∧ c.1 < (COLS : Int) := by
  obtain ⟨h1, h2⟩ := hk
  interval_cases k <;> decide

theorem spawn_above (k : Int) (hk : KindOK k) : pieceAboveTop (spawnOf k) = true := by
  obtain ⟨h1, h2⟩ := hk
  interval_cases k <;> decide

theorem lockPiece_spawn (g : Grid) (k : Int) (hk : KindOK k) : lockPiece g (spawnOf k) = g :=
  lockFold_above (spawnOf k) ((spawnOf k).type + 1) (shapeOf (spawnOf k)) g
    (fun c hc => (spawn_cells k hk (_, _) (List.mem_map.2 ⟨c, hc, rfl⟩)).1)

/-- C13 as stated fails: no board makes a freshly spawned piece of any kind invalid. -/
theorem spawn_never_blocked :
    ¬ ∃ (g : Grid) (k : Int), KindOK k ∧ valid g (spawnOf k) = false := by
  rintro ⟨g, k, hk, hv⟩
  rw [spawn_valid g k hk] at hv
  exact absurd hv (by decide)

/-- C13 (amended): a freshly spawned piece of kind 0..6 (rotation 0, anchor (3,-2)) lies
wholly above the field and is valid against every board.  The spawn step of either lock sets
`gameOver` exactly when the promoted piece is invalid, hence never for a spawned piece; on a
board on which the spawned piece cannot descend, `hardDrop` ends the game through the
overflow test instead. -/
theorem spawn_step (g : Grid) (k : Int) (hk : KindOK k) :
    valid g (spawnOf k) = true ∧
    (∀ c ∈ cells (spawnOf k), c.2 < 0 ∧ 0 ≤ c.1 ∧ c.1 < (COLS : Int)) ∧
    (∀ (fuel : Nat) (sh : List Int) (d : Int) (s : State) (g1 : Grid) (c : Int),
      pieceAboveTop s.cur = false →
      clearLines fuel (lockPiece s.grid s.cur) = some (g1, c) →
      ∃ s2 s3, hardDropLock fuel sh d s = some s2 ∧ tickLock fuel sh s = some s3 ∧
        s2.cur = s.nxt ∧ s3.cur = s.nxt ∧
        s2.gameOver = (s.gameOver || !valid g1 s.nxt) ∧
        s3.gameOver = (s.gameOver || !valid g1 s.nxt) ∧
        (s.nxt = spawnOf k → s2.gameOver = s.gameOver ∧ s3.gameOver = s.gameOver)) ∧
    (∀ (fuel : Nat) (sh : List Int) (s : State), 1 ≤ fuel → s.grid = g → s.cur = spawnOf k →
      valid g (sunk s 1).cur = false →
      hardDrop fuel sh s = some { s with gameOver := true, paused := true }) := by
  refine ⟨spawn_valid g k hk, spawn_cells k hk, ?_, ?_⟩
  · intro fuel sh d s g1 c hno hcl
    obtain ⟨s2, h2, _, _, _, _, _, e6, _, _, _, e10, _⟩ :=
      hardDropLock_noOverflow fuel sh d s g1 c hno hcl
    obtain ⟨s3, h3, _, _, _, _, _, f6, _, _, _, f10, _⟩ :=
      tickLock_noOverflow fuel sh s g1 c hno hcl
    refine ⟨s2, s3, h2, h3, e6, f6, e10, f10, ?_⟩
    intro hn
    rw [e10, f10, hn, spawn_valid g1 k hk]
    simp
  · intro fuel sh s hf hg hc hrest
    obtain ⟨n, rfl⟩ : ∃ n, fuel = n + 1 := ⟨fuel - 1, by omega⟩
    have hd : dropLoop (n + 1) s 0 = some (s, 0) := by
      rw [dropLoop, softMove_down, hg, if_neg (by rw [hrest]; decide)]
    unfold hardDrop
    rw [hd]
    have hov : pieceAboveTop s.cur = true := by rw [hc]; exact spawn_above k hk
    show hardDropLock (n + 1) sh 0 s = _
    rw [(lock_of_overflow (n + 1) sh 0 s hov).1, hc, lockPiece_spawn s.grid k hk]

theorem spawn_step_witness :
    KindOK 3 ∧ valid cappedGrid (spawnOf 3) = true ∧
    valid cappedGrid (sunk cappedState 1).cur = false ∧
    hardDrop 41 bagInit cappedState = some { cappedState with gameOver := true, paused := true } :=
  ⟨by decide, (spawn_step cappedGrid 3 (by decide)).1, by decide,
   (spawn_step cappedGrid 3 (by decide)).2.2.2 41 bagInit cappedState (by decide) (by decide)
     (by decide) (by decide)⟩

/-! ## Score, level and gravity interval -/

theorem ScoreInv_congr (s t : State) (h : scoreFields t = scoreFields s) (hs : ScoreInv s) :
    ScoreInv t := by
  unfold scoreFields at h
  simp only [Prod.mk.injEq] at h
  obtain ⟨h1, h2, h3, h4⟩ := h
  unfold ScoreInv
  rw [h1, h2, h3, h4]
  exact hs

theorem clearLinesLoop_count (fuel : Nat) : ∀ (g : Grid) (y c : Int) (r : Grid × Int),
    clearLinesLoop fuel g y c = some r → c ≤ r.2 := by
  induction fuel with
  | zero => intro g y c r h; simp [clearLinesLoop] at h
  | succ fuel ih =>
    intro g y c r h
    rw [clearLinesLoop] at h
    split_ifs at h
    · injection h with h; rw [← h]
    · have := ih _ _ _ _ h; omega
    · exact ih _ _ _ _ h

theorem clearLines_count (fuel : Nat) (g g1 : Grid) (c : Int)
    (h : clearLines fuel g = some (g1, c)) : 0 ≤ c :=
  clearLinesLoop_count fuel g _ 0 (g1, c) h

theorem tableAt_nonneg (c : Int) : 0 ≤ tableAt c := by
  unfold tableAt
  split_ifs with h
  · generalize c.toNat = n
    match n with
    | 0 | 1 | 2 | 3 | 4 => decide
    | n + 5 => simp [table]
  · exact le_refl _

theorem levelOf_pos (l : Int) (h : 0 ≤ l) : 1 ≤ levelOf l := by
  unfold levelOf
  have := Int.tdiv_nonneg h (by decide : (0 : Int) ≤ 10)
  omega

/-- The scoring block (lines 240-247) keeps the relations. -/
theorem ScoreInv_scored (s : State) (c : Int) (hc : 0 ≤ c) (hs : ScoreInv s) :
    0 ≤ s.score + (if c ≠ 0 then tableAt c * s.level else 0) ∧
    0 ≤ (if c ≠ 0 then s.lines + c else s.lines) ∧
    (if c ≠ 0 then levelOf (s.lines + c) else s.level) =
      levelOf (if c ≠ 0 then s.lines + c else s.lines) ∧
    (if c ≠ 0 then gravityOf (levelOf (s.lines + c)) else s.gravityMs) =
      gravityOf (if c ≠ 0 then levelOf (s.lines + c) else s.level) := by
  obtain ⟨h1, h2, h3, h4⟩ := hs
  have hl : 1 ≤ s.level := by rw [h3]; exact levelOf_pos _ h2
  by_cases h : c = 0
  · simp only [h, ne_eq, not_true_eq_false, if_false, add_zero]
    exact ⟨h1, h2, h3, h4⟩
  · simp only [h, ne_eq, not_false_eq_true, if_true]
    refine ⟨?_, by omega, trivial, trivial⟩
    have := mul_nonneg (tableAt_nonneg c) (by omega : (0 : Int) ≤ s.level)
    omega

theorem ScoreInv_hardDropLock (fuel : Nat) (sh : List Int) (d : Int) (s s2 : State)
    (hd : 0 ≤ d) (hs : ScoreInv s) (h : hardDropLock fuel sh d s = some s2) : ScoreInv s2 := by
  cases hov : pieceAboveTop s.cur with
  | true =>
    rw [(lock_of_overflow fuel sh d s hov).1] at h
    injection h with h
    exact ScoreInv_congr s s2 (by rw [← h]; rfl) hs
  | false =>
    cases hcl : clearLines fuel (lockPiece s.grid s.cur) with
    | none =>
      unfold hardDropLock at h
      simp [hov, hcl] at h
    | some r =>
      obtain ⟨g1, c⟩ := r
      obtain ⟨s3, h3, _, e2, e3, e4, e5, _⟩ := hardDropLock_noOverflow fuel sh d s g1 c hov hcl
      rw [h3] at h
      injection h with h
      subst h
      obtain ⟨a1, a2, a3, a4⟩ := ScoreInv_scored s c (clearLines_count fuel _ g1 c hcl) hs
      unfold ScoreInv
      rw [e2, e3, e4, e5]
      exact ⟨by omega, a2, a3, a4⟩

theorem ScoreInv_tickLock (fuel : Nat) (sh : List Int) (s s2 : State)
    (hs : ScoreInv s) (h : tickLock fuel sh s = some s2) : ScoreInv s2 := by
  cases hov : pieceAboveTop s.cur with
  | true =>
    rw [(lock_of_overflow fuel sh 0 s hov).2] at h
    injection h with h
    exact ScoreInv_congr s s2 (by rw [← h]; rfl) hs
  | false =>
    cases hcl : clearLines fuel (lockPiece s.grid s.cur) with
    | none =>
      unfold tickLock at h
      simp [hov, hcl] at h
    | some r =>
      obtain ⟨g1, c⟩ := r
      obtain ⟨s3, h3, _, e2, e3, e4, e5, _⟩ := tickLock_noOverflow fuel sh s g1 c hov hcl
      rw [h3] at h
      injection h with h
      subst h
      obtain ⟨a1, a2, a3, a4⟩ := ScoreInv_scored s c (clearLines_count fuel _ g1 c hcl) hs
      unfold ScoreInv
      rw [e2, e3, e4, e5]
      exact ⟨a1, a2, a3, a4⟩

theorem scoreFields_softMove (dx dy : Int) (s : State) :
    scoreFields (softMove dx dy s).2 = scoreFields s := by
  unfold softMove
  simp only
  split_ifs <;> rfl

theorem scoreFields_rotate (dir : Int) (s : State) :
    scoreFields (rotate dir s) = scoreFields s := by
  unfold rotate
  simp only
  split <;> rfl

theorem scoreFields_dasLeft (b : Bool) (dt : ℚ) (s : State) :
    scoreFields (dasLeft b dt s) = scoreFields s := by
  unfold dasLeft
  simp only
  split_ifs
  · exact scoreFields_softMove _ _ _
  · exact scoreFields_softMove _ _ _
  · rfl
  · rfl

theorem scoreFields_dasRight (b : Bool) (dt : ℚ) (s : State) :
    scoreFields (dasRight b dt s) = scoreFields s := by
  unfold dasRight
  simp only
  split_ifs
  · exact scoreFields_softMove _ _ _
  · exact scoreFields_softMove _ _ _
  · rfl
  · rfl

theorem scoreFields_moveInput (inp : Input) (s : State) :
    scoreFields (moveInput inp s) = scoreFields s := by
  unfold moveInput
  simp only
  have e1 : ∀ u, scoreFields (if inp.keyLeft = true then (softMove (-1) 0 u).2 else u)
      = scoreFields u := by
    intro u; split_ifs
    · exact scoreFields_softMove _ _ _
    · rfl
  have e2 : ∀ u, scoreFields (if inp.keyRight = true then (softMove 1 0 u).2 else u)
      = scoreFields u := by
    intro u; split_ifs
    · exact scoreFields_softMove _ _ _
    · rfl
  have e3 : ∀ u, scoreFields (if inp.keyUp = true then rotate 1 u else u) = scoreFields u := by
    intro u; split_ifs
    · exact scoreFields_rotate _ _
    · rfl
  have e4 : ∀ u, scoreFields (if inp.keyZ = true then rotate (-1) u else u)
      = scoreFields u := by
    intro u; split_ifs
    · exact scoreFields_rotate _ _
    · rfl
  rw [e4, e3, scoreFields_dasRight, scoreFields_dasLeft, e2, e1]

theorem scoreFields_doHold (sh : List Int) (s : State) :
    scoreFields (doHold sh s) = scoreFields s := by
  unfold doHold
  simp only
  split_ifs <;> rfl

theorem ScoreInv_softDrop (s : State) (hs : ScoreInv s) : ScoreInv (softDrop s) := by
  have h := scoreFields_softMove 0 1 s
  unfold softDrop
  simp only
  generalize softMove 0 1 s = m at h ⊢
  have hm := ScoreInv_congr s m.2 h hs
  split_ifs
  · obtain ⟨h1, h2, h3, h4⟩ := hm
    exact ⟨by show 0 ≤ m.2.score + 1; omega, h2, h3, h4⟩
  · exact hm

theorem ScoreInv_hardDrop (fuel : Nat) (sh : List Int) (s s2 : State)
    (hs : ScoreInv s) (h : hardDrop fuel sh s = some s2) : ScoreInv s2 := by
  unfold hardDrop at h
  cases hd : dropLoop fuel s 0 with
  | none => rw [hd] at h; simp at h
  | some r =>
    obtain ⟨s1, d⟩ := r
    rw [hd] at h
    obtain ⟨n, hr, _, _⟩ := dropLoop_some fuel s 0 (s1, d) hd
    obtain ⟨rfl, rfl⟩ := Prod.mk.inj hr
    exact ScoreInv_hardDropLock fuel sh (0 + (n : Int)) (sunk s n) s2 (by omega)
      (ScoreInv_congr s _ rfl hs) h

theorem ScoreInv_tick (fuel : Nat) (sh : List Int) (dt : ℚ) (s s2 : State)
    (hs : ScoreInv s) (h : tick fuel sh dt s = some s2) : ScoreInv s2 := by
  obtain ⟨_, _, _, _, _, hsc, hli, hle, hgr, _⟩ := gravityStep_fields dt s
  have hm : ScoreInv (gravityStep dt s).2 :=
    ScoreInv_congr s _ (by unfold scoreFields; rw [hsc, hli, hle, hgr]) hs
  obtain ⟨_, _, _, _, _, _, g7, g8, g9, g10, _⟩ := groundStep_fields dt (gravityStep dt s).2
  have hg : ScoreInv (groundStep dt (gravityStep dt s).2) :=
    ScoreInv_congr _ _ (by unfold scoreFields; rw [g7, g8, g9, g10]) hm
  rw [tick_eq] at h
  cases hsite : tickSite dt s with
  | none =>
    rw [hsite] at h
    injection h with h
    rw [← h]; exact hg
  | some t =>
    rw [hsite] at h
    have ht : t = groundStep dt (gravityStep dt s).2 := by
      unfold tickSite at hsite
      simp only at hsite
      split_ifs at hsite
      injection hsite with hsite
      exact hsite.symm
    rw [ht] at h
    exact ScoreInv_tickLock fuel sh _ s2 hg h

theorem ScoreInv_init (sh : List Int) : ScoreInv (initState sh) := by
  refine ⟨le_refl _, le_refl _, ?_, ?_⟩
  · show (1 : Int) = levelOf 0
    decide
  show (1000 : ℚ) = gravityOf 1
  rw [gravityOf_eq 1 (le_refl _)]
  norm_num

theorem ScoreInv_reset (sh : List Int) (s : State) : ScoreInv (reset sh s) := by
  refine ⟨le_refl _, le_refl _, ?_, ?_⟩
  · show (1 : Int) = levelOf 0
    decide
  show (1000 : ℚ) = gravityOf 1
  rw [gravityOf_eq 1 (le_refl _)]
  norm_num

theorem ScoreInv_frame (fuel : Nat) (inp : Input) (s s1 : State) (hs : ScoreInv s)
    (h : frame fuel inp s = some s1) : ScoreInv s1 := by
  unfold frame at h
  simp only at h
  have h1 : ScoreInv (if inp.keyP = true then { s with paused := !s.paused } else s) := by
    split_ifs
    · exact ScoreInv_congr s _ rfl hs
    · exact hs
  generalize (if inp.keyP = true then { s with paused := !s.paused } else s) = u at h h1
  have h2 : ScoreInv (if inp.keyR = true then reset inp.shReset u else u) := by
    split_ifs
    · exact ScoreInv_reset _ _
    · exact h1
  generalize (if inp.keyR = true then reset inp.shReset u else u) = v at h h2
  split_ifs at h
  · cases hp : preTick fuel inp v with
    | none => rw [hp] at h; simp at h
    | some w =>
      rw [hp] at h
      have hw : ScoreInv w := by
        unfold preTick at hp
        simp only at hp
        have hmv : ScoreInv (moveInput inp v) :=
          ScoreInv_congr v _ (scoreFields_moveInput inp v) h2
        generalize moveInput inp v = m at hp hmv
        cases hh : (if inp.keySpace = true then hardDrop fuel inp.shDrop m else some m) with
        | none => rw [hh] at hp; simp at hp
        | some a =>
          rw [hh] at hp
          have ha : ScoreInv a := by
            split_ifs at hh
            · exact ScoreInv_hardDrop fuel _ m a hmv hh
            · injection hh with hh; rw [← hh]; exact hmv
          simp only [Option.some.injEq] at hp
          have hb : ScoreInv (if inp.downDown = true then softDrop a else a) := by
            split_ifs
            · exact ScoreInv_softDrop a ha
            · exact ha
          generalize (if inp.downDown = true then softDrop a else a) = b at hp hb
          rw [← hp]
          split_ifs
          · exact ScoreInv_congr _ _ (scoreFields_doHold _ _) hb
          · exact hb
      exact ScoreInv_tick fuel _ _ w s1 hw h
  · injection h with h
    rw [← h]; exact h2

theorem ScoreInv_reachable (s : State) (h : Reachable s) : ScoreInv s := by
  induction h with
  | init sh _ => exact ScoreInv_init sh
  | step fuel inp s s1 _ _ hf ih => exact ScoreInv_frame fuel inp s s1 ih hf

theorem reachable_of_reachableInt (s : State) (h : ReachableInt s) : Reachable s := by
  induction h with
  | init sh hsh => exact Reachable.init sh hsh
  | step fuel inp s s1 _ hok hf _ ih => exact Reachable.step fuel inp s s1 ih hok hf

theorem inIntRange_of_reachableInt (s : State) (h : ReachableInt s) : InIntRange s := by
  cases h with
  | init sh hsh =>
    exact ⟨show (0 : Int) ≤ INT_MAX by decide, show (0 : Int) ≤ INT_MAX by decide⟩
  | step fuel inp s0 s1 _ _ _ hr => exact hr

theorem valid_inBounds (g : Grid) (p : Piece) (hv : valid g p = true) : InBounds p := by
  intro c hc
  obtain ⟨h1, h2, h3, _⟩ := (valid_iff_cells g p).1 hv c hc
  exact ⟨h1, h2, h3⟩

theorem inBounds_shape (p : Piece) (h : InBounds p) :
    ∀ c ∈ shapeOf p, 0 ≤ p.x + c.1 ∧ p.x + c.1 < (COLS : Int) ∧ p.y + c.2 < (ROWS : Int) :=
  fun c hc => h (p.x + c.1, p.y + c.2) (List.mem_map.2 ⟨c, hc, rfl⟩)

theorem lockPiece_WF_of_inBounds (g : Grid) (p : Piece) (hwf : g.WF) (h : InBounds p) :
    (lockPiece g p).WF :=
  (lockFold_spec p (p.type + 1) (shapeOf p) g hwf (inBounds_shape p h)).1

theorem cellAt_lockPiece (g : Grid) (p : Piece) (hwf : g.WF) (h : InBounds p) (y x : Nat) :
    cellAt (lockPiece g p) y x =
      if ((x : Int), (y : Int)) ∈ cells p then p.type + 1 else cellAt g y x :=
  (lockFold_spec p (p.type + 1) (shapeOf p) g hwf (inBounds_shape p h)).2 y x

/-- Locking a piece only adds occupied cells: a placement valid on the merged grid was valid
before. -/
theorem valid_of_valid_lockPiece (g : Grid) (p q : Piece) (hwf : g.WF) (h : InBounds p)
    (hk : KindOK p.type) (hv : valid (lockPiece g p) q = true) : valid g q = true := by
  rw [valid_iff_cells] at hv ⊢
  intro c hc
  obtain ⟨h1, h2, h3, h4⟩ := hv c hc
  refine ⟨h1, h2, h3, ?_⟩
  intro h0
  have := h4 h0
  rw [cellAt_lockPiece g p hwf h] at this
  split_ifs at this
  · obtain ⟨k1, k2⟩ := hk
    omega
  · exact this

theorem spawn_rotOK (k : Int) (hk : KindOK k) : RotOK (spawnOf k) := by
  obtain ⟨h1, h2⟩ := hk
  interval_cases k <;> decide

theorem spawn_inBounds (k : Int) (hk : KindOK k) : InBounds (spawnOf k) := by
  intro c hc
  obtain ⟨h1, h2, h3⟩ := spawn_cells k hk c hc
  exact ⟨h2, h3, by unfold ROWS; omega⟩

theorem isShuffle_kinds (sh : List Int) (h : IsShuffle sh) : BagOK sh := by
  intro k hk
  have hm : k ∈ bagInit := (List.Perm.mem_iff h).1 hk
  have hall : ∀ j ∈ bagInit, KindOK j := by decide
  exact hall k hm

theorem getLastD_mem (l : List Int) (h : l ≠ []) : l.getLastD 0 ∈ l := by
  cases l with
  | nil => exact absurd rfl h
  | cons a t =>
    rw [List.getLastD_cons]
    induction t generalizing a with
    | nil => simp
    | cons b t ih =>
      rw [List.getLastD_cons]
      exact List.mem_cons_of_mem _ (ih b (by simp))

/-- A call of `SevenBag::next` on a bag of kinds returns a kind and leaves a bag of kinds. -/
theorem next_kinds (sh bag : List Int) (hs : IsShuffle sh) (hb : BagOK bag) :
    KindOK (SevenBag.next sh bag).1 ∧ BagOK (SevenBag.next sh bag).2 := by
  have hsh := isShuffle_kinds sh hs
  have hne : sh ≠ [] := by
    intro h; rw [h] at hs
    have := List.Perm.length_eq hs
    simp [bagInit] at this
  unfold SevenBag.next
  simp only
  cases bag with
  | nil =>
    simp only [List.isEmpty_nil, if_true]
    exact ⟨hsh _ (getLastD_mem sh hne), fun k hk => hsh k (List.dropLast_subset _ hk)⟩
  | cons a t =>
    simp only [List.isEmpty_cons, Bool.false_eq_true, if_false]
    exact ⟨hb _ (getLastD_mem _ (by simp)), fun k hk => hb k (List.dropLast_subset _ hk)⟩

theorem clearLinesLoop_mono (fuel : Nat) : ∀ (g : Grid) (y c : Int) (r : Grid × Int),
    clearLinesLoop fuel g y c = some r → ∀ k, clearLinesLoop (fuel + k) g y c = some r := by
  induction fuel with
  | zero => intro g y c r h; simp [clearLinesLoop] at h
  | succ fuel ih =>
    intro g y c r h k
    rw [show fuel + 1 + k = (fuel + k) + 1 by omega, clearLinesLoop]
    rw [clearLinesLoop] at h
    split_ifs at h ⊢
    · exact h
    · exact ih _ _ _ _ h k
    · exact ih _ _ _ _ h k

/-- Whatever the budget, a result of `clearLines` on a 20x10 grid is the compacted grid and
the number of full rows. -/
theorem clearLines_result (fuel : Nat) (g g1 : Grid) (c : Int) (hwf : g.WF)
    (h : clearLines fuel g = some (g1, c)) :
    g1 = List.replicate (fullCount g) emptyRow ++ g.filter (fun r => !Row.isFull r) ∧
    c = (fullCount g : Int) := by
  have h1 := clearLinesLoop_mono fuel g _ 0 (g1, c) h (2 * ROWS + 1)
  have h2 := clearLines_eq g hwf (fuel + (2 * ROWS + 1)) (by omega)
  unfold clearLines at h2
  rw [h1] at h2
  injection h2 with h2
  exact ⟨(Prod.mk.inj h2).1, (Prod.mk.inj h2).2⟩

/-- The compacted grid is a 20x10 grid without a full row. -/
theorem compact_WF (g : Grid) (hwf : g.WF) :
    Grid.WF (List.replicate (fullCount g) emptyRow ++ g.filter (fun r => !Row.isFull r)) ∧
    fullCount (List.replicate (fullCount g) emptyRow ++ g.filter (fun r => !Row.isFull r))
      = 0 := by
  constructor
  · constructor
    · rw [List.length_append, List.length_replicate]
      have h1 : (g.filter (fun r => !Row.isFull r)).length = g.countP (fun r => !Row.isFull r) :=
        (List.countP_eq_length_filter _ _).symm
      have h2 := List.length_eq_countP_add_countP Row.isFull g
      have h3 : g.countP (fun r => !Row.isFull r) = g.countP (fun a => ¬ Row.isFull a = true) := by
        congr 1; funext r; simp
      unfold fullCount
      rw [h1, h3, ← hwf.1]
      omega
    · intro r hr
      rcases List.mem_append.1 hr with h | h
      · rw [(List.mem_replicate.1 h).2]; rfl
      · exact hwf.2 r (List.mem_of_mem_filter h)
  · unfold fullCount
    rw [List.countP_append, List.countP_eq_zero.2, List.countP_eq_zero.2]
    · intro r hr
      have := (List.mem_filter.1 hr).2
      simpa using this
    · intro r hr
      rw [(List.mem_replicate.1 hr).2, emptyRow_not_full]
      decide

theorem countP_eq_range (P : Row → Bool) : ∀ l : List Row,
    l.countP P = (List.range l.length).countP (fun i => P (l.getD i [])) := by
  intro l
  induction l with
  | nil => rfl
  | cons a t ih =>
    rw [List.length_cons, List.range_succ_eq_map, List.countP_cons, List.countP_cons,
      List.countP_map, ih]
    simp only [List.getD_cons_zero]
    congr 1

theorem count_le_of_rows (Q : Nat → Bool) (L : List Int) (n : Nat)
    (h : ∀ y, y < n → Q y = true → (y : Int) ∈ L) :
    (List.range n).countP Q ≤ L.length := by
  rw [List.countP_eq_length_filter]
  have hnd : ((List.range n).filter Q).Nodup := (List.nodup_range n).filter _
  have hnd2 : (((List.range n).filter Q).map (fun y : Nat => (y : Int))).Nodup :=
    hnd.map (fun a b hab => by exact_mod_cast hab)
  have hsub : ((List.range n).filter Q).map (fun y : Nat => (y : Int)) ⊆ L := by
    intro z hz
    obtain ⟨y, hy, rfl⟩ := List.mem_map.1 hz
    obtain ⟨hy1, hy2⟩ := List.mem_filter.1 hy
    exact h y (List.mem_range.1 hy1) hy2
  have := (List.subperm_of_subset hnd2 hsub).length_le
  rwa [List.length_map] at this

theorem not_full_of_count_zero (g : Grid) (h : fullCount g = 0) (y : Nat) (hy : y < g.length) :
    Row.isFull (g.getD y []) = false := by
  have hall := List.countP_eq_zero.1 h
  have hm : g.getD y [] ∈ g := by
    rw [List.getD_eq_getElem?_getD, List.getElem?_eq_getElem hy]
    exact List.getElem_mem hy
  have := hall _ hm
  simpa using this

/-- Locking a piece on a board without a full row fills at most four rows, those the piece
has a cell in. -/
theorem fullCount_lockPiece (g : Grid) (p : Piece) (hwf : g.WF) (h0 : fullCount g = 0)
    (hb : InBounds p) (hk : KindOK p.type) : fullCount (lockPiece g p) ≤ 4 := by
  have hwf2 := lockPiece_WF_of_inBounds g p hwf hb
  have hlen : ((cells p).map Prod.snd).length = 4 := by
    unfold cells
    rw [List.length_map, List.length_map]
    exact (shapeOf_bounds p hk).1
  unfold fullCount
  rw [countP_eq_range, ← hlen]
  apply count_le_of_rows
  intro y hy hfull
  rw [hwf2.1] at hy
  by_contra hnot
  have hrow := not_full_of_count_zero g h0 y (by rw [hwf.1]; exact hy)
  rw [← rowFull_eq g y (WF_getD_length g hwf y hy)] at hrow
  rw [← rowFull_eq _ y (WF_getD_length _ hwf2 y hy)] at hfull
  unfold rowFull at hrow hfull
  rw [List.all_eq_true] at hfull
  have : ∃ x ∈ List.range COLS, ¬ ((cellAt g y x != 0) = true) := by
    by_contra hne
    push_neg at hne
    have : (List.range COLS).all (fun x => cellAt g y x != 0) = true :=
      List.all_eq_true.2 hne
    rw [this] at hrow
    exact absurd hrow (by decide)
  obtain ⟨x, hx, hzero⟩ := this
  have hf := hfull x hx
  rw [cellAt_lockPiece g p hwf hb] at hf
  have hmem : ¬ (((x : Int), (y : Int)) ∈ cells p) := by
    intro hm
    exact hnot (List.mem_map.2 ⟨_, hm, rfl⟩)
  rw [if_neg hmem] at hf
  exact hzero hf

theorem candidateRot_range (dir : Int) (p : Piece) (hk : KindOK p.type) :
    0 ≤ candidateRot dir p ∧ candidateRot dir p < ((rotsOf p.type).length : Int) := by
  have hn := rotsOf_length_pos p.type hk
  unfold candidateRot
  split_ifs
  · exact ⟨Int.emod_nonneg _ (by omega), Int.emod_lt_of_pos _ hn⟩
  · exact ⟨Int.emod_nonneg _ (by omega), Int.emod_lt_of_pos _ hn⟩

/-- Replacing the current piece by a valid placement of the same kind with its rotation index
in range keeps the invariant. -/
theorem Safe_setCur (s : State) (p : Piece) (hs : Safe s) (ht : p.type = s.cur.type)
    (hr : RotOK p) (hv : valid s.grid p = true) : Safe { s with cur := p } := by
  obtain ⟨⟨b1, b2, _, _, b5, b6, b7⟩, hrun⟩ := hs
  refine ⟨⟨b1, by rw [← ht] at b2; exact b2, hr, valid_inBounds _ _ hv, b5, b6, b7⟩, ?_⟩
  intro hgo
  exact ⟨hv, (hrun hgo).2⟩

theorem Safe_softMove (dx dy : Int) (s : State) (hs : Safe s) : Safe (softMove dx dy s).2 := by
  unfold softMove
  simp only
  split_ifs with hv
  · exact Safe_setCur s _ hs rfl hs.1.2.2.1 hv
  · exact hs

theorem flags_softMove (dx dy : Int) (s : State) :
    (softMove dx dy s).2.gameOver = s.gameOver ∧ (softMove dx dy s).2.paused = s.paused := by
  unfold softMove
  simp only
  split_ifs <;> exact ⟨rfl, rfl⟩

theorem Safe_rotate (dir : Int) (s : State) (hs : Safe s) : Safe (rotate dir s) := by
  have hk := hs.1.2.1
  rw [rotate_eq dir s hk hs.1.2.2.1]
  split
  · rename_i w hw
    have hv : valid s.grid w = true := by
      have := List.find?_some hw
      exact this
    obtain ⟨k, _, rfl⟩ := List.mem_map.1 (List.mem_of_find?_eq_some hw)
    exact Safe_setCur s _ hs rfl (candidateRot_range dir s.cur hk) hv
  · exact hs

theorem flags_rotate (dir : Int) (s : State) :
    (rotate dir s).gameOver = s.gameOver ∧ (rotate dir s).paused = s.paused := by
  unfold rotate
  simp only
  split <;> exact ⟨rfl, rfl⟩

/-- Changing the repeat timers keeps the invariant. -/
theorem Safe_holdL (s : State) (q : ℚ) (hs : Safe s) : Safe { s with holdL := q } := hs

theorem Safe_holdR (s : State) (q : ℚ) (hs : Safe s) : Safe { s with holdR := q } := hs

theorem Safe_dasLeft (b : Bool) (dt : ℚ) (s : State) (hs : Safe s) :
    Safe (dasLeft b dt s) ∧ (dasLeft b dt s).gameOver = s.gameOver ∧
    (dasLeft b dt s).paused = s.paused := by
  unfold dasLeft
  simp only
  have h1 := Safe_softMove (-1) 0 { s with holdL := fadd s.holdL dt } (Safe_holdL s _ hs)
  have h2 := flags_softMove (-1) 0 { s with holdL := fadd s.holdL dt }
  split_ifs
  · exact ⟨Safe_holdL _ _ h1, h2.1, h2.2⟩
  · exact ⟨h1, h2.1, h2.2⟩
  · exact ⟨hs, rfl, rfl⟩
  · exact ⟨hs, rfl, rfl⟩

theorem Safe_dasRight (b : Bool) (dt : ℚ) (s : State) (hs : Safe s) :
    Safe (dasRight b dt s) ∧ (dasRight b dt s).gameOver = s.gameOver ∧
    (dasRight b dt s).paused = s.paused := by
  unfold dasRight
  simp only
  have h1 := Safe_softMove 1 0 { s with holdR := fadd s.holdR dt } (Safe_holdR s _ hs)
  have h2 := flags_softMove 1 0 { s with holdR := fadd s.holdR dt }
  split_ifs
  · exact ⟨Safe_holdR _ _ h1, h2.1, h2.2⟩
  · exact ⟨h1, h2.1, h2.2⟩
  · exact ⟨hs, rfl, rfl⟩
  · exact ⟨hs, rfl, rfl⟩

/-- The moves and rotations of a frame keep the invariant and the flags. -/
theorem Safe_moveInput (inp : Input) (s : State) (hs : Safe s) :
    Safe (moveInput inp s) ∧ (moveInput inp s).gameOver = s.gameOver := by
  unfold moveInput
  simp only
  have e1 : Safe (if inp.keyLeft = true then (softMove (-1) 0 s).2 else s) ∧
      (if inp.keyLeft = true then (softMove (-1) 0 s).2 else s).gameOver = s.gameOver := by
    split_ifs
    · exact ⟨Safe_softMove _ _ s hs, (flags_softMove _ _ s).1⟩
    · exact ⟨hs, rfl⟩
  generalize (if inp.keyLeft = true then (softMove (-1) 0 s).2 else s) = s1 at e1 ⊢
  have e2 : Safe (if inp.keyRight = true then (softMove 1 0 s1).2 else s1) ∧
      (if inp.keyRight = true then (softMove 1 0 s1).2 else s1).gameOver = s.gameOver := by
    split_ifs
    · exact ⟨Safe_softMove _ _ s1 e1.1, by rw [(flags_softMove _ _ s1).1, e1.2]⟩
    · exact e1
  generalize (if inp.keyRight = true then (softMove 1 0 s1).2 else s1) = s2 at e2 ⊢
  have e3 := Safe_dasLeft inp.downLeft inp.dt s2 e2.1
  generalize dasLeft inp.downLeft inp.dt s2 = s3 at e3 ⊢
  have e4 := Safe_dasRight inp.downRight inp.dt s3 e3.1
  generalize dasRight inp.downRight inp.dt s3 = s4 at e4 ⊢
  have e5 : Safe (if inp.keyUp = true then rotate 1 s4 else s4) ∧
      (if inp.keyUp = true then rotate 1 s4 else s4).gameOver = s.gameOver := by
    split_ifs
    · exact ⟨Safe_rotate _ s4 e4.1, by rw [(flags_rotate _ s4).1, e4.2.1, e3.2.1, e2.2]⟩
    · exact ⟨e4.1, by rw [e4.2.1, e3.2.1, e2.2]⟩
  generalize (if inp.keyUp = true then rotate 1 s4 else s4) = s5 at e5 ⊢
  split_ifs
  · exact ⟨Safe_rotate _ s5 e5.1, by rw [(flags_rotate _ s5).1, e5.2]⟩
  · exact e5

/-- The state after a lock without overflow satisfies the invariant and is as much game over
as before. -/
theorem Safe_locked (fuel : Nat) (sh : List Int) (s s1 : State) (g1 : Grid) (c : Int)
    (hb : Base s) (hsh : IsShuffle sh)
    (hcl : clearLines fuel (lockPiece s.grid s.cur) = some (g1, c))
    (e1 : s1.grid = g1) (e6 : s1.cur = s.nxt)
    (e7 : s1.nxt = spawnOf (SevenBag.next sh s.bag).1) (e8 : s1.bag = (SevenBag.next sh s.bag).2)
    (e10 : s1.gameOver = (s.gameOver || !valid g1 s.nxt)) (e14 : s1.holdType = s.holdType) :
    Safe s1 ∧ s1.gameOver = s.gameOver := by
  obtain ⟨b1, b2, b3, b4, ⟨kn, hkn, hnxt⟩, b6, b7⟩ := hb
  have hwfm := lockPiece_WF_of_inBounds s.grid s.cur b1 b4
  obtain ⟨hg1, _⟩ := clearLines_result fuel _ g1 c hwfm hcl
  obtain ⟨hwf1, hfc1⟩ := compact_WF _ hwfm
  rw [← hg1] at hwf1 hfc1
  obtain ⟨hk1, hbag1⟩ := next_kinds sh s.bag hsh b7
  have hv : valid g1 s.nxt = true := by rw [hnxt]; exact spawn_valid g1 kn hkn
  have hgo : s1.gameOver = s.gameOver := by rw [e10, hv]; simp
  refine ⟨⟨⟨?_, ?_, ?_, ?_, ⟨_, hk1, e7⟩, ?_, ?_⟩, ?_⟩, hgo⟩
  · rw [e1]; exact hwf1
  · rw [e6, hnxt]; exact hkn
  · rw [e6, hnxt]; exact spawn_rotOK kn hkn
  · rw [e6, hnxt]; exact spawn_inBounds kn hkn
  · rw [e14]; exact b6
  · rw [e8]; exact hbag1
  · intro _
    exact ⟨by rw [e1, e6]; exact hv, by rw [e1]; exact hfc1⟩

/-- The state after a lock with overflow has well-formed data and is game over. -/
theorem Base_overflow (s : State) (hb : Base s) (b1 : Bool) (q : ℚ) :
    Base { s with grid := lockPiece s.grid s.cur, gameOver := true, paused := true,
                  grounded := b1, lockTimer := q } := by
  obtain ⟨c1, c2, c3, c4, c5, c6, c7⟩ := hb
  exact ⟨lockPiece_WF_of_inBounds s.grid s.cur c1 c4, c2, c3, c4, c5, c6, c7⟩

theorem SafeDrop_hardDropLock (fuel : Nat) (sh : List Int) (d : Int) (t s2 : State)
    (hb : Base t) (hgo : t.gameOver = false) (hsh : IsShuffle sh)
    (hrest : valid t.grid (sunk t 1).cur = false)
    (h : hardDropLock fuel sh d t = some s2) : SafeDrop s2 := by
  cases hov : pieceAboveTop t.cur with
  | true =>
    rw [(lock_of_overflow fuel sh d t hov).1] at h
    injection h with h
    subst h
    refine ⟨⟨Base_overflow t hb t.grounded t.lockTimer, ?_⟩, ?_⟩
    · intro hc; exact absurd hc (by simp)
    · intro _
      refine ⟨hov, ?_⟩
      cases hv : valid (lockPiece t.grid t.cur) (sunk t 1).cur with
      | false => exact hv
      | true =>
        have := valid_of_valid_lockPiece t.grid t.cur _ hb.1 hb.2.2.2.1 hb.2.1 hv
        rw [this] at hrest
        exact absurd hrest (by decide)
  | false =>
    cases hcl : clearLines fuel (lockPiece t.grid t.cur) with
    | none =>
      unfold hardDropLock at h
      simp [hov, hcl] at h
    | some r =>
      obtain ⟨g1, c⟩ := r
      obtain ⟨s3, h3, e1, _, _, _, _, e6, e7, e8, _, e10, _, _, _, e14, _⟩ :=
        hardDropLock_noOverflow fuel sh d t g1 c hov hcl
      rw [h3] at h
      injection h with h
      subst h
      obtain ⟨hsafe, hgo2⟩ := Safe_locked fuel sh t s3 g1 c hb hsh hcl e1 e6 e7 e8 e10 e14
      refine ⟨hsafe, ?_⟩
      intro hc
      rw [hgo2, hgo] at hc
      exact absurd hc (by decide)

theorem Safe_tickLock (fuel : Nat) (sh : List Int) (t s2 : State)
    (hm : SafeMid t) (hsh : IsShuffle sh) (h : tickLock fuel sh t = some s2) : Safe s2 := by
  obtain ⟨⟨hb, hrun⟩, habove⟩ := hm
  cases hov : pieceAboveTop t.cur with
  | true =>
    rw [(lock_of_overflow fuel sh 0 t hov).2] at h
    injection h with h
    subst h
    exact ⟨Base_overflow t hb false 0, fun hc => absurd hc (by simp)⟩
  | false =>
    have hgo : t.gameOver = false := by
      cases hg : t.gameOver with
      | false => rfl
      | true => rw [habove hg] at hov; exact absurd hov (by decide)
    cases hcl : clearLines fuel (lockPiece t.grid t.cur) with
    | none =>
      unfold tickLock at h
      simp [hov, hcl] at h
    | some r =>
      obtain ⟨g1, c⟩ := r
      obtain ⟨s3, h3, e1, _, _, _, _, e6, e7, e8, _, e10, _, _, _, e14, _⟩ :=
        tickLock_noOverflow fuel sh t g1 c hov hcl
      rw [h3] at h
      injection h with h
      subst h
      exact (Safe_locked fuel sh t s3 g1 c hb hsh hcl e1 e6 e7 e8 e10 e14).1

/-- The state in which `hardDrop` performs its lock: the invariant holds there, the piece is
valid and cannot descend. -/
theorem dropSite_safe (fuel : Nat) (m t : State) (d : Int) (hs : Safe m)
    (hgo : m.gameOver = false) (hd : dropLoop fuel m 0 = some (t, d)) :
    Safe t ∧ t.gameOver = false ∧ Running t ∧ valid t.grid (sunk t 1).cur = false := by
  obtain ⟨n, hr, hall, hlast⟩ := dropLoop_some fuel m 0 (t, d) hd
  obtain ⟨rfl, _⟩ := Prod.mk.inj hr
  have hrun := hs.2 hgo
  have hv : valid m.grid (sunk m n).cur = true := by
    by_cases h0 : n = 0
    · subst h0
      have : sunk m ((0 : Nat) : Int) = m := by simpa using sunk_zero m
      rw [this]; exact hrun.1
    · exact hall n (by omega) (le_refl _)
  have hsafe : Safe (sunk m n) := Safe_setCur m _ hs rfl hs.1.2.2.1 hv
  refine ⟨hsafe, hgo, ⟨hv, hrun.2⟩, ?_⟩
  have := hlast
  rw [← sunk_sunk] at this
  exact this

theorem SafeDrop_hardDrop (fuel : Nat) (sh : List Int) (m s2 : State) (hs : Safe m)
    (hgo : m.gameOver = false) (hsh : IsShuffle sh) (h : hardDrop fuel sh m = some s2) :
    SafeDrop s2 := by
  unfold hardDrop at h
  cases hd : dropLoop fuel m 0 with
  | none => rw [hd] at h; simp at h
  | some r =>
    obtain ⟨t, d⟩ := r
    rw [hd] at h
    obtain ⟨h1, h2, _, h4⟩ := dropSite_safe fuel m t d hs hgo hd
    exact SafeDrop_hardDropLock fuel sh d t s2 h1.1 h2 hsh h4 h

theorem SafeDrop_of_running (s : State) (hs : Safe s) (hgo : s.gameOver = false) :
    SafeDrop s :=
  ⟨hs, fun h => by rw [hgo] at h; exact absurd h (by decide)⟩

theorem SafeDrop_softDrop (s : State) (hs : SafeDrop s) : SafeDrop (softDrop s) := by
  unfold softDrop
  rw [softMove_down]
  by_cases hv : valid s.grid (sunk s 1).cur = true
  · rw [if_pos hv]
    simp only [if_true]
    have hgo : s.gameOver = false := by
      cases hg : s.gameOver with
      | false => rfl
      | true => rw [(hs.2 hg).2] at hv; exact absurd hv (by decide)
    have h1 : Safe (sunk s 1) := Safe_setCur s _ hs.1 rfl hs.1.1.2.2.1 hv
    have h2 : Safe { sunk s 1 with score := (sunk s 1).score + 1 } := h1
    exact SafeDrop_of_running _ h2 hgo
  · rw [if_neg hv]
    exact hs

theorem SafeMid_doHold (sh : List Int) (s : State) (hs : SafeDrop s) (hsh : IsShuffle sh) :
    SafeMid (doHold sh s) := by
  obtain ⟨⟨⟨b1, b2, b3, b4, ⟨kn, hkn, hnxt⟩, b6, b7⟩, hrun⟩, hover⟩ := hs
  unfold doHold
  by_cases hc : s.canHold = true
  · simp only [hc, Bool.not_true, Bool.false_eq_true, if_false]
    obtain ⟨hk1, hbag1⟩ := next_kinds sh s.bag hsh b7
    by_cases hh : s.holdType = -1
    · simp only [hh, if_true]
      have hv : valid s.grid s.nxt = true := by rw [hnxt]; exact spawn_valid _ kn hkn
      simp only [hv, Bool.not_true, Bool.false_eq_true, if_false]
      refine ⟨⟨⟨b1, by rw [hnxt]; exact hkn, by rw [hnxt]; exact spawn_rotOK kn hkn,
        by rw [hnxt]; exact spawn_inBounds kn hkn, ⟨_, hk1, rfl⟩, Or.inr b2, hbag1⟩, ?_⟩, ?_⟩
      · intro hgo; exact ⟨hv, (hrun hgo).2⟩
      · intro _; show pieceAboveTop s.nxt = true
        rw [hnxt]; exact spawn_above kn hkn
    · simp only [hh, if_false]
      have hkh : KindOK s.holdType := by
        rcases b6 with h | h
        · exact absurd h hh
        · exact h
      have hv : valid s.grid { type := s.holdType, r := 0, x := 3, y := -2 } = true :=
        spawn_valid _ _ hkh
      simp only [hv, Bool.not_true, Bool.false_eq_true, if_false]
      refine ⟨⟨⟨b1, hkh, spawn_rotOK _ hkh, spawn_inBounds _ hkh, ⟨kn, hkn, hnxt⟩,
        Or.inr b2, b7⟩, ?_⟩, ?_⟩
      · intro hgo; exact ⟨hv, (hrun hgo).2⟩
      · intro _; exact spawn_above _ hkh
  · simp only [Bool.not_eq_true] at hc
    simp only [hc, Bool.not_false, if_true]
    exact ⟨⟨⟨b1, b2, b3, b4, ⟨kn, hkn, hnxt⟩, b6, b7⟩, hrun⟩, fun h => (hover h).1⟩

theorem SafeMid_of_SafeDrop (s : State) (hs : SafeDrop s) : SafeMid s :=
  ⟨hs.1, fun h => (hs.2 h).1⟩

/-- What a running frame does before gravity keeps the invariant. -/
theorem SafeMid_preTick (fuel : Nat) (inp : Input) (s w : State) (hs : Safe s)
    (hgo : s.gameOver = false) (hok : inp.OK) (h : preTick fuel inp s = some w) :
    SafeMid w := by
  unfold preTick at h
  simp only at h
  obtain ⟨hm, hmg⟩ := Safe_moveInput inp s hs
  rw [hgo] at hmg
  generalize moveInput inp s = m at h hm hmg
  cases hh : (if inp.keySpace = true then hardDrop fuel inp.shDrop m else some m) with
  | none => rw [hh] at h; simp at h
  | some a =>
    rw [hh] at h
    have ha : SafeDrop a := by
      split_ifs at hh
      · exact SafeDrop_hardDrop fuel _ m a hm hmg hok.2.1 hh
      · injection hh with hh; rw [← hh]; exact SafeDrop_of_running m hm hmg
    simp only [Option.some.injEq] at h
    have hb : SafeDrop (if inp.downDown = true then softDrop a else a) := by
      split_ifs
      · exact SafeDrop_softDrop a ha
      · exact ha
    generalize (if inp.downDown = true then softDrop a else a) = b at h hb
    rw [← h]
    split_ifs
    · exact SafeMid_doHold _ b hb hok.2.2.1
    · exact SafeMid_of_SafeDrop b hb

theorem SafeMid_congr (s t : State) (h1 : t.grid = s.grid) (h2 : t.cur = s.cur)
    (h3 : t.nxt = s.nxt) (h4 : t.holdType = s.holdType) (h5 : t.bag = s.bag)
    (h6 : t.gameOver = s.gameOver) (hs : SafeMid s) : SafeMid t := by
  unfold SafeMid Safe Base Running
  rw [h1, h2, h3, h4, h5, h6]
  exact hs

theorem Safe_gravityStep (dt : ℚ) (s : State) (hs : Safe s) : Safe (gravityStep dt s).2 := by
  unfold gravityStep
  simp only
  split_ifs
  · exact Safe_softMove 0 1 _ hs
  · exact hs

/-- The state in which a frame enters its lock block satisfies the invariant, and after a
game over earlier in the frame its piece has a cell above the field. -/
theorem tickSite_safe (dt : ℚ) (s t : State) (hs : SafeMid s) (h : tickSite dt s = some t) :
    SafeMid t := by
  unfold tickSite at h
  simp only at h
  split_ifs at h with hc
  injection h with h
  obtain ⟨g1, g2, g3, g4, g5', _, _, _, _, _, _, g12, _⟩ :=
    groundStep_fields dt (gravityStep dt s).2
  obtain ⟨f1, f2, f3, f4, _, _, _, _, _, _, _, _, f13, _, _, fcur, _⟩ := gravityStep_fields dt s
  have hcur := fcur hc.2.1
  rw [← h]
  exact SafeMid_congr s _ (by rw [g1, f1]) (by rw [g2, hcur]) (by rw [g3, f3])
    (by rw [g5', f4]) (by rw [g4, f2]) (by rw [g12, f13]) hs

theorem frame_keysDone (fuel : Nat) (inp : Input) (s : State) :
    frame fuel inp s =
      if !(keysDone inp s).paused && !(keysDone inp s).gameOver then
        (preTick fuel inp (keysDone inp s)).bind (tick fuel inp.shTick inp.dt)
      else some (keysDone inp s) := by
  unfold frame keysDone
  simp only
  split_ifs <;> first | rfl | (cases preTick fuel inp _ <;> rfl)

theorem Safe_tick (fuel : Nat) (sh : List Int) (dt : ℚ) (s s2 : State) (hs : SafeMid s)
    (hsh : IsShuffle sh) (h : tick fuel sh dt s = some s2) : Safe s2 := by
  rw [tick_eq] at h
  cases hsite : tickSite dt s with
  | some t =>
    rw [hsite] at h
    exact Safe_tickLock fuel sh t s2 (tickSite_safe dt s t hs hsite) hsh h
  | none =>
    rw [hsite] at h
    injection h with h
    have hg := Safe_gravityStep dt s hs.1
    obtain ⟨g1, g2, g3, g4, g5, _, _, _, _, _, _, g12, _⟩ :=
      groundStep_fields dt (gravityStep dt s).2
    rw [← h]
    unfold Safe Base Running
    rw [g1, g2, g3, g4, g5, g12]
    exact hg

theorem Safe_start (sh : List Int) (s : State) (hsh : IsShuffle sh)
    (h1 : s.grid = emptyGrid) (h2 : s.cur = spawnOf (SevenBag.next sh []).1)
    (h3 : s.nxt = spawnOf (SevenBag.next sh (SevenBag.next sh []).2).1)
    (h4 : s.bag = (SevenBag.next sh (SevenBag.next sh []).2).2) (h5 : s.holdType = -1) :
    Safe s := by
  obtain ⟨k1, b1⟩ := next_kinds sh [] hsh (fun k hk => absurd hk (List.not_mem_nil k))
  obtain ⟨k2, b2⟩ := next_kinds sh _ hsh b1
  refine ⟨⟨?_, ?_, ?_, ?_, ⟨_, k2, h3⟩, ?_, ?_⟩, ?_⟩
  · rw [h1]; decide
  · rw [h2]; exact k1
  · rw [h2]; exact spawn_rotOK _ k1
  · rw [h2]; exact spawn_inBounds _ k1
  · rw [h5]; exact Or.inl rfl
  · rw [h4]; exact b2
  · intro _
    exact ⟨by rw [h2]; exact spawn_valid _ _ k1, by rw [h1]; decide⟩

theorem Safe_init (sh : List Int) (hsh : IsShuffle sh) : Safe (initState sh) :=
  Safe_start sh _ hsh rfl rfl rfl rfl rfl

theorem Safe_reset (sh : List Int) (s : State) (hsh : IsShuffle sh) : Safe (reset sh s) :=
  Safe_start sh _ hsh rfl rfl rfl rfl rfl

theorem Safe_keysDone (inp : Input) (s : State) (hs : Safe s) (hok : inp.OK) :
    Safe (keysDone inp s) := by
  unfold keysDone
  simp only
  by_cases hr : inp.keyR = true
  · rw [if_pos hr]; exact Safe_reset _ _ hok.1
  · rw [if_neg hr]
    by_cases hp : inp.keyP = true
    · rw [if_pos hp]; exact hs
    · rw [if_neg hp]; exact hs

theorem Safe_frame (fuel : Nat) (inp : Input) (s s1 : State) (hs : Safe s) (hok : inp.OK)
    (h : frame fuel inp s = some s1) : Safe s1 := by
  rw [frame_keysDone] at h
  have hk := Safe_keysDone inp s hs hok
  generalize keysDone inp s = v at h hk
  split_ifs at h with hc
  · have hgo : v.gameOver = false := by
      cases hg : v.gameOver with
      | false => rfl
      | true => rw [hg] at hc; simp at hc
    cases hp : preTick fuel inp v with
    | none => rw [hp] at h; simp at h
    | some w =>
      rw [hp] at h
      exact Safe_tick fuel _ _ w s1 (SafeMid_preTick fuel inp v w hk hgo hok hp) hok.2.2.2 h
  · injection h with h
    rw [← h]; exact hk

theorem Safe_reachable (s : State) (h : Reachable s) : Safe s := by
  induction h with
  | init sh hsh => exact Safe_init sh hsh
  | step fuel inp s s1 _ hok hf ih => exact Safe_frame fuel inp s s1 ih hok hf

/-- Every state in which a frame from a state satisfying the invariant performs a lock has
well-formed data, and unless its piece overflows, a valid piece on a board without a full
row. -/
theorem frameSites_ok (fuel : Nat) (inp : Input) (s t : State) (hs : Safe s) (hok : inp.OK)
    (ht : t ∈ frameSites fuel inp s) : SiteOK t := by
  unfold frameSites at ht
  simp only at ht
  have hk := Safe_keysDone inp s hs hok
  generalize keysDone inp s = v at ht hk
  split_ifs at ht with hc hsp
  · have hgo : v.gameOver = false := by
      cases hg : v.gameOver with
      | false => rfl
      | true => rw [hg] at hc; simp at hc
    rcases List.mem_append.1 ht with h | h
    · obtain ⟨hm, hmg⟩ := Safe_moveInput inp v hk
      rw [hgo] at hmg
      cases hd : dropLoop fuel (moveInput inp v) 0 with
      | none => rw [hd] at h; simp at h
      | some r =>
        obtain ⟨t1, d⟩ := r
        rw [hd] at h
        simp only [Option.map_some', Option.toList_some, List.mem_singleton] at h
        subst h
        obtain ⟨h1, _, h3, _⟩ := dropSite_safe fuel _ t d hm hmg hd
        exact ⟨h1.1, fun _ => h3⟩
    · cases hp : preTick fuel inp v with
      | none => rw [hp] at h; simp at h
      | some w =>
        rw [hp] at h
        simp only [Option.some_bind] at h
        cases hsite : tickSite inp.dt w with
        | none => rw [hsite] at h; simp at h
        | some t1 =>
          rw [hsite] at h
          simp only [Option.toList_some, List.mem_singleton] at h
          subst h
          obtain ⟨⟨hb, hrun⟩, habove⟩ :=
            tickSite_safe inp.dt w t (SafeMid_preTick fuel inp v w hk hgo hok hp) hsite
          refine ⟨hb, fun hno => hrun ?_⟩
          cases hg : t.gameOver with
          | false => rfl
          | true => rw [habove hg] at hno; exact absurd hno (by decide)
  · have hgo : v.gameOver = false := by
      cases hg : v.gameOver with
      | false => rfl
      | true => rw [hg] at hc; simp at hc
    simp only [List.nil_append] at ht
    cases hp : preTick fuel inp v with
    | none => rw [hp] at ht; simp at ht
    | some w =>
      rw [hp] at ht
      simp only [Option.some_bind] at ht
      cases hsite : tickSite inp.dt w with
      | none => rw [hsite] at ht; simp at ht
      | some t1 =>
        rw [hsite] at ht
        simp only [Option.toList_some, List.mem_singleton] at ht
        subst ht
        obtain ⟨⟨hb, hrun⟩, habove⟩ :=
          tickSite_safe inp.dt w t (SafeMid_preTick fuel inp v w hk hgo hok hp) hsite
        refine ⟨hb, fun hno => hrun ?_⟩
        cases hg : t.gameOver with
        | false => rfl
        | true => rw [habove hg] at hno; exact absurd hno (by decide)
  · simp at ht

/-! ## The score-table index -/

/-- C19: in a frame from a reachable state, at every lock whose piece does not overflow (the
locks that call `clearLines`), the board holds no full row before the piece is merged, the
merged board holds at most 4 full rows, every result of `clearLines` on it is a count `c`
with `0 ≤ c ≤ 4`, so `table[c]` is inside the 5-entry table, and the call returns once the
loop has fuel for its `2 * ROWS + 1` iterations. -/
theorem clearLines_count_in_table (fuel : Nat) (inp : Input) (s t : State)
    (hr : Reachable s) (hok : inp.OK) (ht : t ∈ frameSites fuel inp s)
    (hno : pieceAboveTop t.cur = false) :
    fullCount t.grid = 0 ∧
    fullCount (lockPiece t.grid t.cur) ≤ 4 ∧
    (∀ (n : Nat) (g1 : Grid) (c : Int),
      clearLines n (lockPiece t.grid t.cur) = some (g1, c) →
        0 ≤ c ∧ c ≤ 4 ∧ c.toNat < table.length ∧ tableAt c = scoreTable c.toNat) ∧
    (∀ n : Nat, 2 * ROWS + 1 ≤ n →
      ∃ g1 c, clearLines n (lockPiece t.grid t.cur) = some (g1, c)) := by
  obtain ⟨hb, hrun⟩ := frameSites_ok fuel inp s t (Safe_reachable s hr) hok ht
  obtain ⟨hv, h0⟩ := hrun hno
  obtain ⟨hwf, hk, _, hin, _⟩ := hb
  have h4 := fullCount_lockPiece t.grid t.cur hwf h0 hin hk
  have hwf2 := lockPiece_WF_of_inBounds t.grid t.cur hwf hin
  refine ⟨h0, h4, ?_, ?_⟩
  · intro n g1 c hcl
    obtain ⟨_, hc⟩ := clearLines_result n _ g1 c hwf2 hcl
    have ht4 := tableAt_eq _ h4
    rw [hc]
    refine ⟨by omega, by omega, ?_, ?_⟩
    · rw [Int.toNat_ofNat]
      show fullCount (lockPiece t.grid t.cur) < 5
      omega
    · rw [Int.toNat_ofNat]; exact ht4
  · intro n hn
    exact ⟨_, _, clearLines_eq _ hwf2 n hn⟩

theorem clearLines_count_in_table_witness :
    Reachable (initState bagInit) ∧ space.OK ∧
    sunk (initState bagInit) 20 ∈ frameSites 41 space (initState bagInit) ∧
    pieceAboveTop (sunk (initState bagInit) 20).cur = false ∧
    fullCount (lockPiece (sunk (initState bagInit) 20).grid (sunk (initState bagInit) 20).cur)
      ≤ 4 :=
  ⟨Reachable.init bagInit (by decide), by decide, by decide!, by decide,
   (clearLines_count_in_table 41 space (initState bagInit) (sunk (initState bagInit) 20)
      (Reachable.init bagInit (by decide)) (by decide) (by decide!) (by decide)).2.1⟩

/-! ## Index ranges -/

/-- C20: in a reachable state with `gameOver = false` the current piece has its kind in 0..6
and its rotation index within the rotation states of its kind, so its catalogue lookup is
the direct lookup `SHAPES[type][r]` of 4 cells; the next piece has a kind in 0..6 at rotation
0 and the spawn anchor; the held kind is -1 or in 0..6; the board is 20 x 10 and the current
piece is valid against it, every cell within the columns, above the floor and on an empty
cell; and every piece a frame from this state locks has its kind and rotation in range and
its cells within the columns and above the floor, so `lockPiece` writes inside the grid. -/
theorem reachable_in_range (s : State) (hr : Reachable s) (hgo : s.gameOver = false) :
    KindOK s.cur.type ∧ RotOK s.cur ∧
    (shapeOf s.cur = catalogShape s.cur.type s.cur.r ∧ (shapeOf s.cur).length = 4) ∧
    (∃ kn, KindOK kn ∧ s.nxt = { type := kn, r := 0, x := 3, y := -2 }) ∧
    (s.holdType = -1 ∨ KindOK s.holdType) ∧
    s.grid.WF ∧ valid s.grid s.cur = true ∧
    (∀ c ∈ cells s.cur, 0 ≤ c.1 ∧ c.1 < (COLS : Int) ∧ c.2 < (ROWS : Int) ∧
      (0 ≤ c.2 → cellAt s.grid c.2.toNat c.1.toNat = 0)) ∧
    (∀ (fuel : Nat) (inp : Input) (t : State), inp.OK → t ∈ frameSites fuel inp s →
      KindOK t.cur.type ∧ RotOK t.cur ∧ t.grid.WF ∧ (lockPiece t.grid t.cur).WF ∧
      ∀ c ∈ cells t.cur, 0 ≤ c.1 ∧ c.1 < (COLS : Int) ∧ c.2 < (ROWS : Int)) := by
  have hsafe := Safe_reachable s hr
  obtain ⟨⟨hwf, hk, hro, _, hn, hh, _⟩, hrun⟩ := hsafe
  obtain ⟨hv, _⟩ := hrun hgo
  refine ⟨hk, hro, shapeOf_catalog s.cur hk hro, hn, hh, hwf, hv,
    (valid_iff_cells s.grid s.cur).1 hv, ?_⟩
  intro fuel inp t hok ht
  obtain ⟨⟨twf, tk, tr, tin, _⟩, _⟩ := frameSites_ok fuel inp s t (Safe_reachable s hr) hok ht
  exact ⟨tk, tr, twf, lockPiece_WF_of_inBounds t.grid t.cur twf tin, tin⟩

theorem reachable_in_range_witness :
    Reachable (initState bagInit) ∧ (initState bagInit).gameOver = false ∧
    KindOK (initState bagInit).cur.type ∧ RotOK (initState bagInit).cur ∧
    valid (initState bagInit).grid (initState bagInit).cur = true :=
  ⟨Reachable.init bagInit (by decide), rfl,
   (reachable_in_range (initState bagInit) (Reachable.init bagInit (by decide)) rfl).1,
   (reachable_in_range (initState bagInit) (Reachable.init bagInit (by decide)) rfl).2.1,
   (reachable_in_range (initState bagInit)
      (Reachable.init bagInit (by decide)) rfl).2.2.2.2.2.2.1⟩

/-! ## A frame adds to score and line count only -/

theorem scoreFields_eq (s t : State) (h : scoreFields t = scoreFields s) :
    t.score = s.score ∧ t.lines = s.lines := by
  unfold scoreFields at h
  simp only [Prod.mk.injEq] at h
  exact ⟨h.1, h.2.1⟩

/-- The scoring block adds to score and line count. -/
theorem adds_scored (s : State) (c : Int) (hc : 0 ≤ c) (hs : ScoreInv s) :
    s.score ≤ s.score + (if c ≠ 0 then tableAt c * s.level else 0) ∧
    s.lines ≤ (if c ≠ 0 then s.lines + c else s.lines) := by
  obtain ⟨h1, h2, h3, h4⟩ := hs
  have hl : 1 ≤ s.level := by rw [h3]; exact levelOf_pos _ h2
  by_cases h : c = 0
  · simp only [h, ne_eq, not_true_eq_false, if_false, add_zero]
    exact ⟨le_refl _, le_refl _⟩
  · simp only [h, ne_eq, not_false_eq_true, if_true]
    have := mul_nonneg (tableAt_nonneg c) (by omega : (0 : Int) ≤ s.level)
    constructor <;> omega

theorem adds_hardDropLock (fuel : Nat) (sh : List Int) (d : Int) (s s2 : State)
    (hd : 0 ≤ d) (hs : ScoreInv s) (h : hardDropLock fuel sh d s = some s2) :
    s.score ≤ s2.score ∧ s.lines ≤ s2.lines := by
  cases hov : pieceAboveTop s.cur with
  | true =>
    rw [(lock_of_overflow fuel sh d s hov).1] at h
    injection h with h
    rw [← h]
    exact ⟨le_refl _, le_refl _⟩
  | false =>
    cases hcl : clearLines fuel (lockPiece s.grid s.cur) with
    | none =>
      unfold hardDropLock at h
      simp [hov, hcl] at h
    | some r =>
      obtain ⟨g1, c⟩ := r
      obtain ⟨s3, h3, _, e2, e3, _⟩ := hardDropLock_noOverflow fuel sh d s g1 c hov hcl
      rw [h3] at h
      injection h with h
      subst h
      obtain ⟨a1, a2⟩ := adds_scored s c (clearLines_count fuel _ g1 c hcl) hs
      rw [e2, e3]
      exact ⟨by omega, a2⟩

theorem adds_tickLock (fuel : Nat) (sh : List Int) (s s2 : State)
    (hs : ScoreInv s) (h : tickLock fuel sh s = some s2) :
    s.score ≤ s2.score ∧ s.lines ≤ s2.lines := by
  cases hov : pieceAboveTop s.cur with
  | true =>
    rw [(lock_of_overflow fuel sh 0 s hov).2] at h
    injection h with h
    rw [← h]
    exact ⟨le_refl _, le_refl _⟩
  | false =>
    cases hcl : clearLines fuel (lockPiece s.grid s.cur) with
    | none =>
      unfold tickLock at h
      simp [hov, hcl] at h
    | some r =>
      obtain ⟨g1, c⟩ := r
      obtain ⟨s3, h3, _, e2, e3, _⟩ := tickLock_noOverflow fuel sh s g1 c hov hcl
      rw [h3] at h
      injection h with h
      subst h
      obtain ⟨a1, a2⟩ := adds_scored s c (clearLines_count fuel _ g1 c hcl) hs
      rw [e2, e3]
      exact ⟨a1, a2⟩

theorem adds_hardDrop (fuel : Nat) (sh : List Int) (s s2 : State)
    (hs : ScoreInv s) (h : hardDrop fuel sh s = some s2) :
    s.score ≤ s2.score ∧ s.lines ≤ s2.lines := by
  unfold hardDrop at h
  cases hd : dropLoop fuel s 0 with
  | none => rw [hd] at h; simp at h
  | some r =>
    obtain ⟨s1, d⟩ := r
    rw [hd] at h
    obtain ⟨n, hr, _, _⟩ := dropLoop_some fuel s 0 (s1, d) hd
    obtain ⟨rfl, rfl⟩ := Prod.mk.inj hr
    exact adds_hardDropLock fuel sh (0 + (n : Int)) (sunk s n) s2 (by omega)
      (ScoreInv_congr s _ rfl hs) h

theorem adds_softDrop (s : State) :
    s.score ≤ (softDrop s).score ∧ s.lines ≤ (softDrop s).lines := by
  have h := scoreFields_eq s _ (scoreFields_softMove 0 1 s)
  unfold softDrop
  simp only
  generalize softMove 0 1 s = m at h ⊢
  split_ifs
  · exact ⟨by show s.score ≤ m.2.score + 1; omega, by show s.lines ≤ m.2.lines; omega⟩
  · exact ⟨by omega, by omega⟩

theorem adds_tick (fuel : Nat) (sh : List Int) (dt : ℚ) (s s2 : State)
    (hs : ScoreInv s) (h : tick fuel sh dt s = some s2) :
    s.score ≤ s2.score ∧ s.lines ≤ s2.lines := by
  obtain ⟨_, _, _, _, _, hsc, hli, hle, hgr, _⟩ := gravityStep_fields dt s
  have hm : ScoreInv (gravityStep dt s).2 :=
    ScoreInv_congr s _ (by unfold scoreFields; rw [hsc, hli, hle, hgr]) hs
  obtain ⟨_, _, _, _, _, _, g7, g8, g9, g10, _⟩ := groundStep_fields dt (gravityStep dt s).2
  have hg : ScoreInv (groundStep dt (gravityStep dt s).2) :=
    ScoreInv_congr _ _ (by unfold scoreFields; rw [g7, g8, g9, g10]) hm
  rw [tick_eq] at h
  cases hsite : tickSite dt s with
  | none =>
    rw [hsite] at h
    injection h with h
    rw [← h, g7, g8, hsc, hli]
    exact ⟨le_refl _, le_refl _⟩
  | some t =>
    rw [hsite] at h
    have ht : t = groundStep dt (gravityStep dt s).2 := by
      unfold tickSite at hsite
      simp only at hsite
      split_ifs at hsite
      injection hsite with hsite
      exact hsite.symm
    rw [ht] at h
    have := adds_tickLock fuel sh _ s2 hg h
    rw [g7, g8, hsc, hli] at this
    exact this

/-- A frame adds to the score and the line count only: once the restart key is handled,
they do not decrease within the frame. -/
theorem frame_adds_only (fuel : Nat) (inp : Input) (s s1 : State) (hs : ScoreInv s)
    (h : frame fuel inp s = some s1) :
    (keysDone inp s).score ≤ s1.score ∧ (keysDone inp s).lines ≤ s1.lines := by
  rw [frame_keysDone] at h
  have hk : ScoreInv (keysDone inp s) := by
    unfold keysDone
    simp only
    by_cases hr : inp.keyR = true
    · rw [if_pos hr]; exact ScoreInv_reset _ _
    · rw [if_neg hr]
      by_cases hp : inp.keyP = true
      · rw [if_pos hp]; exact ScoreInv_congr s _ rfl hs
      · rw [if_neg hp]; exact hs
  generalize keysDone inp s = v at h hk
  split_ifs at h
  · cases hp : preTick fuel inp v with
    | none => rw [hp] at h; simp at h
    | some w =>
      rw [hp] at h
      simp only [Option.some_bind] at h
      unfold preTick at hp
      simp only at hp
      have hmv := scoreFields_moveInput inp v
      have hmi : ScoreInv (moveInput inp v) := ScoreInv_congr v _ hmv hk
      obtain ⟨m1, m2⟩ := scoreFields_eq v _ hmv
      generalize moveInput inp v = m at hp hmi m1 m2
      cases hh : (if inp.keySpace = true then hardDrop fuel inp.shDrop m else some m) with
      | none => rw [hh] at hp; simp at hp
      | some a =>
        rw [hh] at hp
        have ha : ScoreInv a ∧ m.score ≤ a.score ∧ m.lines ≤ a.lines := by
          split_ifs at hh
          · exact ⟨ScoreInv_hardDrop fuel _ m a hmi hh, adds_hardDrop fuel _ m a hmi hh⟩
          · injection hh with hh; rw [← hh]; exact ⟨hmi, le_refl _, le_refl _⟩
        simp only [Option.some.injEq] at hp
        have hb : ScoreInv (if inp.downDown = true then softDrop a else a) ∧
            a.score ≤ (if inp.downDown = true then softDrop a else a).score ∧
            a.lines ≤ (if inp.downDown = true then softDrop a else a).lines := by
          split_ifs
          · exact ⟨ScoreInv_softDrop a ha.1, adds_softDrop a⟩
          · exact ⟨ha.1, le_refl _, le_refl _⟩
        generalize (if inp.downDown = true then softDrop a else a) = b at hp hb
        have hw : ScoreInv w ∧ b.score ≤ w.score ∧ b.lines ≤ w.lines := by
          rw [← hp]
          split_ifs
          · obtain ⟨d1, d2⟩ := scoreFields_eq b _ (scoreFields_doHold inp.shHold b)
            exact ⟨ScoreInv_congr _ _ (scoreFields_doHold _ _) hb.1, by omega, by omega⟩
          · exact ⟨hb.1, le_refl _, le_refl _⟩
        have ht := adds_tick fuel _ _ w s1 hw.1 h
        constructor <;> omega
  · injection h with h
    rw [← h]
    exact ⟨le_refl _, le_refl _⟩

end Tetris
